import Mathlib

/-! # The in-memory quad store of cayley: B+tree (`graph/memstore/keys.go`) and store

Shallow embedding of `graph/memstore/keys.go` and `graph/memstore/quadstore.go`.

Conventions of the embedding.

* Go `int` and `int64` values are `Int`; the tree code performs no arithmetic on
  keys (they are only handed to the comparator `cmp`), and counts and indexes
  stay far below `2^63`.
* A Go array is a `List` of the array's length.  Indexing, slicing and `copy`
  check the bounds exactly as the Go run time does and yield `Err.panic`
  outside of them.
* A page owned by its parent is stored inside the parent: an index page is
  `Node.x c x` with `x` the array of `(ch, k)` slots, a data page is `Node.d q`.
  A function which mutates pages through pointers returns the new values of
  the pages it was handed.
* Data pages are also reachable through the pointers `first`, `last`, `n`, `p`
  and from enumerators.  Every data page therefore carries its address `a`,
  and the pointer fields `n` and `p` are kept, per address, in the tree.
* `for { ... }` loops that restructure the tree run on a bound computed from
  the height of the tree; running out of the bound is `Err.diverge`.
-/

namespace Memstore

/-- Abnormal outcomes of a call: a Go run-time panic, or a loop that does not return. -/
inductive Err where
  | panic
  | diverge
deriving DecidableEq, Repr

/-- Result of a call that may panic or loop. -/
abbrev M := Except Err

/-- Go `error` values produced by the tree: only `io.EOF`. -/
inductive GoError where
  | EOF
deriving DecidableEq, Repr

/-- Constant `kx` of keys.go. -/
def kx : Int := 32

/-- Constant `kd` of keys.go. -/
def kd : Int := 32

/-- Values stored in the tree are `*Primitive`: `none` is `nil`, `some a` the primitive at address `a`. -/
abbrev V := Option Nat

/-- Type `de` (d element). -/
structure de where
  k : Int
  v : V
deriving DecidableEq, Repr

/-- Zero value `zde`. -/
def zde : de := ⟨0, none⟩

/-- Zero value `zk`. -/
def zk : Int := 0

/-- Type `d` (data page) without its pointer fields `n`, `p`; `a` is the address of the page. -/
structure D where
  a : Nat
  c : Int
  d : List de
deriving DecidableEq, Repr

/-- A page reference `interface{}`: `nil`, a data page `*d` or an index page `*x`
(`c` and the slot array `x` of `(ch, k)` elements `xe`). -/
inductive Node where
  | nil : Node
  | d (q : D) : Node
  | x (c : Int) (x : List (Node × Int)) : Node

/-- Type `x` (index page). -/
structure X where
  c : Int
  x : List (Node × Int)

/-- An index page as a page reference. -/
def X.node (q : X) : Node := .x q.c q.x

/-- Zero value `zxe`. -/
def zxe : Node × Int := (.nil, zk)

/-- Array of a zeroed data page, `[2*kd + 1]de`. -/
def zdArr : List de := List.replicate (2 * kd + 1).toNat zde

/-- Array of a zeroed index page, `[2*kx + 2]xe`. -/
def zxArr : List (Node × Int) := List.replicate (2 * kx + 2).toNat zxe

/-- Zero value `zx`. -/
def zx : X := ⟨0, zxArr⟩

/-! ### Arrays -/

/-- Index expression `a[i]`. -/
def idx {α : Type} (a : List α) (i : Int) : M α :=
  if 0 ≤ i then
    match a[i.toNat]? with
    | some v => pure v
    | none => throw .panic
  else throw .panic

/-- Assignment `a[i] = v`. -/
def upd {α : Type} (a : List α) (i : Int) (v : α) : M (List α) :=
  if 0 ≤ i ∧ i < a.length then pure (a.set i.toNat v) else throw .panic

/-- Slice expression `a[lo:hi]` of an array. -/
def slice {α : Type} (a : List α) (lo hi : Int) : M (List α) :=
  if 0 ≤ lo ∧ lo ≤ hi ∧ hi ≤ a.length then
    pure ((a.drop lo.toNat).take (hi - lo).toNat)
  else throw .panic

/-- Statement `copy(a[lo:hi], src)`: copies `min(hi - lo, len(src))` elements. -/
def copy {α : Type} (a : List α) (lo hi : Int) (src : List α) : M (List α) :=
  if 0 ≤ lo ∧ lo ≤ hi ∧ hi ≤ a.length then
    let n := min (hi - lo).toNat src.length
    pure (a.take lo.toNat ++ src.take n ++ a.drop (lo.toNat + n))
  else throw .panic

/-- Read of `q.x[i].ch`. -/
def chAt (a : List (Node × Int)) (i : Int) : M Node := do
  let s ← idx a i
  pure s.1

/-- Read of `q.x[i].k`. -/
def kAt (a : List (Node × Int)) (i : Int) : M Int := do
  let s ← idx a i
  pure s.2

/-- Assignment `q.x[i].ch = ch`. -/
def setCh (a : List (Node × Int)) (i : Int) (ch : Node) : M (List (Node × Int)) := do
  let s ← idx a i
  upd a i (ch, s.2)

/-- Assignment `q.x[i].k = k`. -/
def setK (a : List (Node × Int)) (i : Int) (k : Int) : M (List (Node × Int)) := do
  let s ← idx a i
  upd a i (s.1, k)

/-- Type assertion `ch.(*d)`. -/
def asD : Node → M D
  | .d q => pure q
  | _ => throw .panic

/-- Type assertion `ch.(*x)`. -/
def asX : Node → M X
  | .x c x => pure ⟨c, x⟩
  | _ => throw .panic

/-! ### Index pages -/

/-- Function `newX`. -/
def newX (ch0 : Node) : M X := do
  let a ← setCh zxArr 0 ch0
  pure ⟨0, a⟩

/-- Method `(q *x) extract`. -/
def X.extract (q : X) (i : Int) : M X := do
  let c := q.c - 1
  if i < c then
    let a1 ← copy q.x i q.x.length (← slice q.x (i + 1) (c + 1))
    let a2 ← setCh a1 c (← chAt a1 (c + 1))
    let a3 ← setK a2 c zk
    let a4 ← upd a3 (c + 1) zxe
    pure ⟨c, a4⟩
  else pure ⟨c, q.x⟩

/-- Method `(q *x) insert`. -/
def X.insert (q : X) (i : Int) (k : Int) (ch : Node) : M X := do
  let c := q.c
  let a3 ← if i < c then do
      let a1 ← setCh q.x (c + 1) (← chAt q.x c)
      let a2 ← copy a1 (i + 2) a1.length (← slice a1 (i + 1) c)
      setK a2 (i + 1) (← kAt a2 i)
    else pure q.x
  let a4 ← setK a3 i k
  let a5 ← setCh a4 (i + 1) ch
  pure ⟨c + 1, a5⟩

/-- Method `(q *x) siblings`; `p` is `none` for a nil receiver. -/
def X.siblings (q : Option X) (i : Int) : M (Option D × Option D) :=
  if 0 ≤ i then
    match q with
    | none => throw .panic
    | some q => do
      let l ← if 0 < i then do
          let ch ← chAt q.x (i - 1)
          let l ← asD ch
          pure (some l)
        else pure none
      let r ← if i < q.c then do
          let ch ← chAt q.x (i + 1)
          let r ← asD ch
          pure (some r)
        else pure none
      pure (l, r)
  else pure (none, none)

/-! ### Data pages -/

/-- Method `(l *d) mvL`. -/
def D.mvL (l r : D) (c : Int) : M (D × D) := do
  let ld ← copy l.d l.c l.d.length (← slice r.d 0 c)
  let rd ← copy r.d 0 r.d.length (← slice r.d c r.c)
  pure ({ l with d := ld, c := l.c + c }, { r with d := rd, c := r.c - c })

/-- Method `(l *d) mvR`. -/
def D.mvR (l r : D) (c : Int) : M (D × D) := do
  let rd1 ← copy r.d c r.d.length (← slice r.d 0 r.c)
  let rd2 ← copy rd1 0 c (← slice l.d (l.c - c) l.d.length)
  pure ({ l with c := l.c - c }, { r with d := rd2, c := r.c + c })

/-! ### Tree -/

/-- Type `Tree`.  `n` and `p` hold the fields `n` and `p` of the data pages by address;
`pool` is the address of the next data page handed out by `btDPool`. -/
structure Tree where
  c : Int
  cmp : Int → Int → Int
  first : Option Nat
  last : Option Nat
  r : Node
  ver : Int
  n : Nat → Option Nat
  p : Nat → Option Nat
  pool : Nat

/-- Outcome of a step for the part of the tree it was handed: `keep n` is the new value of
that part, `root n` says that `t.r` was assigned and `n` is the new root. -/
inductive Upd where
  | keep (n : Node)
  | root (n : Node)

/-- The page of an outcome. -/
def Upd.node : Upd → Node
  | .keep n => n
  | .root n => n

/-- Position of the page `x` in which a descent continues: `par` is the page holding `x` in
slot `j` (`none`: `x` is itself the top of the part of the tree at hand), `i` the index in `x`,
and `root` says that `t.r` was assigned the top. -/
structure Step where
  t : Tree
  par : Option X
  j : Int
  x : X
  i : Int
  root : Bool

/-- Assignment of a pointer field of the data page at address `a`. -/
def setPtr (f : Nat → Option Nat) (a : Nat) (v : Option Nat) : Nat → Option Nat :=
  fun b => if b = a then v else f b

/-- Function `TreeNew`: a zero tree with the comparator set. -/
def TreeNew (cmp : Int → Int → Int) : Tree :=
  { c := 0, cmp := cmp, first := none, last := none, r := .nil, ver := 0,
    n := fun _ => none, p := fun _ => none, pool := 0 }

/-- Call `btDPool.Get().(*d)`: a zeroed data page at a fresh address. -/
def Tree.getD (t : Tree) : Tree × D :=
  ({ t with pool := t.pool + 1, n := setPtr t.n t.pool none, p := setPtr t.p t.pool none },
   ⟨t.pool, 0, zdArr⟩)

/-- Statements `*x = zd; btDPool.Put(x)` for the data page at address `a`. -/
def Tree.putD (t : Tree) (a : Nat) : Tree :=
  { t with n := setPtr t.n a none, p := setPtr t.p a none }

/-- Write-back of the page `ch` into slot `j` of the page that holds it. -/
def X.withCh (p : X) (j : Int) (ch : Node) : M X := do
  let a ← setCh p.x j ch
  pure ⟨p.c, a⟩

/-- The part of the tree at hand once the page `n` below it has its new value. -/
def Upd.under (par : Option X) (j : Int) (root : Bool) : Upd → M Upd
  | .root n => pure (.root n)
  | .keep n => do
    let top ← match par with
      | none => pure n
      | some p => do
        let p ← p.withCh j n
        pure p.node
    pure (if root then .root top else .keep top)

mutual
/-- Function `clr`, on the pointer fields of the data pages it recycles. -/
def clr (t : Tree) : Node → M Tree
  | .nil => pure t
  | .d q => pure (t.putD q.a)
  | .x c xs => if 0 ≤ c then clrSlots t xs (c.toNat + 1) else pure t
/-- Loop `for i := 0; i <= x.c; i++ { clr(x.x[i].ch) }`. -/
def clrSlots (t : Tree) : List (Node × Int) → Nat → M Tree
  | _, 0 => pure t
  | [], _ + 1 => throw .panic
  | s :: rest, m + 1 => do
    let t ← clr t s.1
    clrSlots t rest m
end

/-- Method `Clear`. -/
def Tree.Clear (t : Tree) : M Tree :=
  match t.r with
  | .nil => pure t
  | q => do
    let t ← clr t q
    pure { t with c := 0, first := none, last := none, r := .nil, ver := t.ver + 1 }

/-- Loop of `find` over the keys of a page. -/
def findLoop (cmp : Int → Int → Int) (keys : List Int) (k : Int) : Nat → Int → Int → M (Int × Bool)
  | 0, _, _ => throw .diverge
  | fuel + 1, l, h =>
    if l ≤ h then do
      let m := (l + h) / 2
      let mk ← idx keys m
      let c := cmp k mk
      if c > 0 then findLoop cmp keys k fuel (m + 1) h
      else if c = 0 then pure (m, true)
      else findLoop cmp keys k fuel l (m - 1)
    else pure (l, false)

/-- Method `find`. -/
def Tree.find (t : Tree) (q : Node) (k : Int) : M (Int × Bool) :=
  match q with
  | .x c xs => findLoop t.cmp (xs.map (·.2)) k (c.toNat + 1) 0 (c - 1)
  | .d q => findLoop t.cmp (q.d.map (·.k)) k (q.c.toNat + 1) 0 (q.c - 1)
  | .nil => pure (0, false)

/-- Method `extract` of the tree. -/
def Tree.extract (t : Tree) (q : D) (i : Int) : M (Tree × D) := do
  let c := q.c - 1
  let d1 ← if i < c then copy q.d i q.d.length (← slice q.d (i + 1) (c + 1)) else pure q.d
  let d2 ← upd d1 c zde
  pure ({ t with ver := t.ver + 1, c := t.c - 1 }, { q with c := c, d := d2 })

/-- Method `insert` of the tree. -/
def Tree.insert (t : Tree) (q : D) (i : Int) (k : Int) (v : V) : M (Tree × D) := do
  let c := q.c
  let d1 ← if i < c then copy q.d (i + 1) q.d.length (← slice q.d i c) else pure q.d
  let d2 ← upd d1 i ⟨k, v⟩
  pure ({ t with ver := t.ver + 1, c := t.c + 1 }, { q with c := c + 1, d := d2 })

/-- Method `Len`. -/
def Tree.Len (t : Tree) : Int := t.c

/-- Method `split`. -/
def Tree.split (t : Tree) (p : Option X) (q : D) (pi i : Int) (k : Int) (v : V) :
    M (Tree × Upd) := do
  let t := { t with ver := t.ver + 1 }
  let (t, r) := t.getD
  let t := match t.n q.a with
    | some nx => { t with n := setPtr t.n r.a (some nx), p := setPtr t.p nx (some r.a) }
    | none => { t with last := some r.a }
  let t := { t with n := setPtr t.n q.a (some r.a), p := setPtr t.p r.a (some q.a) }
  let rd ← copy r.d 0 r.d.length (← slice q.d kd (2 * kd))
  let qd ← slice q.d 0 kd
  let q := { q with d := qd ++ List.replicate (q.d.length - qd.length) zde, c := kd }
  let r := { r with d := rd, c := kd }
  let (t, r, done) ← if i > kd then do
      let (t, r) ← t.insert r (i - kd) k v
      pure (t, r, true)
    else pure (t, r, false)
  let r0 ← idx r.d 0
  let (top, j, root) ← if pi ≥ 0 then
      match p with
      | none => throw .panic
      | some p => do
        let p ← p.insert pi r0.k (.d r)
        pure (p, pi, false)
    else do
      let nr ← newX (.d q)
      let nr ← nr.insert 0 r0.k (.d r)
      pure (nr, 0, true)
  let (t, q) ← if done then pure (t, q) else t.insert q i k v
  let top ← top.withCh j (.d q)
  pure ({ t with r := if root then top.node else t.r }, if root then .root top.node else .keep top.node)

/-- Method `overflow`. -/
def Tree.overflow (t : Tree) (p : Option X) (q : D) (pi i : Int) (k : Int) (v : V) :
    M (Tree × Upd) := do
  let t := { t with ver := t.ver + 1 }
  let (l, r) ← X.siblings p pi
  match l.filter (fun l => l.c < 2 * kd), r.filter (fun r => r.c < 2 * kd), p with
  | some l, _, some p => do
    let (l, q) ← l.mvL q 1
    let (t, q) ← t.insert q (i - 1) k v
    let p ← p.withCh (pi - 1) (.d l)
    let p ← p.withCh pi (.d q)
    let q0 ← idx q.d 0
    let a ← setK p.x (pi - 1) q0.k
    pure (t, .keep (.x p.c a))
  | none, some r, some p =>
    if i < 2 * kd then do
      let (q, r) ← q.mvR r 1
      let (t, q) ← t.insert q i k v
      let p ← p.withCh pi (.d q)
      let p ← p.withCh (pi + 1) (.d r)
      let r0 ← idx r.d 0
      let a ← setK p.x pi r0.k
      pure (t, .keep (.x p.c a))
    else do
      let (t, r) ← t.insert r 0 k v
      let p ← p.withCh (pi + 1) (.d r)
      let a ← setK p.x pi k
      pure (t, .keep (.x p.c a))
  | none, none, _ => t.split p q pi i k v
  | _, _, none => throw .panic

/-- Method `splitX`. -/
def Tree.splitX (t : Tree) (p : Option X) (q : X) (pi i : Int) : M Step := do
  let t := { t with ver := t.ver + 1 }
  let rx ← copy zxArr 0 zxArr.length (← slice q.x (kx + 1) q.x.length)
  let r : X := ⟨kx, rx⟩
  let sep ← kAt q.x kx
  let qk ← setK q.x kx zk
  let qh ← slice qk 0 (kx + 1)
  let q' : X := ⟨kx, qh ++ List.replicate (q.x.length - qh.length) zxe⟩
  if pi ≥ 0 then
    match p with
    | none => throw .panic
    | some p => do
      let p ← p.insert pi sep r.node
      let p ← p.withCh pi q'.node
      if i < kx then pure ⟨t, some p, pi, q', i, false⟩
      else if i = kx then pure ⟨t, none, 0, p, pi, false⟩
      else pure ⟨t, some p, pi + 1, r, i - kx - 1, false⟩
  else do
    let nr ← newX (.x kx q.x)
    let nr ← nr.insert 0 sep r.node
    let nr ← nr.withCh 0 q'.node
    let t := { t with r := nr.node }
    if i < kx then pure ⟨t, some nr, 0, q', i, true⟩
    else if i = kx then pure ⟨t, none, 0, nr, 0, true⟩
    else pure ⟨t, some nr, 1, r, i - kx - 1, true⟩

/-- Loop `for { ... }` of `Set`, from the point where `p` and `pi` are set and `q` is
`p.x[pi].ch` (`q` is `t.r` when `p` is nil). -/
def Tree.setLoop (k : Int) (v : V) : Nat → Tree → Option X → Int → M (Tree × Upd)
  | 0, _, _, _ => throw .diverge
  | fuel + 1, t, p, pi => do
    let q ← match p with
      | none => pure t.r
      | some p => chAt p.x pi
    let (i, ok) ← t.find q k
    match q with
    | .x c xs => do
      let s ← if c > 2 * kx then t.splitX p ⟨c, xs⟩ pi i
        else pure ⟨t, p, pi, ⟨c, xs⟩, i, false⟩
      let (t, u) ← Tree.setLoop k v fuel s.t (some s.x) (if ok then s.i + 1 else s.i)
      let u ← u.under s.par s.j s.root
      pure (t, u)
    | .d x =>
      if ok then do
        let e ← idx x.d i
        let d ← upd x.d i ⟨e.k, v⟩
        let u ← Upd.under p pi false (.keep (.d { x with d := d }))
        pure (t, u)
      else if x.c < 2 * kd then do
        let (t, x) ← t.insert x i k v
        let u ← Upd.under p pi false (.keep (.d x))
        pure (t, u)
      else t.overflow p x pi i k v
    | .nil => throw .diverge

/-- Loop `for { ... }` of `Put`, as for `Set`; `f` is the updater `upd`. -/
def Tree.putLoop (k : Int) (f : V → Bool → V × Bool) :
    Nat → Tree → Option X → Int → M (Tree × Upd × V × Bool)
  | 0, _, _, _ => throw .diverge
  | fuel + 1, t, p, pi => do
    let q ← match p with
      | none => pure t.r
      | some p => chAt p.x pi
    let (i, ok) ← t.find q k
    match q with
    | .x c xs => do
      let s ← if c > 2 * kx then t.splitX p ⟨c, xs⟩ pi i
        else pure ⟨t, p, pi, ⟨c, xs⟩, i, false⟩
      let (t, u, oldV, written) ←
        Tree.putLoop k f fuel s.t (some s.x) (if ok then s.i + 1 else s.i)
      let u ← u.under s.par s.j s.root
      pure (t, u, oldV, written)
    | .d x =>
      if ok then do
        let e ← idx x.d i
        let (newV, written) := f e.v true
        if written then do
          let d ← upd x.d i ⟨e.k, newV⟩
          let u ← Upd.under p pi false (.keep (.d { x with d := d }))
          pure (t, u, e.v, written)
        else pure (t, .keep (match p with | none => q | some p => p.node), e.v, written)
      else do
        let (newV, written) := f none false
        if written then
          if x.c < 2 * kd then do
            let (t, x) ← t.insert x i k newV
            let u ← Upd.under p pi false (.keep (.d x))
            pure (t, u, none, written)
          else do
            let (t, u) ← t.overflow p x pi i k newV
            pure (t, u, none, written)
        else pure (t, .keep (match p with | none => q | some p => p.node), none, written)
    | .nil => throw .diverge

/-- Number of index pages on the path from a page to its leftmost data page. -/
def Node.height : Node → Nat
  | .x _ (s :: _) => s.1.height + 1
  | _ => 0

/-- Method `Set`. -/
def Tree.Set (t : Tree) (k : Int) (v : V) : M Tree :=
  match t.r with
  | .nil => do
    let (t, z) := t.getD
    let (t, z) ← t.insert z 0 k v
    pure { t with r := .d z, first := some z.a, last := some z.a }
  | q => do
    let (t, u) ← Tree.setLoop k v (2 * q.height + 2) t none (-1)
    pure { t with r := u.node }

/-- Method `Put`. -/
def Tree.Put (t : Tree) (k : Int) (f : V → Bool → V × Bool) : M (Tree × V × Bool) :=
  match t.r with
  | .nil => do
    let (newV, written) := f none false
    if written then do
      let (t, z) := t.getD
      let (t, z) ← t.insert z 0 k newV
      pure ({ t with r := .d z, first := some z.a, last := some z.a }, none, written)
    else pure (t, none, written)
  | q => do
    let (t, u, oldV, written) ← Tree.putLoop k f (2 * q.height + 2) t none (-1)
    pure ({ t with r := u.node }, oldV, written)

/-- Statements of `cat` and `catX` that recycle the page `t.r`. -/
def Tree.putRoot (t : Tree) : Tree :=
  match t.r with
  | .d q => t.putD q.a
  | _ => t

/-- Method `cat`; the result holds `p` (`none` once `p` was recycled and `t.r` set to `q`) and `q`. -/
def Tree.cat (t : Tree) (p : X) (q r : D) (pi : Int) : M (Tree × Upd) := do
  let t := { t with ver := t.ver + 1 }
  let (q, r) ← q.mvL r r.c
  let t := match t.n r.a with
    | some nx => { t with p := setPtr t.p nx (some q.a) }
    | none => { t with last := some q.a }
  let t := { t with n := setPtr t.n q.a (t.n r.a) }
  let t := t.putD r.a
  if p.c > 1 then do
    let p ← p.extract pi
    let p ← p.withCh pi (.d q)
    pure (t, .keep p.node)
  else
    let t := t.putRoot
    pure ({ t with r := .d q }, .root (.d q))

/-- Method `catX`; the result holds `p` (`none` once `p` was recycled and `t.r` set to `q`) and `q`. -/
def Tree.catX (t : Tree) (p q r : X) (pi : Int) : M (Tree × Option X × X) := do
  let t := { t with ver := t.ver + 1 }
  let a1 ← setK q.x q.c (← kAt p.x pi)
  let a2 ← copy a1 (q.c + 1) a1.length (← slice r.x 0 r.c)
  let qc := q.c + (r.c + 1)
  let a3 ← setCh a2 qc (← chAt r.x r.c)
  let q : X := ⟨qc, a3⟩
  if p.c > 1 then do
    let pc := p.c - 1
    let px ← if pi < pc then do
        let b1 ← setK p.x pi (← kAt p.x (pi + 1))
        let b2 ← copy b1 (pi + 1) b1.length (← slice b1 (pi + 2) (pc + 1))
        let b3 ← setCh b2 pc (← chAt b2 (pc + 1))
        let b4 ← setK b3 pc zk
        setCh b4 (pc + 1) .nil
      else pure p.x
    let p ← X.withCh ⟨pc, px⟩ pi q.node
    pure (t, some p, q)
  else
    let t := t.putRoot
    pure ({ t with r := q.node }, none, q)

/-- Method `underflow`. -/
def Tree.underflow (t : Tree) (p : X) (q : D) (pi : Int) : M (Tree × Upd) := do
  let t := { t with ver := t.ver + 1 }
  let (l, r) ← X.siblings (some p) pi
  match l.filter (fun l => l.c + q.c ≥ 2 * kd), r.filter (fun r => q.c + r.c ≥ 2 * kd), l, r with
  | some l, _, _, _ => do
    let (l, q) ← l.mvR q 1
    let p ← p.withCh (pi - 1) (.d l)
    let p ← p.withCh pi (.d q)
    let q0 ← idx q.d 0
    let a ← setK p.x (pi - 1) q0.k
    pure (t, .keep (.x p.c a))
  | none, some r, _, _ => do
    let (q, r) ← q.mvL r 1
    let r0 ← idx r.d 0
    let rd ← upd r.d r.c zde
    let p ← p.withCh pi (.d q)
    let p ← p.withCh (pi + 1) (.d { r with d := rd })
    let a ← setK p.x pi r0.k
    pure (t, .keep (.x p.c a))
  | none, none, some l, _ => t.cat p l q (pi - 1)
  | none, none, none, some r => t.cat p q r pi
  | none, none, none, none => throw .panic

/-- Method `underflowX`. -/
def Tree.underflowX (t : Tree) (p : X) (q : X) (pi i : Int) : M Step := do
  let t := { t with ver := t.ver + 1 }
  let (l, r) ← if pi ≥ 0 then do
      let l ← if pi > 0 then do
          let l ← asX (← chAt p.x (pi - 1))
          pure (some l)
        else pure none
      let r ← if pi < p.c then do
          let r ← asX (← chAt p.x (pi + 1))
          pure (some r)
        else pure none
      pure (l, r)
    else pure (none, none)
  match l.filter (fun l => l.c > kx), r.filter (fun r => r.c > kx), l, r with
  | some l, _, _, _ => do
    let a1 ← setCh q.x (q.c + 1) (← chAt q.x q.c)
    let a2 ← copy a1 1 a1.length (← slice a1 0 q.c)
    let a3 ← setCh a2 0 (← chAt l.x l.c)
    let a4 ← setK a3 0 (← kAt p.x (pi - 1))
    let q : X := ⟨q.c + 1, a4⟩
    let l : X := ⟨l.c - 1, l.x⟩
    let b ← setK p.x (pi - 1) (← kAt l.x l.c)
    let p ← X.withCh ⟨p.c, b⟩ (pi - 1) l.node
    let p ← p.withCh pi q.node
    pure ⟨t, some p, pi, q, i + 1, false⟩
  | none, some r, _, _ => do
    let a1 ← setK q.x q.c (← kAt p.x pi)
    let qc := q.c + 1
    let a2 ← setCh a1 qc (← chAt r.x 0)
    let q : X := ⟨qc, a2⟩
    let b ← setK p.x pi (← kAt r.x 0)
    let r1 ← copy r.x 0 r.x.length (← slice r.x 1 r.c)
    let rc := r.c - 1
    let r2 ← setCh r1 rc (← chAt r1 (rc + 1))
    let r3 ← setK r2 rc zk
    let r4 ← setCh r3 (rc + 1) .nil
    let p ← X.withCh ⟨p.c, b⟩ pi q.node
    let p ← p.withCh (pi + 1) (.x rc r4)
    pure ⟨t, some p, pi, q, i, false⟩
  | none, none, some l, _ => do
    let i := i + (l.c + 1)
    let (t, p, l) ← t.catX p l q (pi - 1)
    pure ⟨t, p, pi - 1, l, i, p.isNone⟩
  | none, none, none, some r => do
    let (t, p, q) ← t.catX p q r pi
    pure ⟨t, p, pi, q, i, p.isNone⟩
  | none, none, none, none => throw .panic

/-- Loop `for { ... }` of `Delete`, from the point where `p` and `pi` are set and `q` is
`p.x[pi].ch` (`q` is `t.r` when `p` is nil, and only then `q == t.r`). -/
def Tree.deleteLoop (k : Int) : Nat → Tree → Option X → Int → M (Tree × Upd × Bool)
  | 0, _, _, _ => throw .diverge
  | fuel + 1, t, p, pi => do
    let q ← match p with
      | none => pure t.r
      | some p => chAt p.x pi
    let (i, ok) ← t.find q k
    match q, p with
    | .x c xs, some p => do
      let s ← if c < kx then t.underflowX p ⟨c, xs⟩ pi i
        else pure ⟨t, some p, pi, ⟨c, xs⟩, i, false⟩
      let (t, u, ok) ← Tree.deleteLoop k fuel s.t (some s.x) (if ok then s.i + 1 else s.i)
      let u ← u.under s.par s.j s.root
      pure (t, u, ok)
    | .x c xs, none => do
      let (t, u, ok) ← Tree.deleteLoop k fuel t (some ⟨c, xs⟩) (if ok then i + 1 else i)
      pure (t, u, ok)
    | .d x, p =>
      if ok then do
        let (t, x) ← t.extract x i
        if x.c ≥ kd then do
          let u ← Upd.under p pi false (.keep (.d x))
          pure (t, u, true)
        else
          match p with
          | some p => do
            let p ← p.withCh pi (.d x)
            let (t, u) ← t.underflow p x pi
            pure (t, u, true)
          | none =>
            if t.c = 0 then do
              let t ← Tree.Clear { t with r := .d x }
              pure (t, .root .nil, true)
            else pure (t, .keep (.d x), true)
      else pure (t, .keep (match p with | none => q | some p => p.node), false)
    | .nil, _ => throw .diverge

/-- Method `Delete`. -/
def Tree.Delete (t : Tree) (k : Int) : M (Tree × Bool) :=
  match t.r with
  | .nil => pure (t, false)
  | q => do
    let (t, u, ok) ← Tree.deleteLoop k (q.height + 1) t none (-1)
    pure ({ t with r := u.node }, ok)

mutual
/-- Loop `for { ... }` of `Get`, at page `q`. -/
def Tree.getLoop (t : Tree) (k : Int) : Node → M (V × Bool)
  | .nil => pure (none, false)
  | .d x => do
    let (i, ok) ← t.find (.d x) k
    if ok then do
      let e ← idx x.d i
      pure (e.v, true)
    else pure (none, false)
  | .x c xs => do
    let (i, ok) ← t.find (.x c xs) k
    let j := if ok then i + 1 else i
    if 0 ≤ j then Tree.getSlot t k xs j.toNat else throw .panic
/-- The loop of `Get` continued at `q = x.x[j].ch`. -/
def Tree.getSlot (t : Tree) (k : Int) : List (Node × Int) → Nat → M (V × Bool)
  | [], _ => throw .panic
  | s :: _, 0 => Tree.getLoop t k s.1
  | _ :: rest, j + 1 => Tree.getSlot t k rest j
end

/-- Method `Get`. -/
def Tree.Get (t : Tree) (k : Int) : M (V × Bool) :=
  t.getLoop k t.r

/-- Type `Enumerator`; the tree `t` it points to is handed to its methods. -/
structure Enumerator where
  err : Option GoError
  hit : Bool
  i : Int
  k : Int
  q : Option Nat
  ver : Int
deriving DecidableEq, Repr

mutual
/-- Loop `for { ... }` of `Seek`, at page `q`. -/
def Tree.seekLoop (t : Tree) (k : Int) : Node → M (Enumerator × Bool)
  | .nil => throw .diverge
  | .d x => do
    let (i, ok) ← t.find (.d x) k
    pure (⟨none, ok, i, k, some x.a, t.ver⟩, ok)
  | .x c xs => do
    let (i, ok) ← t.find (.x c xs) k
    let j := if ok then i + 1 else i
    if 0 ≤ j then Tree.seekSlot t k xs j.toNat else throw .panic
/-- The loop of `Seek` continued at `q = x.x[j].ch`. -/
def Tree.seekSlot (t : Tree) (k : Int) : List (Node × Int) → Nat → M (Enumerator × Bool)
  | [], _ => throw .panic
  | s :: _, 0 => Tree.seekLoop t k s.1
  | _ :: rest, j + 1 => Tree.seekSlot t k rest j
end

/-- Method `Seek`. -/
def Tree.Seek (t : Tree) (k : Int) : M (Enumerator × Bool) :=
  match t.r with
  | .nil => pure (⟨none, false, 0, k, none, t.ver⟩, false)
  | q => t.seekLoop k q

mutual
/-- The data page at address `a` that is reached from a page through the slots in use (the
slots `0` to `c` of an index page); a slot past `c` holds no page of the tree. -/
def Node.page (a : Nat) : Node → Option D
  | .nil => none
  | .d q => if q.a = a then some q else none
  | .x c xs => if 0 ≤ c then Node.pageSlots a xs (c.toNat + 1) else none
/-- The data page at address `a` reached through the first `m` slots of an index page. -/
def Node.pageSlots (a : Nat) : List (Node × Int) → Nat → Option D
  | _, 0 => none
  | [], _ + 1 => none
  | s :: rest, m + 1 =>
    match Node.page a s.1 with
    | some q => some q
    | none => Node.pageSlots a rest m
end

/-- Dereference of a `*d`: the page of the tree at address `a`; any other address is that of a
recycled, zeroed page. -/
def Tree.page (t : Tree) (a : Nat) : D :=
  match t.r.page a with
  | some q => q
  | none => ⟨a, 0, zdArr⟩

/-- Method `First`. -/
def Tree.First (t : Tree) : M (Int × V) :=
  match t.first with
  | none => pure (0, none)
  | some a => do
    let e ← idx (t.page a).d 0
    pure (e.k, e.v)

/-- Method `Last`. -/
def Tree.Last (t : Tree) : M (Int × V) :=
  match t.last with
  | none => pure (0, none)
  | some a => do
    let e ← idx (t.page a).d ((t.page a).c - 1)
    pure (e.k, e.v)

/-- Method `SeekFirst`. -/
def Tree.SeekFirst (t : Tree) : M (Option Enumerator × Option GoError) :=
  match t.first with
  | none => pure (none, some .EOF)
  | some a => do
    let e ← idx (t.page a).d 0
    pure (some ⟨none, true, 0, e.k, some a, t.ver⟩, none)

/-- Method `SeekLast`. -/
def Tree.SeekLast (t : Tree) : M (Option Enumerator × Option GoError) :=
  match t.last with
  | none => pure (none, some .EOF)
  | some a => do
    let q := t.page a
    let e ← idx q.d (q.c - 1)
    pure (some ⟨none, true, q.c - 1, e.k, some a, t.ver⟩, none)

/-- Method `next` of the enumerator. -/
def Enumerator.next (e : Enumerator) (t : Tree) : Enumerator × Option GoError :=
  match e.q with
  | none => ({ e with err := some .EOF }, some .EOF)
  | some a =>
    if e.i < (t.page a).c - 1 then ({ e with i := e.i + 1 }, e.err)
    else
      match t.n a with
      | none => ({ e with q := none, i := 0, err := some .EOF }, some .EOF)
      | some b => ({ e with q := some b, i := 0 }, e.err)

/-- Method `prev` of the enumerator. -/
def Enumerator.prev (e : Enumerator) (t : Tree) : Enumerator × Option GoError :=
  match e.q with
  | none => ({ e with err := some .EOF }, some .EOF)
  | some a =>
    if e.i > 0 then ({ e with i := e.i - 1 }, e.err)
    else
      match t.p a with
      | none => ({ e with q := none, err := some .EOF }, some .EOF)
      | some b => ({ e with q := some b, i := (t.page b).c - 1 }, e.err)

/-- Result `(k, v, err)` of `Next` and `Prev`. -/
structure Item where
  k : Int
  v : V
  err : Option GoError
deriving DecidableEq, Repr

/-- Method `Next`: the enumerator after the call and the result. -/
def Enumerator.Next (e : Enumerator) (t : Tree) : M (Enumerator × Item) :=
  match e.err with
  | some err => pure (e, ⟨0, none, some err⟩)
  | none => do
    let r ← if e.ver ≠ t.ver then do
        let (f, hit) ← t.Seek e.k
        if !e.hit && hit then
          match f.next t with
          | (_, some err) => pure (Sum.inl err)
          | (f, none) => pure (Sum.inr f)
        else pure (Sum.inr f)
      else pure (Sum.inr e)
    match r with
    | .inl err => pure (e, ⟨0, none, some err⟩)
    | .inr e =>
      match e.q with
      | none => pure ({ e with err := some .EOF }, ⟨0, none, some .EOF⟩)
      | some a => do
        let r ← if e.i ≥ (t.page a).c then
            match e.next t with
            | (e, some err) => pure (Sum.inl (e, err))
            | (e, none) => pure (Sum.inr e)
          else pure (Sum.inr e)
        match r with
        | .inl (e, err) => pure (e, ⟨0, none, some err⟩)
        | .inr e =>
          match e.q with
          | none => throw .panic
          | some a => do
            let i ← idx (t.page a).d e.i
            let e := { e with k := i.k, hit := false }
            pure ((e.next t).1, ⟨i.k, i.v, none⟩)

/-- Method `Prev`: the enumerator after the call and the result. -/
def Enumerator.Prev (e : Enumerator) (t : Tree) : M (Enumerator × Item) :=
  match e.err with
  | some err => pure (e, ⟨0, none, some err⟩)
  | none => do
    let r ← if e.ver ≠ t.ver then do
        let (f, hit) ← t.Seek e.k
        if !e.hit && hit then
          match f.prev t with
          | (_, some err) => pure (Sum.inl err)
          | (f, none) => pure (Sum.inr f)
        else pure (Sum.inr f)
      else pure (Sum.inr e)
    match r with
    | .inl err => pure (e, ⟨0, none, some err⟩)
    | .inr e =>
      match e.q with
      | none => pure ({ e with err := some .EOF }, ⟨0, none, some .EOF⟩)
      | some a => do
        let r ← if e.i ≥ (t.page a).c then
            match e.next t with
            | (e, some err) => pure (Sum.inl (e, err))
            | (e, none) => pure (Sum.inr e)
          else pure (Sum.inr e)
        match r with
        | .inl (e, err) => pure (e, ⟨0, none, some err⟩)
        | .inr e =>
          match e.q with
          | none => throw .panic
          | some a => do
            let i ← idx (t.page a).d e.i
            let e := { e with k := i.k, hit := false }
            pure ((e.prev t).1, ⟨i.k, i.v, none⟩)

/-! ### Store (`quadstore.go`) -/

/-- Conversion of a 64-bit two's complement result to its value. -/
def wrap64 (x : Int) : Int :=
  (x + 9223372036854775808) % 18446744073709551616 - 9223372036854775808

/-- Function `cmp` of quadstore.go: `int(a - b)`. -/
def cmp (a b : Int) : Int := wrap64 (a - b)

/-- Values of the library type `quad.Value`, as far as the store looks at them: a blank node
`quad.BNode`, or any other value, given by the result of its `String` method. -/
inductive Value where
  | BNode (name : String)
  | other (str : String)
deriving DecidableEq, Repr

/-- Method `String` of `quad.Value`. -/
def Value.String : Value → String
  | .BNode n => "_:" ++ n
  | .other s => s

/-- Library type `quad.Quad`; `none` is a nil value. -/
structure Quad where
  Subject : Option Value
  Predicate : Option Value
  Object : Option Value
  Label : Option Value
deriving DecidableEq, Repr

/-- Library type `quad.Direction`, from `quad.Subject` to `quad.Label`. -/
inductive Direction where
  | Subject
  | Predicate
  | Object
  | Label
deriving DecidableEq, Repr

/-- The directions in the order of the loops `for dir := quad.Subject; dir <= quad.Label; dir++`. -/
def Direction.all : List Direction := [.Subject, .Predicate, .Object, .Label]

/-- Method `Get` of `quad.Quad`. -/
def Quad.Get (q : Quad) : Direction → Option Value
  | .Subject => q.Subject
  | .Predicate => q.Predicate
  | .Object => q.Object
  | .Label => q.Label

/-- Type `internalQuad`. -/
structure internalQuad where
  S : Int
  P : Int
  O : Int
  L : Int
deriving DecidableEq, Repr

/-- Method `Zero`. -/
def internalQuad.Zero (q : internalQuad) : Bool := q = ⟨0, 0, 0, 0⟩

/-- Method `SetDir`. -/
def internalQuad.SetDir (q : internalQuad) (d : Direction) (n : Int) : internalQuad :=
  match d with
  | .Subject => { q with S := n }
  | .Predicate => { q with P := n }
  | .Object => { q with O := n }
  | .Label => { q with L := n }

/-- Method `Dir`. -/
def internalQuad.Dir (q : internalQuad) : Direction → Int
  | .Subject => q.S
  | .Predicate => q.P
  | .Object => q.O
  | .Label => q.L

/-- Type `Primitive`. -/
structure Primitive where
  ID : Int
  Quad : internalQuad
  Value : Option Value
  refs : Int
deriving DecidableEq, Repr

/-- Read of a Go map: the entry of key `k`, if present. -/
def mapGet {κ β : Type} [DecidableEq κ] (m : List (κ × β)) (k : κ) : Option β :=
  match m with
  | [] => none
  | e :: rest => if e.1 = k then some e.2 else mapGet rest k

/-- Assignment `m[k] = v` of a Go map. -/
def mapSet {κ β : Type} [DecidableEq κ] (m : List (κ × β)) (k : κ) (v : β) : List (κ × β) :=
  match m with
  | [] => [(k, v)]
  | e :: rest => if e.1 = k then (k, v) :: rest else e :: mapSet rest k v

/-- Statement `delete(m, k)` of a Go map. -/
def mapDel {κ β : Type} [DecidableEq κ] (m : List (κ × β)) (k : κ) : List (κ × β) :=
  m.filter (fun e => e.1 ≠ k)

/-- A Go slice `[]*Primitive`: its backing array, length and capacity. -/
structure Slice where
  arr : Nat
  len : Nat
  cap : Nat
deriving DecidableEq, Repr

/-- Type `QuadStore`.  The `Primitive` objects live in `heap`, a `*Primitive` is an index into
it; `index` is the `QuadDirectionIndex`; `arrays` holds the backing arrays of the slices of
`*Primitive` (`none` is a nil pointer). -/
structure QuadStore where
  last : Int
  vals : List (String × Int)
  quads : List (internalQuad × Int)
  prim : List (Int × Nat)
  all : Slice
  reading : Bool
  index : Direction → List (Int × Tree)
  horizon : Int
  heap : List Primitive
  arrays : List (List (Option Nat))

/-- Function `newQuadStore`. -/
def newQuadStore : QuadStore :=
  { last := 0, vals := [], quads := [], prim := [], all := ⟨0, 0, 0⟩, reading := false,
    index := fun _ => [], horizon := 0, heap := [], arrays := [] }

/-- The backing array of a slice. -/
def QuadStore.array (qs : QuadStore) (s : Slice) : List (Option Nat) :=
  qs.arrays.getD s.arr []

/-- The elements of a slice. -/
def QuadStore.elems (qs : QuadStore) (s : Slice) : List (Option Nat) :=
  (qs.array s).take s.len

/-- Built-in `append(s, p)`: within the capacity the element is written to the backing array
of `s`, else the elements move to a new array. -/
def QuadStore.append (qs : QuadStore) (s : Slice) (p : Nat) : QuadStore × Slice :=
  if s.len < s.cap then
    ({ qs with arrays := qs.arrays.set s.arr ((qs.array s).set s.len (some p)) },
     ⟨s.arr, s.len + 1, s.cap⟩)
  else
    let cap := max (2 * s.cap) (s.len + 1)
    ({ qs with arrays := qs.arrays ++
        [qs.elems s ++ some p :: List.replicate (cap - (s.len + 1)) none] },
     ⟨qs.arrays.length, s.len + 1, cap⟩)

/-- Method `cloneAll`. -/
def QuadStore.cloneAll (qs : QuadStore) : QuadStore × Slice :=
  ({ qs with reading := true }, qs.all)

/-- Allocation `&Primitive{...}`. -/
def QuadStore.new (qs : QuadStore) (p : Primitive) : QuadStore × Nat :=
  ({ qs with heap := qs.heap ++ [p] }, qs.heap.length)

/-- Dereference of a `*Primitive`. -/
def QuadStore.deref (qs : QuadStore) (a : Nat) : M Primitive :=
  match qs.heap[a]? with
  | some p => pure p
  | none => throw .panic

/-- Assignment through a `*Primitive`. -/
def QuadStore.store (qs : QuadStore) (a : Nat) (p : Primitive) : QuadStore :=
  { qs with heap := qs.heap.set a p }

/-- Method `appendPrimitive`. -/
def QuadStore.appendPrimitive (qs : QuadStore) (a : Nat) : M QuadStore := do
  let p ← qs.deref a
  let qs := { qs with prim := mapSet qs.prim p.ID a }
  if !qs.reading then
    let (qs, s) := qs.append qs.all a
    pure { qs with all := s }
  else
    let n := qs.all.len
    let (qs, s) := qs.append ⟨qs.all.arr, n, n⟩ a
    pure { qs with all := s, reading := false }

/-- Method `addPrimitive`. -/
def QuadStore.addPrimitive (qs : QuadStore) (a : Nat) : M (QuadStore × Int) := do
  let qs := { qs with last := qs.last + 1 }
  let id := qs.last
  let p ← qs.deref a
  let qs := qs.store a { p with ID := id, refs := 1 }
  let qs ← qs.appendPrimitive a
  pure (qs, id)

/-- Constant `internalBNodePrefix`. -/
def internalBNodePrefix : String := "memnode"

/-- Value of a string of decimal digits; `none` when some character is not a digit. -/
def parseDigits : List Char → Nat → Option Nat
  | [], acc => some acc
  | c :: rest, acc => if c.isDigit then parseDigits rest (acc * 10 + (c.toNat - 48)) else none

/-- Library function `strconv.ParseInt(s, 10, 64)`: `none` stands for a non-nil error. -/
def parseInt64 (s : String) : Option Int :=
  let (neg, ds) := match s.toList with
    | '+' :: ds => (false, ds)
    | '-' :: ds => (true, ds)
    | ds => (false, ds)
  if ds.isEmpty then none
  else match parseDigits ds 0 with
    | none => none
    | some n =>
      let v : Int := if neg then -(n : Int) else (n : Int)
      if -9223372036854775808 ≤ v ∧ v ≤ 9223372036854775807 then some v else none

/-- The id named by a blank node `memnode<id>`: the first `if` of `resolveVal`, up to the test
`err == nil && id != 0`. -/
def memnodeID : Value → Option Int
  | .BNode n =>
    if internalBNodePrefix.isPrefixOf n then
      match parseInt64 (n.drop internalBNodePrefix.length) with
      | some id => if id ≠ 0 then some id else none
      | none => none
    else none
  | _ => none

/-- Method `resolveVal`. -/
def QuadStore.resolveVal (qs : QuadStore) (v : Option Value) (add : Bool) :
    M (QuadStore × Int × Bool) :=
  match v with
  | none => pure (qs, 0, false)
  | some v =>
    match memnodeID v with
    | some id =>
      match mapGet qs.prim id, add with
      | some a, true => do
        let p ← qs.deref a
        pure (qs.store a { p with refs := p.refs + 1 }, id, true)
      | some _, false => pure (qs, id, true)
      | none, false => pure (qs, id, false)
      | none, true => do
        let (qs, a) := qs.new { ID := id, Quad := ⟨0, 0, 0, 0⟩, Value := none, refs := 1 }
        let qs ← qs.appendPrimitive a
        pure (qs, id, true)
    | none =>
      let vs := v.String
      match mapGet qs.vals vs, add with
      | some id, true =>
        match mapGet qs.prim id with
        | none => throw .panic
        | some a => do
          let p ← qs.deref a
          pure (qs.store a { p with refs := p.refs + 1 }, id, true)
      | some id, false => pure (qs, id, true)
      | none, false => pure (qs, 0, false)
      | none, true => do
        let (qs, a) := qs.new { ID := 0, Quad := ⟨0, 0, 0, 0⟩, Value := some v, refs := 0 }
        let (qs, id) ← qs.addPrimitive a
        pure ({ qs with vals := mapSet qs.vals vs id }, id, true)

/-- Body of the loop of `resolveQuad` over the directions `ds`; the result is `none` where the
method returns `internalQuad{}, false`. -/
def QuadStore.resolveDirs (q : Quad) (add : Bool) :
    List Direction → QuadStore → internalQuad → M (QuadStore × Option internalQuad)
  | [], qs, p => pure (qs, some p)
  | dir :: ds, qs, p =>
    match q.Get dir with
    | none => QuadStore.resolveDirs q add ds qs p
    | some v => do
      let (qs, vid, _) ← qs.resolveVal (some v) add
      if vid ≠ 0 then QuadStore.resolveDirs q add ds qs (p.SetDir dir vid)
      else if !add then pure (qs, none)
      else QuadStore.resolveDirs q add ds qs p

/-- Method `resolveQuad`. -/
def QuadStore.resolveQuad (qs : QuadStore) (q : Quad) (add : Bool) :
    M (QuadStore × internalQuad × Bool) := do
  let (qs, r) ← QuadStore.resolveDirs q add Direction.all qs ⟨0, 0, 0, 0⟩
  match r with
  | some p => pure (qs, p, true)
  | none => pure (qs, ⟨0, 0, 0, 0⟩, false)

/-- Library function `strconv.FormatInt(id, 10)`. -/
def formatInt (id : Int) : String := toString id

/-- Method `lookupVal`. -/
def QuadStore.lookupVal (qs : QuadStore) (id : Int) : M Value :=
  match mapGet qs.prim id with
  | none => pure (.BNode (internalBNodePrefix ++ formatInt id))
  | some a => do
    let pv ← qs.deref a
    match pv.Value with
    | none => pure (.BNode (internalBNodePrefix ++ formatInt id))
    | some v => pure v

/-- Method `AddBNode`. -/
def QuadStore.AddBNode (qs : QuadStore) : M (QuadStore × Int) := do
  let (qs, a) := qs.new { ID := 0, Quad := ⟨0, 0, 0, 0⟩, Value := none, refs := 0 }
  qs.addPrimitive a

/-- Method `AddValue`. -/
def QuadStore.AddValue (qs : QuadStore) (v : Option Value) : M (QuadStore × Int × Bool) := do
  let (qs, id, exists_) ← qs.resolveVal v true
  pure (qs, id, !exists_)

/-- Method `Tree` of `QuadDirectionIndex`. -/
def QuadStore.indexTree (qs : QuadStore) (d : Direction) (id : Int) : QuadStore × Tree :=
  match mapGet (qs.index d) id with
  | some t => (qs, t)
  | none =>
    let t := TreeNew cmp
    ({ qs with index := fun e => if e = d then mapSet (qs.index d) id t else qs.index e }, t)

/-- Method `Get` of `QuadDirectionIndex`. -/
def QuadStore.indexGet (qs : QuadStore) (d : Direction) (id : Int) : Option Tree :=
  mapGet (qs.index d) id

/-- Method `indexesForQuad`: the trees are named by direction and node id. -/
def QuadStore.indexesForQuad (q : internalQuad) :
    List Direction → QuadStore → QuadStore × List (Direction × Int)
  | [], qs => (qs, [])
  | dir :: ds, qs =>
    let v := q.Dir dir
    if v = 0 then QuadStore.indexesForQuad q ds qs
    else
      let (qs, _) := qs.indexTree dir v
      let (qs, trees) := QuadStore.indexesForQuad q ds qs
      (qs, (dir, v) :: trees)

/-- The tree named by direction and node id, after an operation on it. -/
def QuadStore.withTree (qs : QuadStore) (d : Direction) (v : Int) (t : Tree) : QuadStore :=
  { qs with index := fun e => if e = d then mapSet (qs.index d) v t else qs.index e }

/-- Loop `for _, t := range trees { t.Set(id, pr) }` of `AddQuad`. -/
def QuadStore.setAll (id : Int) (pr : Nat) : List (Direction × Int) → QuadStore → M QuadStore
  | [], qs => pure qs
  | (d, v) :: rest, qs =>
    match mapGet (qs.index d) v with
    | none => throw .panic
    | some t => do
      let t ← t.Set id (some pr)
      QuadStore.setAll id pr rest (qs.withTree d v t)

/-- Method `AddQuad`. -/
def QuadStore.AddQuad (qs : QuadStore) (q : Quad) : M (QuadStore × Int × Bool) := do
  let (qs, p, _) ← qs.resolveQuad q false
  let id := (mapGet qs.quads p).getD 0
  if id ≠ 0 then pure (qs, id, false)
  else do
    let (qs, p, _) ← qs.resolveQuad q true
    let (qs, pr) := qs.new { ID := 0, Quad := p, Value := none, refs := 0 }
    let (qs, id) ← qs.addPrimitive pr
    let qs := { qs with quads := mapSet qs.quads p id }
    let (qs, trees) := QuadStore.indexesForQuad p Direction.all qs
    let qs ← QuadStore.setAll id pr trees qs
    pure (qs, id, true)

/-- Loop `for _, t := range trees { t.Delete(id) }` of `Delete`. -/
def QuadStore.deleteAll (id : Int) : List (Direction × Int) → QuadStore → M QuadStore
  | [], qs => pure qs
  | (d, v) :: rest, qs =>
    match mapGet (qs.index d) v with
    | none => throw .panic
    | some t => do
      let (t, _) ← t.Delete id
      QuadStore.deleteAll id rest (qs.withTree d v t)

/-- Index of the first element of a list of pointers that is the pointer `a`: the loop
`for i, p2 := range qs.all { if p == p2 { di = i; break } }`. -/
def ptrIndex (a : Nat) : List (Option Nat) → Nat → Option Nat
  | [], _ => none
  | e :: rest, i => if e = some a then some i else ptrIndex a rest (i + 1)

/-- Removal of the element `di` from `all` in `Delete`: in place in the backing array, or in
a new array when `reading` is set. -/
def QuadStore.removeAll (qs : QuadStore) (di : Nat) : QuadStore :=
  let a := qs.array qs.all
  let n := qs.all.len
  if !qs.reading then
    { qs with
      arrays := qs.arrays.set qs.all.arr
        (a.take di ++ (a.drop (di + 1)).take (n - di - 1) ++ a.drop (n - 1)),
      all := ⟨qs.all.arr, n - 1, qs.all.cap⟩ }
  else
    { qs with
      arrays := qs.arrays ++ [a.take di ++ (a.drop (di + 1)).take (n - di - 1)],
      all := ⟨qs.arrays.length, n - 1, n - 1⟩,
      reading := false }

/-- Method `deleteQuadNodes` over the directions `ds`, with `del` the method `Delete`. -/
def QuadStore.deleteQuadNodesWith (del : QuadStore → Int → M (QuadStore × Bool))
    (q : internalQuad) : List Direction → QuadStore → M QuadStore
  | [], qs => pure qs
  | dir :: ds, qs =>
    let id := q.Dir dir
    if id = 0 then QuadStore.deleteQuadNodesWith del q ds qs
    else
      match mapGet qs.prim id with
      | none => QuadStore.deleteQuadNodesWith del q ds qs
      | some a => do
        let p ← qs.deref a
        let qs := qs.store a { p with refs := p.refs - 1 }
        if p.refs - 1 < 0 then throw .panic
        else if p.refs - 1 = 0 then do
          let (qs, _) ← del qs id
          QuadStore.deleteQuadNodesWith del q ds qs
        else QuadStore.deleteQuadNodesWith del q ds qs

/-- Method `Delete`, with a bound on the depth of the recursion through `deleteQuadNodes`. -/
def QuadStore.deleteN : Nat → QuadStore → Int → M (QuadStore × Bool)
  | 0, _, _ => throw .diverge
  | fuel + 1, qs, id =>
    match mapGet qs.prim id with
    | none => pure (qs, false)
    | some a => do
      let p ← qs.deref a
      let qs := match p.Value with
        | some v => { qs with vals := mapDel qs.vals v.String }
        | none => qs
      let (qs, trees) := QuadStore.indexesForQuad p.Quad Direction.all qs
      let qs ← QuadStore.deleteAll id trees qs
      let qs := { qs with quads := mapDel qs.quads p.Quad }
      let qs := { qs with prim := mapDel qs.prim id }
      let qs := match ptrIndex a (qs.elems qs.all) 0 with
        | some di => qs.removeAll di
        | none => qs
      let qs ← QuadStore.deleteQuadNodesWith (QuadStore.deleteN fuel) p.Quad Direction.all qs
      pure (qs, true)

/-- Method `Delete`: every nested call removes an entry of `prim` first, which bounds the
depth of the recursion by the number of entries. -/
def QuadStore.Delete (qs : QuadStore) (id : Int) : M (QuadStore × Bool) :=
  QuadStore.deleteN (qs.prim.length + 1) qs id

/-- Method `findQuad`. -/
def QuadStore.findQuad (qs : QuadStore) (q : Quad) : M (Int × internalQuad × Bool) := do
  let (_, p, ok) ← qs.resolveQuad q false
  if !ok then pure (0, p, false)
  else
    let id := (mapGet qs.quads p).getD 0
    pure (id, p, id ≠ 0)

/-- Modelled from the spec: type `Procedure` of package graph, whose declaration is not part of
the sources at hand: the actions `Add` and `Delete`, and any other action. -/
inductive Procedure where
  | Add
  | Delete
  | other (n : Int)
deriving DecidableEq, Repr

/-- Modelled from the spec: type `Delta` of package graph (a quad and an action). -/
structure Delta where
  Quad : Quad
  Action : Procedure
deriving DecidableEq, Repr

/-- Modelled from the spec: type `IgnoreOpts` of package graph. -/
structure IgnoreOpts where
  IgnoreDup : Bool
  IgnoreMissing : Bool
deriving DecidableEq, Repr

/-- Modelled from the spec: the error values of package graph returned by `ApplyDeltas`. -/
inductive StoreErr where
  | ErrQuadExists
  | ErrQuadNotExist
  | ErrInvalidAction
deriving DecidableEq, Repr

/-- Modelled from the spec: type `DeltaError` of package graph. -/
structure DeltaError where
  Delta : Delta
  Err : StoreErr
deriving DecidableEq, Repr

/-- First loop of `ApplyDeltas`, the check of the whole transaction. -/
def QuadStore.precheck (qs : QuadStore) (o : IgnoreOpts) : List Delta → M (Option DeltaError)
  | [] => pure none
  | d :: rest =>
    match d.Action with
    | .Add =>
      if !o.IgnoreDup then do
        let (_, _, ok) ← qs.findQuad d.Quad
        if ok then pure (some ⟨d, .ErrQuadExists⟩) else qs.precheck o rest
      else qs.precheck o rest
    | .Delete =>
      if !o.IgnoreMissing then do
        let (_, _, ok) ← qs.findQuad d.Quad
        if !ok then pure (some ⟨d, .ErrQuadNotExist⟩) else qs.precheck o rest
      else qs.precheck o rest
    | .other _ => pure (some ⟨d, .ErrInvalidAction⟩)

/-- Second loop of `ApplyDeltas`. -/
def QuadStore.applyAll : List Delta → QuadStore → M (QuadStore × Option DeltaError)
  | [], qs => pure (qs, none)
  | d :: rest, qs =>
    match d.Action with
    | .Add => do
      let (qs, _, _) ← qs.AddQuad d.Quad
      QuadStore.applyAll rest qs
    | .Delete => do
      let (id, _, ok) ← qs.findQuad d.Quad
      if ok then do
        let (qs, _) ← qs.Delete id
        QuadStore.applyAll rest qs
      else QuadStore.applyAll rest qs
    | .other _ => pure (qs, some ⟨d, .ErrInvalidAction⟩)

/-- Method `ApplyDeltas`; the second component is the `error` returned, `none` for nil. -/
def QuadStore.ApplyDeltas (qs : QuadStore) (deltas : List Delta) (o : IgnoreOpts) :
    M (QuadStore × Option DeltaError) := do
  let e ← if !o.IgnoreDup || !o.IgnoreMissing then qs.precheck o deltas else pure none
  match e with
  | some e => pure (qs, some e)
  | none => do
    let (qs, e) ← QuadStore.applyAll deltas qs
    match e with
    | some e => pure (qs, some e)
    | none => pure ({ qs with horizon := qs.horizon + 1 }, none)

/-- A `graph.Ref` as the store hands them out and takes them: nil is `none`. -/
inductive Ref where
  | bnode (id : Int)
  | qprim (p : Nat)
  | prefetched (v : Option Value)
deriving DecidableEq, Repr

/-- Function `asID`. -/
def QuadStore.asID (qs : QuadStore) : Ref → M (Int × Bool)
  | .bnode id => pure (id, true)
  | .qprim p => do
    let p ← qs.deref p
    pure (p.ID, true)
  | .prefetched _ => pure (0, false)

/-- Result of `Stats`: the values of `Nodes` and `Quads`. -/
structure Stats where
  Nodes : Int
  Quads : Int
deriving DecidableEq, Repr

/-- Method `Stats`. -/
def QuadStore.Stats (qs : QuadStore) : Stats :=
  { Nodes := qs.vals.length, Quads := qs.quads.length }

/-- Method `ValueOf`. -/
def QuadStore.ValueOf (qs : QuadStore) (name : Option Value) : Option Ref :=
  match name with
  | none => none
  | some name =>
    let id := (mapGet qs.vals name.String).getD 0
    if id = 0 then none else some (.bnode id)

/-- Method `NameOf`. -/
def QuadStore.NameOf (qs : QuadStore) (v : Option Ref) : M (Option Value) :=
  match v with
  | none => pure none
  | some (.prefetched w) => pure w
  | some v => do
    let (n, ok) ← qs.asID v
    if !ok then pure none
    else
      match mapGet qs.prim n with
      | none => pure none
      | some _ => do
        let w ← qs.lookupVal n
        pure (some w)

end Memstore

/-! ### LRU cache (`internal/lru/lru.go`) -/

namespace LRU

open Memstore (M Err mapGet mapSet mapDel)

/-- A value of type `interface{}` held by the cache: nil, or a value named by a number. -/
abbrev Any := Option Nat

/-- Type `kv`. -/
structure kv where
  key : String
  value : Any
deriving DecidableEq, Repr

/-- Type `Cache`.  A `*list.Element` is an address into `elems`, which holds the `Value` of
every element made so far; `priority` is the `container/list` list, front first. -/
structure Cache where
  cache : List (String × Nat)
  priority : List Nat
  elems : List kv
  maxSize : Int
deriving DecidableEq, Repr

/-- Function `New`. -/
def New (size : Int) : Cache :=
  { maxSize := size, priority := [], cache := [], elems := [] }

/-- Method `MoveToFront` of `container/list`: nothing happens for an element that is not in
the list. -/
def moveToFront (l : List Nat) (e : Nat) : List Nat :=
  if e ∈ l then e :: l.erase e else l

/-- Method `Get`. -/
def Cache.Get (lru : Cache) (key : String) : M (Cache × Any × Bool) :=
  match mapGet lru.cache key with
  | some element =>
    match lru.elems[element]? with
    | some e => pure ({ lru with priority := moveToFront lru.priority element }, e.value, true)
    | none => throw .panic
  | none => pure (lru, none, false)

/-- Method `Put`. -/
def Cache.Put (lru : Cache) (key : String) (value : Any) : M Cache := do
  let (lru, _, ok) ← lru.Get key
  if ok then pure lru
  else do
    let lru ← if (lru.cache.length : Int) = lru.maxSize then
        match lru.priority.getLast? with
        | none => throw .panic
        | some back =>
          match lru.elems[back]? with
          | none => throw .panic
          | some last =>
            pure { lru with priority := lru.priority.erase back,
                            cache := mapDel lru.cache last.key }
      else pure lru
    let front := lru.elems.length
    pure { lru with elems := lru.elems ++ [⟨key, value⟩],
                    priority := front :: lru.priority,
                    cache := mapSet lru.cache key front }

/-- Method `Del`. -/
def Cache.Del (lru : Cache) (key : String) : M Cache :=
  match mapGet lru.cache key with
  | none => pure lru
  | some e => pure { lru with cache := mapDel lru.cache key, priority := lru.priority.erase e }

/-- A call of a method of the cache. -/
inductive Op where
  | Put (key : String) (value : Any)
  | Get (key : String)
  | Del (key : String)
deriving DecidableEq, Repr

/-- The cache after a call. -/
def Cache.step (lru : Cache) : Op → M Cache
  | .Put k v => lru.Put k v
  | .Get k => do
    let (lru, _, _) ← lru.Get k
    pure lru
  | .Del k => lru.Del k

/-- Whether a call on the cache `lru` touches the entry of `key`: a `Put` of the key, or a
`Get` of the key that is a hit. -/
def Cache.touches (lru : Cache) (key : String) : Op → Bool
  | .Put k _ => k = key
  | .Get k => k = key && (mapGet lru.cache k).isSome
  | .Del _ => false

/-- The cache after the calls `ops`, made at the times `t + 1`, `t + 2`, ..., and for every
key the time of the last call that touched it (`stamp` holds these times before the calls). -/
def Cache.run : List Op → Cache → Nat → (String → Nat) → M (Cache × (String → Nat))
  | [], lru, _, stamp => pure (lru, stamp)
  | op :: ops, lru, t, stamp => do
    let lru' ← lru.step op
    Cache.run ops lru' (t + 1) (fun k => if lru.touches k op then t + 1 else stamp k)

/-- The number of entries held by the cache. -/
def Cache.size (lru : Cache) : Nat := lru.cache.length

/-- Whether the cache holds an entry for the key. -/
def Cache.has (lru : Cache) (key : String) : Bool := (mapGet lru.cache key).isSome

end LRU

namespace Memstore

/-! ### Scenarios -/

/-- Calls `t.Set(k, v)` for the keys `ks` in turn, the value of key `k` being the primitive at
address `k`. -/
def Tree.setKeys (t : Tree) (ks : List Int) : M Tree :=
  ks.foldlM (fun t k => t.Set k (some k.toNat)) t

/-- The keys `lo, lo + 1, ..., lo + n - 1`. -/
def keysFrom (lo : Int) : Nat → List Int
  | 0 => []
  | n + 1 => lo :: keysFrom (lo + 1) n

/-- A tree built from `TreeNew(cmp)` by `Set` of the keys 1 to 65, `Delete(33)` and `Set` of
the keys 66 to 97: an index page over two data pages, the left one with the 32 keys 1 to 32,
the right one full with the 64 keys 34 to 97, and 33 the separator between them. -/
def scenarioFullLeaf : M Tree := do
  let t ← (TreeNew cmp).setKeys (keysFrom 1 65)
  let (t, _) ← t.Delete 33
  t.setKeys (keysFrom 66 32)

/-- Whether a call ended in a run-time panic. -/
def isPanic {α : Type} : M α → Bool
  | .error .panic => true
  | _ => false

/-- Whether a call returned. -/
def isOk {α : Type} : M α → Bool
  | .ok _ => true
  | _ => false

/-- The tree with the keys 1 and 2, the enumerator `SeekFirst` and then: `Next`, `Delete(2)`,
`Next`, `Set(2, v)`, `Next`; the results of the three `Next` calls. -/
def scenarioSticky : M (Item × Item × Item) := do
  let t ← (TreeNew cmp).Set 1 (some 10)
  let t ← t.Set 2 (some 20)
  let (e, _) ← t.SeekFirst
  match e with
  | none => throw .panic
  | some e =>
    let (e, i1) ← e.Next t
    let (t, _) ← t.Delete 2
    let (e, i2) ← e.Next t
    let t ← t.Set 2 (some 21)
    let (_, i3) ← e.Next t
    pure (i1, i2, i3)

/-- The tree with the key 1, the enumerator `SeekFirst` and then: `Next`, `Set(2, v)`, `Next`;
the results of the two `Next` calls and of `Get(2)` on the final tree. -/
def scenarioResume : M (Item × Item × V × Bool) := do
  let t ← (TreeNew cmp).Set 1 (some 10)
  let (e, _) ← t.SeekFirst
  match e with
  | none => throw .panic
  | some e =>
    let (e, i1) ← e.Next t
    let t ← t.Set 2 (some 20)
    let (_, i2) ← e.Next t
    let g ← t.Get 2
    pure (i1, i2, g)

/-- The quad `<alice> <knows> <bob>` without label. -/
def quadAKB : Quad :=
  ⟨some (.other "<alice>"), some (.other "<knows>"), some (.other "<bob>"), none⟩

/-- A new store to which the quad with four nil values is added, then `findQuad(q)` and
`AddQuad(q)` for `q = <alice> <knows> <bob>`: whether `findQuad` found `q`, and the id and flag
returned by `AddQuad`. -/
def scenarioAddQuad : M (Bool × Int × Bool) := do
  let (qs, _, _) ← newQuadStore.AddQuad ⟨none, none, none, none⟩
  let (_, _, found) ← qs.findQuad quadAKB
  let (_, id, added) ← qs.AddQuad quadAKB
  pure (found, id, added)

/-- A new store to which the quad with four nil values is added, then `AddQuad(q)` twice for
`q = <alice> <knows> <bob>`: whether `findQuad` found `q` before, `Stats.Quads` before, the two
ids, and `Stats.Quads` after. -/
def scenarioAddTwice : M (Bool × Int × Int × Int × Int) := do
  let (qs, _, _) ← newQuadStore.AddQuad ⟨none, none, none, none⟩
  let (_, _, found) ← qs.findQuad quadAKB
  let before := qs.Stats.Quads
  let (qs, id1, _) ← qs.AddQuad quadAKB
  let (qs, id2, _) ← qs.AddQuad quadAKB
  pure (found, before, id1, id2, qs.Stats.Quads)

deriving instance DecidableEq for Except

/-- A new store to which `<alice> <knows> <bob>` is added: the result of `Stats`. -/
def scenarioStats : M Stats := do
  let (qs, _, _) ← newQuadStore.AddQuad quadAKB
  pure qs.Stats

/-- The ids of the primitives of `all`, in order. -/
def QuadStore.allIDs (qs : QuadStore) : List Int :=
  (qs.elems qs.all).filterMap (fun a => a.bind (fun a => qs.heap[a]?.map (·.ID)))

/-- A new store to which the quad `_:memnode3 <knows> <bob>` is added: the id of the new quad
primitive, the flag of `AddQuad` and the ids of the primitives of `all`. -/
def scenarioMemnodeIDs : M (Int × Bool × List Int) := do
  let (qs, id, added) ←
    newQuadStore.AddQuad ⟨some (.BNode "memnode3"), some (.other "<knows>"),
      some (.other "<bob>"), none⟩
  pure (id, added, qs.allIDs)

/-- The quad `_:memnode5 <knows> <bob>` without label. -/
def quadM5 : Quad :=
  ⟨some (.BNode "memnode5"), some (.other "<knows>"), some (.other "<bob>"), none⟩

/-- A new store to which `_:memnode5 <knows> <bob>` is added: the flag of `AddQuad`, whether
`findQuad` finds the quad afterwards, and `ValueOf` of its subject. -/
def scenarioValueOf : M (Bool × Bool × Option Ref) := do
  let (qs, _, added) ← newQuadStore.AddQuad quadM5
  let (_, _, found) ← qs.findQuad quadM5
  pure (added, found, qs.ValueOf quadM5.Subject)

/-- A store with the quads `_:memnode5 <p>` and `<d>`, to which `<c> <p>` is added and then
deleted (`findQuad`, `Delete`): whether `findQuad` found `<c> <p>` before, and `Stats` before,
after the `AddQuad` and after the `Delete`. -/
def scenarioAddDelete : M (Bool × Stats × Stats × Stats) := do
  let (qs, _, _) ←
    newQuadStore.AddQuad ⟨some (.BNode "memnode5"), some (.other "<p>"), none, none⟩
  let (qs, _, _) ← qs.AddQuad ⟨some (.other "<d>"), none, none, none⟩
  let q : Quad := ⟨some (.other "<c>"), some (.other "<p>"), none, none⟩
  let (_, _, found) ← qs.findQuad q
  let s0 := qs.Stats
  let (qs, _, _) ← qs.AddQuad q
  let s1 := qs.Stats
  let (id, _, _) ← qs.findQuad q
  let (qs, _) ← qs.Delete id
  pure (found, s0, s1, qs.Stats)

/-- A new store and `ApplyDeltas` of the one delta `Add _:memnode5 <knows> <bob>`: the error
returned, whether `findQuad` finds the quad afterwards, and `ValueOf` of its subject. -/
def scenarioDeltaValueOf : M (Option DeltaError × Bool × Option Ref) := do
  let (qs, e) ← newQuadStore.ApplyDeltas [⟨quadM5, .Add⟩] ⟨false, false⟩
  let (_, _, found) ← qs.findQuad quadM5
  pure (e, found, qs.ValueOf quadM5.Subject)

/-- A new store and `ApplyDeltas`, with both ignore options set, of an `Add` delta followed by
a delta of an unknown action: the error returned and `Stats` before and after the call. -/
def scenarioNoRollback : M (Option DeltaError × Stats × Stats) := do
  let qs := newQuadStore
  let (qs', e) ← qs.ApplyDeltas [⟨quadAKB, .Add⟩, ⟨quadAKB, .other 0⟩] ⟨true, true⟩
  pure (e, qs.Stats, qs'.Stats)

end Memstore

/-! ### Invariants of the LRU cache -/

namespace LRU

open Memstore (mapGet mapSet mapDel)

/-- The key of the element at address `e`. -/
def Cache.keyOf (c : Cache) (e : Nat) : String := (c.elems.getD e ⟨"", none⟩).key

/-- Representation invariant of a cache of capacity `N`: the map `cache` has one entry per
element of the list `priority`, under the key the element carries, and at most `N` entries. -/
structure Cache.Inv (c : Cache) (N : Nat) : Prop where
  max : c.maxSize = N
  keys : (c.cache.map Prod.fst).Nodup
  perm : (c.cache.map Prod.snd).Perm c.priority
  nodup : c.priority.Nodup
  el : ∀ k e, (k, e) ∈ c.cache → ∃ v, c.elems[e]? = some ⟨k, v⟩
  le : c.cache.length ≤ N

/-- The list `priority` is in the order of the last touches: an element nearer to the front
was touched later; no element was touched after time `t`. -/
def Cache.Ordered (c : Cache) (t : Nat) (stamp : String → Nat) : Prop :=
  c.priority.Pairwise (fun e1 e2 => stamp (c.keyOf e2) < stamp (c.keyOf e1)) ∧
    ∀ e ∈ c.priority, stamp (c.keyOf e) ≤ t

/-- The cache after the statements of `Put` that push the new element to the front. -/
def Cache.push (c : Cache) (k : String) (v : Any) : Cache :=
  { c with elems := c.elems ++ [⟨k, v⟩], priority := c.elems.length :: c.priority,
           cache := mapSet c.cache k c.elems.length }

/-- The cache after the statements of `Put` that remove the element at the back. -/
def Cache.evict (c : Cache) (back : Nat) : Cache :=
  { c with priority := c.priority.erase back, cache := mapDel c.cache (c.keyOf back) }

end LRU

/-! ### Snapshots of `all` -/

namespace Memstore

/-- A call of one of the methods of the store that change it. -/
inductive StoreOp where
  | AddQuad (q : Quad)
  | AddValue (v : Option Value)
  | AddBNode
  | Delete (id : Int)
  | ApplyDeltas (deltas : List Delta) (o : IgnoreOpts)

/-- The store after a call. -/
def QuadStore.step (qs : QuadStore) : StoreOp → M QuadStore
  | .AddQuad q => do
    let (qs, _, _) ← qs.AddQuad q
    pure qs
  | .AddValue v => do
    let (qs, _, _) ← qs.AddValue v
    pure qs
  | .AddBNode => do
    let (qs, _) ← qs.AddBNode
    pure qs
  | .Delete id => do
    let (qs, _) ← qs.Delete id
    pure qs
  | .ApplyDeltas deltas o => do
    let (qs, _) ← qs.ApplyDeltas deltas o
    pure qs

/-- The store after a sequence of calls. -/
def QuadStore.steps : List StoreOp → QuadStore → M QuadStore
  | [], qs => pure qs
  | op :: ops, qs => do
    let qs ← qs.step op
    QuadStore.steps ops qs

/-- A slice value is well formed in a store: it is empty or its backing array exists. -/
def QuadStore.sliceOk (qs : QuadStore) (s : Slice) : Prop :=
  s.len = 0 ∨ s.arr < qs.arrays.length

/-- The slice `s` is safe from the writes of the store: `all` does not share the backing
array of `s` unless `reading` is set. -/
def QuadStore.Safe (qs : QuadStore) (s : Slice) : Prop :=
  s.len = 0 ∨ (s.arr < qs.arrays.length ∧ (qs.all.arr = s.arr → qs.reading = true))

/-- A step from `qs` to `qs'` keeps the slice `s`: it stays safe and its elements stay. -/
def QuadStore.Keeps (s : Slice) (qs qs' : QuadStore) : Prop :=
  qs.Safe s → qs'.Safe s ∧ qs'.elems s = qs.elems s

end Memstore

/-! ### Transactions (`graph/transaction.go`) -/

namespace Graph

open Memstore (M Err Quad Delta Procedure mapGet mapSet mapDel)

/-- Type `Transaction`: the list `Deltas` and the map `deltas`, a `map[Delta]struct{}`. -/
structure Transaction where
  Deltas : List Delta
  deltas : List (Delta × Unit)
deriving DecidableEq, Repr

/-- Function `NewTransactionN`; `make` with a negative capacity panics. -/
def NewTransactionN (n : Int) : M Transaction :=
  if 0 ≤ n then pure { Deltas := [], deltas := [] } else throw .panic

/-- Function `NewTransaction`. -/
def NewTransaction : M Transaction := NewTransactionN 10

/-- Function `createDeltas`. -/
def createDeltas (q : Quad) : Delta × Delta :=
  ({ Quad := q, Action := .Add }, { Quad := q, Action := .Delete })

/-- Method `addDelta`. -/
def Transaction.addDelta (t : Transaction) (d : Delta) : Transaction :=
  { Deltas := t.Deltas ++ [d], deltas := mapSet t.deltas d () }

/-- The loop of `deleteDelta` over `t.Deltas`: the list without the first element equal to
`d`. -/
def deleteFirst (d : Delta) : List Delta → List Delta
  | [] => []
  | id :: rest => if id = d then rest else id :: deleteFirst d rest

/-- Method `deleteDelta`. -/
def Transaction.deleteDelta (t : Transaction) (d : Delta) : Transaction :=
  { Deltas := deleteFirst d t.Deltas, deltas := mapDel t.deltas d }

/-- Expression `_, ok := t.deltas[d]`: whether the map holds the delta. -/
def Transaction.staged (t : Transaction) (d : Delta) : Bool := (mapGet t.deltas d).isSome

/-- Method `AddQuad`. -/
def Transaction.AddQuad (t : Transaction) (q : Quad) : Transaction :=
  let (ad, rd) := createDeltas q
  if !t.staged ad then
    if t.staged rd then t.deleteDelta rd else t.addDelta ad
  else t

/-- Method `RemoveQuad`. -/
def Transaction.RemoveQuad (t : Transaction) (q : Quad) : Transaction :=
  let (ad, rd) := createDeltas q
  if t.staged ad then t.deleteDelta ad
  else if !t.staged rd then t.addDelta rd else t

/-- A call of a method of a transaction. -/
inductive TxOp where
  | AddQuad (q : Quad)
  | RemoveQuad (q : Quad)
deriving DecidableEq, Repr

/-- The transaction after a call. -/
def Transaction.step (t : Transaction) : TxOp → Transaction
  | .AddQuad q => t.AddQuad q
  | .RemoveQuad q => t.RemoveQuad q

/-- The transaction after the calls `ops`, made at the times `n + 1`, `n + 2`, ..., and for
every delta the time of the last call that staged it, that is, after which the map holds the
delta while it did not before (`stamp` holds these times before the calls). -/
def Transaction.run : List TxOp → Transaction → Nat → (Delta → Nat) → Transaction × (Delta → Nat)
  | [], t, _, stamp => (t, stamp)
  | op :: ops, t, n, stamp =>
    Transaction.run ops (t.step op) (n + 1)
      (fun d => if !t.staged d && (t.step op).staged d then n + 1 else stamp d)

/-- Representation invariant of a transaction: the list holds the keys of the map, each
once. -/
def Transaction.Inv (t : Transaction) : Prop :=
  t.deltas.map Prod.fst = t.Deltas ∧ t.Deltas.Nodup

/-- The list `Deltas` is in the order of staging: a delta nearer to the front was staged
earlier; no delta was staged after time `n`. -/
def Transaction.Ordered (t : Transaction) (n : Nat) (stamp : Delta → Nat) : Prop :=
  t.Deltas.Pairwise (fun d1 d2 => stamp d1 < stamp d2) ∧ ∀ d ∈ t.Deltas, stamp d ≤ n

/-- The list `Deltas` never holds the `Add` and the `Delete` delta of one quad. -/
def Transaction.NoBoth (t : Transaction) : Prop :=
  ∀ q : Quad, ¬ (({ Quad := q, Action := .Add } : Delta) ∈ t.Deltas ∧
    ({ Quad := q, Action := .Delete } : Delta) ∈ t.Deltas)

end Graph

namespace Memstore

/-! ### Further scenarios -/

/-- On the tree of `scenarioFullLeaf`, the step of `Set(33, v)` at the data page in slot 1 of
the root: the count of the root, the count of the page, the result of `find`, and whether
`overflow`, called as `Set` calls it, and `insert` at the position before the one found end in
a run-time panic. -/
def scenarioOverflow : M (Int × Int × Int × Bool × Bool × Bool) := do
  let t ← scenarioFullLeaf
  match t.r with
  | .x c xs => do
    let q ← asD (← chAt xs 1)
    let (i, ok) ← t.find (.d q) 33
    pure (c, q.c, i, ok, isPanic (t.overflow (some ⟨c, xs⟩) q 1 i 33 (some 33)),
      isPanic (t.insert q (i - 1) 33 (some 33)))
  | _ => throw .panic

end Memstore

/-! ### Persistent store (`graph/kv/indexing.go`): keys, index lists, index selection

Bytes are natural numbers below 256 and `uint64` values natural numbers below `2^64`; a byte
slice is a `List`, written through `upd`, `slice` and `copy`, which check the bounds as the Go
run time does. -/

namespace KV

open Memstore (M Err idx upd slice copy Direction)

/-- Library constant `binary.MaxVarintLen64`. -/
def MaxVarintLen64 : Nat := 10

/-- Library function `binary.PutUvarint(buf, x)` with `buf` the slice `b[off:]`: the loop
`for x >= 0x80 { buf[i] = byte(x) | 0x80; x >>= 7; i++ }` and the last byte; the result is the
array `b` and the number of bytes written.  A `uint64` needs at most ten rounds. -/
def putUvarintLoop (off : Nat) : Nat → List Nat → Nat → Nat → M (List Nat × Nat)
  | 0, _, _, _ => throw .diverge
  | fuel + 1, b, x, i =>
    if x ≥ 0x80 then do
      let b ← upd b ((off + i : Nat) : Int) ((x % 256) ||| 0x80)
      putUvarintLoop off fuel b (x >>> 7) (i + 1)
    else do
      let b ← upd b ((off + i : Nat) : Int) (x % 256)
      pure (b, i + 1)

/-- Library function `binary.PutUvarint`, writing into `b[off:]`. -/
def PutUvarint (b : List Nat) (off : Nat) (x : Nat) : M (List Nat × Nat) :=
  putUvarintLoop off MaxVarintLen64 b x 0

/-- Library function `binary.Uvarint`: the loop over the bytes of `buf` with the index `i`, the
value `x` and the shift `s`; the result is the value and the number of bytes read (`0` for a
buffer that is too small, negative on overflow). -/
def uvarintLoop : List Nat → Nat → Nat → Nat → Nat × Int
  | [], _, _, _ => (0, 0)
  | b :: rest, i, x, s =>
    if i = MaxVarintLen64 then (0, -((i : Int) + 1))
    else if b < 0x80 then
      if i = MaxVarintLen64 - 1 ∧ b > 1 then (0, -((i : Int) + 1))
      else ((x ||| ((b <<< s) % 2 ^ 64)) % 2 ^ 64, (i : Int) + 1)
    else uvarintLoop rest (i + 1) ((x ||| (((b &&& 0x7f) <<< s) % 2 ^ 64)) % 2 ^ 64) (s + 7)

/-- Library function `binary.Uvarint`. -/
def Uvarint (buf : List Nat) : Nat × Int := uvarintLoop buf 0 0 0

/-- The errors returned by `decodeIndex`. -/
inductive DecodeErr where
  | ErrUnexpectedEOF
  | overflow
deriving DecidableEq, Repr

/-- Loop `for len(b) > 0 { ... }` of `decodeIndex`; every round drops at least one byte. -/
def decodeLoop : Nat → List Nat → List Nat → M (List Nat × Option DecodeErr)
  | 0, _, _ => throw .diverge
  | fuel + 1, b, out =>
    if b.length > 0 then
      let (v, n) := Uvarint b
      if n = 0 then pure (out, some .ErrUnexpectedEOF)
      else if n < 0 then pure (out, some .overflow)
      else do
        let b ← slice b n b.length
        decodeLoop fuel b (out ++ [v])
    else pure (out, none)

/-- Function `decodeIndex`. -/
def decodeIndex (b : List Nat) : M (List Nat × Option DecodeErr) :=
  decodeLoop (b.length + 1) b []

/-- Loop `for _, x := range l { n := binary.PutUvarint(b[off:], x); off += n }` of
`appendIndex`. -/
def appendLoop : List Nat → List Nat → Nat → M (List Nat × Nat)
  | [], b, off => pure (b, off)
  | x :: l, b, off => do
    let _ ← slice b off b.length
    let (b, n) ← PutUvarint b off x
    appendLoop l b (off + n)

/-- Function `appendIndex`. -/
def appendIndex (bytelist : List Nat) (l : List Nat) : M (List Nat) := do
  let b := List.replicate (bytelist.length + MaxVarintLen64 * l.length) 0
  let b ← copy b 0 bytelist.length bytelist
  let (b, off) ← appendLoop l b bytelist.length
  slice b 0 off

/-- Inner loop `for { ... }` of `intersectSortedUint64` for the element `x` of `a`, on the
rest `b[boff:]` of `b`: the list `c`, the rest of `b`, and whether `break outer` was taken. -/
def intersectInner (x : Nat) : List Nat → List Nat → List Nat × List Nat × Bool
  | [], c => (c, [], true)
  | y :: bs, c =>
    if x > y then intersectInner x bs c
    else if x < y then (c, y :: bs, false)
    else (c ++ [x], bs, false)

/-- Loop `outer` of `intersectSortedUint64` over the elements of `a`. -/
def intersectOuter : List Nat → List Nat → List Nat → List Nat
  | [], _, c => c
  | x :: as, b, c =>
    match intersectInner x b c with
    | (c, _, true) => c
    | (c, b, false) => intersectOuter as b c

/-- Function `intersectSortedUint64`. -/
def intersectSortedUint64 (a b : List Nat) : List Nat := intersectOuter a b []

/-- Type `QuadIndex`. -/
structure QuadIndex where
  Dirs : List Direction
  Unique : Bool
deriving DecidableEq, Repr

/-- Variable `legacyQuadIndexes`. -/
def legacyQuadIndexes : List QuadIndex :=
  [{ Dirs := [.Subject], Unique := false }, { Dirs := [.Object], Unique := false }]

/-- Variable `DefaultQuadIndexes`. -/
def DefaultQuadIndexes : List QuadIndex :=
  [{ Dirs := [.Subject, .Predicate], Unique := false },
   { Dirs := [.Object, .Predicate, .Subject], Unique := false }]

/-- Modelled from the spec: type `Primitive` of package proto, whose declaration is not part of
the sources at hand: the id, the four node ids of a quad primitive, the creation time, the
tombstone flag and the serialized value of a node primitive. -/
structure Primitive where
  ID : Nat
  Subject : Nat
  Predicate : Nat
  Object : Nat
  Label : Nat
  Timestamp : Int
  Deleted : Bool
  Value : List Nat
deriving DecidableEq, Repr

/-- Modelled from the spec: method `GetDirection` of `proto.Primitive`. -/
def Primitive.GetDirection (p : Primitive) : Direction → Nat
  | .Subject => p.Subject
  | .Predicate => p.Predicate
  | .Object => p.Object
  | .Label => p.Label

/-- Modelled from the spec: method `IsSameLink` of `proto.Primitive`, the comparison of the
four node ids. -/
def Primitive.IsSameLink (p q : Primitive) : Bool :=
  p.Subject = q.Subject ∧ p.Predicate = q.Predicate ∧ p.Object = q.Object ∧ p.Label = q.Label

/-- Library type `kv.Key`: a list of byte strings. -/
abbrev Key := List (List Nat)

/-- Library method `PutUint64` of `binary.BigEndian`, writing into `b[off:]`. -/
def PutUint64 (b : List Nat) (off : Nat) (v : Nat) : M (List Nat) :=
  if off + 7 < b.length then do
    let b ← upd b ((off : Nat) : Int) ((v >>> 56) % 256)
    let b ← upd b ((off + 1 : Nat) : Int) ((v >>> 48) % 256)
    let b ← upd b ((off + 2 : Nat) : Int) ((v >>> 40) % 256)
    let b ← upd b ((off + 3 : Nat) : Int) ((v >>> 32) % 256)
    let b ← upd b ((off + 4 : Nat) : Int) ((v >>> 24) % 256)
    let b ← upd b ((off + 5 : Nat) : Int) ((v >>> 16) % 256)
    let b ← upd b ((off + 6 : Nat) : Int) ((v >>> 8) % 256)
    upd b ((off + 7 : Nat) : Int) (v % 256)
  else throw .panic

/-- Method `bucket` of `QuadIndex`; `pre` is the library method `Prefix` of `quad.Direction`. -/
def QuadIndex.bucket (pre : Direction → Nat) (ind : QuadIndex) : Key :=
  [ind.Dirs.map pre]

/-- Loop of `Key` and `KeyFor`: `PutUint64(key[n:], v); n += 8` for the values in turn. -/
def putAll : List Nat → List Nat → Nat → M (List Nat)
  | [], key, _ => pure key
  | v :: vals, key, n => do
    let _ ← slice key n key.length
    let key ← PutUint64 key n v
    putAll vals key (n + 8)

/-- Method `Key` of `QuadIndex`. -/
def QuadIndex.Key (pre : Direction → Nat) (ind : QuadIndex) (vals : List Nat) : M KV.Key := do
  let key := List.replicate (8 * vals.length) 0
  let key ← putAll vals key 0
  pure (ind.bucket pre ++ [key])

/-- Loop `for _, d := range ind.Dirs { PutUint64(key[n:], p.GetDirection(d)); n += 8 }` of
`KeyFor`. -/
def putDirs (p : Primitive) : List Direction → List Nat → Nat → M (List Nat)
  | [], key, _ => pure key
  | d :: ds, key, n => do
    let _ ← slice key n key.length
    let key ← PutUint64 key n (p.GetDirection d)
    putDirs p ds key (n + 8)

/-- Method `KeyFor` of `QuadIndex`. -/
def QuadIndex.KeyFor (pre : Direction → Nat) (ind : QuadIndex) (p : Primitive) : M KV.Key := do
  let key := List.replicate (8 * ind.Dirs.length) 0
  let key ← putDirs p ind.Dirs key 0
  pure (ind.bucket pre ++ [key])

/-- Function `hasDir`. -/
def hasDir (dirs : List Direction) (d : Direction) : Bool :=
  match dirs with
  | [] => false
  | d2 :: rest => if d = d2 then true else hasDir rest d

/-- Inner loop of `bestIndexes` over `ind.Dirs`: the number of leading directions found in
`dirs`, at most `len(dirs)`. -/
def matchLoop (dirs : List Direction) : List Direction → Nat → Nat → Nat
  | [], _, m => m
  | d :: rest, i, m => if i ≥ dirs.length ∨ !hasDir dirs d then m else matchLoop dirs rest (i + 1) (m + 1)

/-- Loop of `bestIndexes` over the indexes `all`, with the variables `max` and `best`; the
result is the list returned. -/
def bestLoop (dirs : List Direction) : List QuadIndex → Nat → QuadIndex → List QuadIndex
  | [], max, best => if max = 0 then [] else [best]
  | ind :: rest, max, best =>
    if ind.Dirs.length < dirs.length then bestLoop dirs rest max best
    else
      let m := matchLoop dirs ind.Dirs 0 0
      if m = dirs.length then [ind]
      else if m > 0 ∧ m > max then bestLoop dirs rest m ind
      else bestLoop dirs rest max best

/-- Method `bestIndexes`; `all` is `qs.indexes.all`. -/
def bestIndexes (all : List QuadIndex) (dirs : List Direction) : List QuadIndex :=
  bestLoop dirs all 0 { Dirs := [], Unique := false }

end KV

namespace KV

/-- The bytes that `binary.PutUvarint` writes for `x`: seven bits at a time, the low ones
first, every byte but the last with the high bit set (for `x` below `128 ^ fuel`). -/
def uvarintBytes : Nat → Nat → List Nat
  | 0, _ => []
  | fuel + 1, x => if x ≥ 128 then (x % 128 + 128) :: uvarintBytes fuel (x / 128) else [x]

/-- The varint encoding of a `uint64`. -/
def enc (x : Nat) : List Nat := uvarintBytes MaxVarintLen64 x

end KV

namespace KV

/-- The eight bytes of a `uint64` in big-endian order. -/
def be8 (v : Nat) : List Nat :=
  [(v >>> 56) % 256, (v >>> 48) % 256, (v >>> 40) % 256, (v >>> 32) % 256,
   (v >>> 24) % 256, (v >>> 16) % 256, (v >>> 8) % 256, v % 256]

end KV

/-! ### Persistent store (`graph/kv/indexing.go`): metadata, existence check, write buffer

A byte string, also one of type `string`, is the list of its bytes; a `nil` slice or map is
`none`. -/

namespace KV

open Memstore (M Err idx upd slice copy Direction mapGet mapSet mapDel wrap64)

/-- Modelled from the spec: a transaction of the ordered key-value engine, which is not part of
the sources at hand: a map from keys to values whose `Get`, `GetBatch` and `Put` always reach
the engine, so that the only error is `kv.ErrNotFound` of `Get` for an absent key. -/
structure Tx where
  data : List (Key × List Nat)
deriving DecidableEq, Repr

/-- Modelled from the spec: method `Get` of `kv.Tx`; `none` stands for `kv.ErrNotFound`. -/
def Tx.Get (tx : Tx) (k : Key) : Option (List Nat) := mapGet tx.data k

/-- Modelled from the spec: method `Put` of `kv.Tx`. -/
def Tx.Put (tx : Tx) (k : Key) (v : List Nat) : Tx := { data := mapSet tx.data k v }

/-- Modelled from the spec: method `GetBatch` of `kv.Tx`; the value of an absent key is `nil`. -/
def Tx.GetBatch (tx : Tx) (keys : List Key) : List (Option (List Nat)) := keys.map tx.Get

/-- The errors of the persistent store that the functions below return. -/
inductive KvErr where
  | ErrNotFound
  | noIndexes
  | decode (e : DecodeErr)
  | unmarshal
  | invalidKey
deriving DecidableEq, Repr

/-- Conversion `[]byte(s)` of a string of ASCII characters. -/
def bytesOf (s : String) : List Nat := s.toList.map Char.toNat

/-- Variable `metaBucket`. -/
def metaBucket : Key := [bytesOf "meta"]

/-- Variable `logIndex`. -/
def logIndex : Key := [bytesOf "log"]

/-- Conversion `int64(u)` of a `uint64`. -/
def int64 (u : Nat) : Int := wrap64 (u : Int)

/-- Conversion `uint64(i)` of an `int64`. -/
def uint64 (i : Int) : Nat := (i % 18446744073709551616).toNat

/-- Library method `Uint64` of `binary.LittleEndian`. -/
def Uint64LE (b : List Nat) : M Nat :=
  match b with
  | b0 :: b1 :: b2 :: b3 :: b4 :: b5 :: b6 :: b7 :: _ =>
    pure (b0 ||| b1 <<< 8 ||| b2 <<< 16 ||| b3 <<< 24 ||| b4 <<< 32 ||| b5 <<< 40 |||
      b6 <<< 48 ||| b7 <<< 56)
  | _ => throw .panic

/-- Library method `PutUint64` of `binary.LittleEndian` on a buffer of eight bytes. -/
def PutUint64LE (b : List Nat) (v : Nat) : M (List Nat) :=
  if 7 < b.length then do
    let b ← upd b 0 (v % 256)
    let b ← upd b 1 ((v >>> 8) % 256)
    let b ← upd b 2 ((v >>> 16) % 256)
    let b ← upd b 3 ((v >>> 24) % 256)
    let b ← upd b 4 ((v >>> 32) % 256)
    let b ← upd b 5 ((v >>> 40) % 256)
    let b ← upd b 6 ((v >>> 48) % 256)
    upd b 7 ((v >>> 56) % 256)
  else throw .panic

/-- Method `getMetaIntTx`. -/
def getMetaIntTx (tx : Tx) (key : String) : M (Int × Option KvErr) :=
  match tx.Get (metaBucket ++ [bytesOf key]) with
  | none => pure (0, some .ErrNotFound)
  | some val => do
    let u ← Uint64LE val
    pure (int64 u, none)

/-- Method `incMetaInt`. -/
def incMetaInt (tx : Tx) (key : String) (n : Int) : M (Tx × Int × Option KvErr) :=
  if n = 0 then pure (tx, 0, none)
  else do
    let (v, err) ← getMetaIntTx tx key
    if err ≠ none ∧ err ≠ some .ErrNotFound then pure (tx, 0, err)
    else do
      let start := v
      let v := wrap64 (v + n)
      let buf ← PutUint64LE (List.replicate 8 0) (uint64 v)
      let tx := tx.Put (metaBucket ++ [bytesOf key]) buf
      pure (tx, start, none)

/-- Method `genIDs`; `n` is an `int` of 64 bits. -/
def genIDs (tx : Tx) (n : Int) : M (Tx × Nat × Option KvErr) :=
  if n = 0 then pure (tx, 0, none)
  else do
    let (tx, start, err) ← incMetaInt tx "horizon" n
    match err with
    | some e => pure (tx, 0, some e)
    | none => pure (tx, uint64 (wrap64 (start + 1)), none)

/-- Calls of `genIDs` one after the other with the counts `ns`: the first id returned by every
call. -/
def genIDsSeq : List Int → Tx → M (Tx × List Nat)
  | [], tx => pure (tx, [])
  | n :: ns, tx => do
    let (tx, start, _) ← genIDs tx n
    let (tx, starts) ← genIDsSeq ns tx
    pure (tx, start :: starts)

/-- Modelled from the spec: a Bloom filter of the library `BoomFilters`, which is not part of
the sources at hand: `Test` answers for every byte string, and answers `true` for every string
that was added. -/
structure Bloom where
  Test : List Nat → Bool

/-- Modelled from the spec: method `Add` of a Bloom filter. -/
def Bloom.Add (f : Bloom) (b : List Nat) : Bloom := { Test := fun x => decide (x = b) || f.Test x }

/-- Type `QuadStore` of package kv, as far as the functions below use it: `indexes.all` and
`indexes.exists`, the write buffer `mapBucket`, the filters `mapBloom`, and `exists` with its
flag `disabled`; `unmarshal` is the method `Unmarshal` of `proto.Primitive`, which is not part
of the sources at hand (`none` stands for an error). -/
structure QuadStore where
  all : List QuadIndex
  exist : List QuadIndex
  mapBucket : Option (List (List Nat × List (List Nat × List Nat)))
  mapBloom : Option (List (List Nat × Bloom))
  disabled : Bool
  existsBloom : Bloom
  unmarshal : List Nat → Option Primitive

/-- Method `bestUnique`. -/
def QuadStore.bestUnique (qs : QuadStore) : QuadStore × List QuadIndex × Option KvErr :=
  if qs.exist.length ≠ 0 then (qs, qs.exist, none)
  else
    match qs.all.find? (fun i => i.Unique) with
    | some i => ({ qs with exist := [i] }, [i], none)
    | none =>
      if qs.all.length = 0 then (qs, [], some .noIndexes)
      else ({ qs with exist := qs.all }, qs.all, none)

/-- Function `writePrimToBuf` on a buffer of 24 bytes. -/
def writePrimToBuf (p : Primitive) (buf : List Nat) : M (List Nat) := do
  let _ ← slice buf 0 8
  let buf ← PutUint64 buf 0 p.Subject
  let _ ← slice buf 8 16
  let buf ← PutUint64 buf 8 p.Predicate
  let _ ← slice buf 16 24
  PutUint64 buf 16 p.Object

/-- Method `testBloom`. -/
def QuadStore.testBloom (qs : QuadStore) (p : Primitive) : M Bool :=
  if qs.disabled then pure true
  else do
    let buf ← writePrimToBuf p (List.replicate 24 0)
    pure (qs.existsBloom.Test buf)

/-- Loop of `getBucketIndexes` over the values read: the slots of `out` from the one at hand
on.  `out` has one slot for every value; when a value does not decode, its slot and the slots
after it stay nil and the error is returned with `out`. -/
def decodeAll : List (Option (List Nat)) → M (List (List Nat) × Option KvErr)
  | [] => pure ([], none)
  | v :: vals =>
    match v with
    | none => do
      let (out, err) ← decodeAll vals
      pure ([] :: out, err)
    | some v =>
      if v.length = 0 then do
        let (out, err) ← decodeAll vals
        pure ([] :: out, err)
      else do
        let (ind, err) ← decodeIndex v
        match err with
        | some e => pure ([] :: vals.map (fun _ => []), some (.decode e))
        | none => do
          let (out, err) ← decodeAll vals
          pure (ind :: out, err)

/-- Method `getBucketIndexes`. -/
def getBucketIndexes (tx : Tx) (keys : List Key) : M (List (List Nat) × Option KvErr) :=
  decodeAll (tx.GetBatch keys)

/-- Function `uint64KeyBytes`. -/
def uint64KeyBytes (x : Nat) : M Key := do
  let k ← PutUint64 (List.replicate 8 0) 0 x
  pure [k]

/-- Method `getPrimitiveFromLog`, with `getPrimitivesFromLog` for the one key. -/
def QuadStore.getPrimitiveFromLog (qs : QuadStore) (tx : Tx) (k : Nat) :
    M (Option Primitive × Option KvErr) := do
  let kb ← uint64KeyBytes k
  match tx.GetBatch [logIndex ++ kb] with
  | [none] => pure (none, some .ErrNotFound)
  | [some v] =>
    match qs.unmarshal v with
    | none => pure (none, some .unmarshal)
    | some p => pure (some p, none)
  | _ => throw .panic

/-- Loop `for len(lists) > 0 { ... }` of `hasPrimitive` from its second round on: `a` is
`lists[0]`, the intersection of the lists met so far. -/
def intersectFrom (a : List Nat) : List (List Nat) → List Nat
  | [] => a
  | b :: lists => intersectFrom (intersectSortedUint64 a b) lists

/-- Loop `for len(lists) > 0 { ... }` of `hasPrimitive`: the value of `options`. -/
def intersectAll : List (List Nat) → List Nat
  | [] => []
  | a :: lists => intersectFrom a lists

/-- Loop `for i := len(options) - 1; i >= 0; i--` of `hasPrimitive`, over the options from the
last to the first. -/
def QuadStore.probe (qs : QuadStore) (tx : Tx) (p : Primitive) :
    List Nat → M (Option Primitive × Option KvErr)
  | [] => pure (none, none)
  | o :: rest => do
    let (prim, err) ← qs.getPrimitiveFromLog tx o
    match err, prim with
    | some e, _ => pure (none, some e)
    | none, none => throw .panic
    | none, some prim =>
      if prim.Deleted then qs.probe tx p rest
      else if prim.IsSameLink p then pure (some prim, none)
      else qs.probe tx p rest

/-- Loop `for i, in := range inds { keys[i] = in.KeyFor(p) }` of `hasPrimitive`. -/
def keysFor (pre : Direction → Nat) (p : Primitive) : List QuadIndex → M (List Key)
  | [] => pure []
  | i :: inds => do
    let k ← i.KeyFor pre p
    let ks ← keysFor pre p inds
    pure (k :: ks)

/-- Method `hasPrimitive`; `pre` is the library method `Prefix` of `quad.Direction`. -/
def QuadStore.hasPrimitive (pre : Direction → Nat) (qs : QuadStore) (tx : Tx) (p : Primitive)
    (get : Bool) : M (QuadStore × Option Primitive × Option KvErr) := do
  if !(← qs.testBloom p) then pure (qs, none, none)
  else
    let (qs, inds, err) := qs.bestUnique
    match err with
    | some e => pure (qs, none, some e)
    | none => do
      let unique := inds.length ≠ 0 ∧ (inds.head?.map (fun i => i.Unique)) = some true
      let keys ← keysFor pre p inds
      let (lists, err) ← getBucketIndexes tx keys
      match err with
      | some e => pure (qs, none, some e)
      | none =>
        let options := intersectAll lists
        if !get ∧ unique then pure (qs, some p, none)
        else do
          let (prim, err) ← qs.probe tx p options.reverse
          pure (qs, prim, err)

/-- A store with the one unique index over the four directions, no write buffer and the
existence filter switched off. -/
def uniqueStore : QuadStore :=
  { all := [{ Dirs := [.Subject, .Predicate, .Object, .Label], Unique := true }], exist := [],
    mapBucket := none, mapBloom := none, disabled := true,
    existsBloom := { Test := fun _ => false }, unmarshal := fun _ => none }

/-- The store `uniqueStore` with an empty key-value engine, and `hasPrimitive(p, false)` for
the candidate `p` with the node ids 1, 2 and 3: the primitive and the error returned, and the
values that `GetBatch` reads at the keys of the log for the ids 0 to 3. -/
def scenarioUnique : M (Option Primitive × Option KvErr × List (Option (List Nat))) := do
  let tx : Tx := { data := [] }
  let p : Primitive := ⟨0, 1, 2, 3, 0, 0, false, []⟩
  let (_, r, e) ← uniqueStore.hasPrimitive (fun _ => 0) tx p false
  pure (r, e, tx.GetBatch [logIndex ++ [be8 0], logIndex ++ [be8 1], logIndex ++ [be8 2],
    logIndex ++ [be8 3]])

end KV

namespace KV

/-- A quad primitive with id 5 and the node ids 1, 2 and 3. -/
def primFive : Primitive := ⟨5, 1, 2, 3, 0, 0, false, []⟩

/-- A store with the one index `[Subject]`, not unique, the existence filter switched off, and
a decoder that reads the bytes `[7]` as `primFive`. -/
def plainStore : QuadStore :=
  { all := [{ Dirs := [.Subject], Unique := false }], exist := [],
    mapBucket := none, mapBloom := none, disabled := true,
    existsBloom := { Test := fun _ => false },
    unmarshal := fun v => if v = [7] then some primFive else none }

/-- A key-value engine that holds the id 5 at the key of the index `[Subject]` for the node id
1, and the bytes `[7]` in the log at the id 5. -/
def plainTx : Tx :=
  { data := [([[115], be8 1], [5]), (logIndex ++ [be8 5], [7])] }

/-- The eight bytes of a `uint64` in little-endian order. -/
def le8 (v : Nat) : List Nat :=
  [v % 256, (v >>> 8) % 256, (v >>> 16) % 256, (v >>> 24) % 256, (v >>> 32) % 256,
   (v >>> 40) % 256, (v >>> 48) % 256, (v >>> 56) % 256]

/-- The horizon that `genIDs` reads: the value and the error of `getMetaIntTx`. -/
def horizonKey : Key := metaBucket ++ [bytesOf "horizon"]

end KV

/-! ### Persistent store: the write buffer of the indexes -/

namespace KV

open Memstore (M Err idx upd slice copy Direction mapGet mapSet mapDel)

/-- Method `addToMapBucket`. -/
def QuadStore.addToMapBucket (qs : QuadStore) (key : Key) (value : Nat) :
    QuadStore × Option KvErr :=
  match key with
  | [b, k] =>
    if k.length = 0 then (qs, some .invalidKey)
    else
      let mb := qs.mapBucket.getD []
      let m := (mapGet mb b).getD []
      let m := mapSet m k ((mapGet m k).getD [] ++ [value])
      ({ qs with mapBucket := some (mapSet mb b m) }, none)
  | _ => (qs, some .invalidKey)

/-- Library function `sort.Strings`, on byte strings. -/
def sortStrings (l : List (List Nat)) : List (List Nat) := l.insertionSort (· ≤ ·)

/-- Library function `sort.Sort` on `kv.ByKey`. -/
def sortKeys (l : List Key) : List Key := l.insertionSort (· ≤ ·)

/-- The test `qs.mapBloom != nil && (bloom == nil || !bloom.Test(bk))` of `flushMapBucket`. -/
def QuadStore.skipsGet (qs : QuadStore) (bloom : Option Bloom) (bk : List Nat) : Bool :=
  qs.mapBloom.isSome && (match bloom with
    | none => true
    | some f => !f.Test bk)

/-- Loop `for k := range m { ... }` of `flushMapBucket`: the lists `keys` and `keysPut`. -/
def QuadStore.splitKeys (qs : QuadStore) (bloom : Option Bloom) (b : Key) :
    List (List Nat × List Nat) → List Key × List Key
  | [] => ([], [])
  | (k, _) :: m =>
    let (keys, keysPut) := QuadStore.splitKeys qs bloom b m
    if qs.skipsGet bloom k then (keys, (b ++ [k]) :: keysPut) else ((b ++ [k]) :: keys, keysPut)

/-- Loop `for _, k := range keysPut { ... }` of `flushMapBucket`. -/
def putNew (m : List (List Nat × List Nat)) : List Key → Tx → Option Bloom → M (Tx × Option Bloom)
  | [], tx, bloom => pure (tx, bloom)
  | k :: ks, tx, bloom => do
    let k1 ← idx k 1
    let l := (mapGet m k1).getD []
    let buf ← appendIndex [] l
    let tx := tx.Put k buf
    putNew m ks tx (bloom.map (fun f => f.Add k1))

/-- Loop `for i, k := range keys { ... }` of `flushMapBucket`; `vals` is `vals[i:]`. -/
def putOld (m : List (List Nat × List Nat)) :
    List Key → List (Option (List Nat)) → Tx → Option Bloom → M (Tx × Option Bloom)
  | [], _, tx, bloom => pure (tx, bloom)
  | _ :: _, [], _, _ => throw .panic
  | k :: ks, v :: vals, tx, bloom => do
    let k1 ← idx k 1
    let l := (mapGet m k1).getD []
    let buf ← appendIndex (v.getD []) l
    let tx := tx.Put k buf
    putOld m ks vals tx (bloom.map (fun f => f.Add k1))

/-- Body of the loop `for _, bucket := range bs { ... }` of `flushMapBucket`. -/
def QuadStore.flushBucket (qs : QuadStore) (tx : Tx) (bucket : List Nat) : M (QuadStore × Tx) :=
  let m := (mapGet (qs.mapBucket.getD []) bucket).getD []
  if m.length = 0 then pure (qs, tx)
  else do
    let bloom : Option Bloom := qs.mapBloom.bind (fun mb => mapGet mb bucket)
    let b : Key := [bucket]
    let (keys, keysPut) := qs.splitKeys bloom b m
    let keysPut := sortKeys keysPut
    let keys := sortKeys keys
    let vals := tx.GetBatch keys
    let bloom : Option Bloom :=
      if qs.mapBloom.isSome ∧ bloom.isNone then some { Test := fun _ => false } else bloom
    let (tx, bloom) ← putNew m keysPut tx bloom
    let (tx, bloom) ← putOld m keys vals tx bloom
    let qs := match qs.mapBloom, bloom with
      | some mb, some f => { qs with mapBloom := some (mapSet mb bucket f) }
      | _, _ => qs
    pure (qs, tx)

/-- Loop `for _, bucket := range bs { ... }` of `flushMapBucket`. -/
def flushLoop : List (List Nat) → QuadStore → Tx → M (QuadStore × Tx)
  | [], qs, tx => pure (qs, tx)
  | bucket :: bs, qs, tx => do
    let (qs, tx) ← qs.flushBucket tx bucket
    flushLoop bs qs tx

/-- Method `flushMapBucket`. -/
def QuadStore.flushMapBucket (qs : QuadStore) (tx : Tx) : M (QuadStore × Tx × Option KvErr) := do
  let bs := sortStrings ((qs.mapBucket.getD []).map Prod.fst)
  let (qs, tx) ← flushLoop bs qs tx
  pure ({ qs with mapBucket := none }, tx, none)

/-- The ids buffered under the bucket `b` and the key `k`, in the order of buffering. -/
def QuadStore.buffered (qs : QuadStore) (b k : List Nat) : Option (List Nat) :=
  (mapGet (qs.mapBucket.getD []) b).bind (fun m => mapGet m k)

/-- Representation invariant of the write buffer, a Go map of Go maps: no bucket and, within a
bucket, no key occurs twice. -/
def QuadStore.BufferOk (qs : QuadStore) : Prop :=
  ((qs.mapBucket.getD []).map Prod.fst).Nodup ∧
    ∀ e ∈ qs.mapBucket.getD [], (e.2.map Prod.fst).Nodup

/-- A store with filters for the index buckets but none yet for the bucket `s`, and the id 2
buffered for the key `[1]` of that bucket. -/
def bloomStore : QuadStore :=
  { all := [], exist := [], mapBucket := some [([115], [([1], [2])])], mapBloom := some [],
    disabled := false, existsBloom := { Test := fun _ => false }, unmarshal := fun _ => none }

/-- The store `bloomStore` and a key-value engine that holds the encoded list `[1]` at the key
`[1]` of the bucket `s`: the list decoded from the value at that key before and after
`flushMapBucket`, and whether the buffer is `nil` afterwards. -/
def scenarioFlush : M (List Nat × List Nat × Bool) := do
  let tx : Tx := { data := [([[115], [1]], [1])] }
  let (before, _) ← decodeIndex ((tx.Get [[115], [1]]).getD [])
  let (qs, tx, _) ← bloomStore.flushMapBucket tx
  let (after, _) ← decodeIndex ((tx.Get [[115], [1]]).getD [])
  pure (before, after, qs.mapBucket.isNone)

end KV

namespace KV

open Memstore (mapGet)

/-- The encoded list of the ids that the map `m` of a bucket holds for the key part of
`key`. -/
def encOf (m : List (List Nat × List Nat)) (key : Key) : List Nat :=
  ((mapGet m (key.getD 1 [])).getD []).flatMap enc

/-- The ids of the map `m` of a bucket are `uint64` values. -/
def idsOk (m : List (List Nat × List Nat)) : Prop :=
  ∀ k l, mapGet m k = some l → ∀ x ∈ l, x < 2 ^ 64

end KV

namespace KV

open Memstore (mapGet)

/-- The map of the bucket `b` in the write buffer (empty when there is none). -/
def QuadStore.mapOf (qs : QuadStore) (b : List Nat) : List (List Nat × List Nat) :=
  (mapGet (qs.mapBucket.getD []) b).getD []

/-- The filter of the bucket `b` (`qs.mapBloom[b]`, `nil` when there is none). -/
def QuadStore.bloomOf (qs : QuadStore) (b : List Nat) : Option Bloom :=
  qs.mapBloom.bind (fun mb => mapGet mb b)

/-- A store without filters for the index buckets and with an empty write buffer. -/
def emptyStore : QuadStore :=
  { all := [], exist := [], mapBucket := none, mapBloom := none, disabled := false,
    existsBloom := { Test := fun _ => false }, unmarshal := fun _ => none }

/-- The store `emptyStore` after the ids 2 and 3 were buffered for the key `[1]` of the
bucket `s`. -/
def bufferedStore : QuadStore :=
  ((emptyStore.addToMapBucket [[115], [1]] 2).1.addToMapBucket [[115], [1]] 3).1

end KV

namespace Memstore

/-- The value of a call that returned, and `d` for a call that did not. -/
def okOr {α : Type} (d : α) : M α → α
  | .ok a => a
  | .error _ => d

/-- The store that holds the quad `<alice> <knows> <bob>`. -/
def storeAKB : QuadStore :=
  okOr newQuadStore (newQuadStore.step (.AddQuad quadAKB))

/-- Calls that follow a snapshot of `storeAKB`: a value and a quad are added, the first quad
(id 4) is deleted and a batch adds it again. -/
def laterOps : List StoreOp :=
  [.AddValue (some (.other "<carol>")),
   .AddQuad ⟨some (.other "<bob>"), some (.other "<knows>"), some (.other "<carol>"), none⟩,
   .Delete 4,
   .ApplyDeltas [⟨quadAKB, .Add⟩] ⟨false, false⟩]

end Memstore

namespace Memstore

/-! ### Trees over keys more than `2^63` apart

`cmp(a, b) = int(a - b)` orders the three keys `keyLo < 0`, `0 < keyHi` and `keyHi < keyLo`. -/

/-- The key `-3 * 2^61`. -/
def keyLo : Int := -6917529027641081856

/-- The key `3 * 2^61`. -/
def keyHi : Int := 6917529027641081856

/-- The tree after `Set(0, 0)`, `Set(keyHi, 1)`, `Set(keyLo, 2)` on `TreeNew(cmp)`: one data page
with the keys `keyLo`, `0`, `keyHi`. -/
def treeFarKeys : M Tree := do
  let t ← (TreeNew cmp).Set 0 (some 0)
  let t ← t.Set keyHi (some 1)
  t.Set keyLo (some 2)

/-- The keys of the data page at the root of a tree that is one data page. -/
def Tree.rootKeys (t : Tree) : List Int :=
  match t.r with
  | .d x => (x.d.take x.c.toNat).map (·.k)
  | _ => []

/-- On `treeFarKeys`: `Get(keyHi)`, `Get(0)`, the flag of `Delete(0)`, and after it `Get(0)`
and `Get(keyHi)`. -/
def scenarioDeleteFar : M (List (V × Bool) × Bool × List (V × Bool)) := do
  let t ← treeFarKeys
  let g1 ← t.Get keyHi
  let g0 ← t.Get 0
  let (t, ok) ← t.Delete 0
  let g0a ← t.Get 0
  let g2 ← t.Get keyHi
  pure ([g1, g0], ok, [g0a, g2])

/-- The tree after `Delete(0)` and `Set(keyHi, 3)` on `treeFarKeys`. -/
def treeFarTwice : M Tree := do
  let t ← treeFarKeys
  let (t, _) ← t.Delete 0
  t.Set keyHi (some 3)

/-- The results of `n` calls of `Next`, the first on `e`. -/
def Enumerator.nexts (t : Tree) : Nat → Enumerator → M (List Item)
  | 0, _ => pure []
  | n + 1, e => do
    let (e, it) ← e.Next t
    let rest ← Enumerator.nexts t n e
    pure (it :: rest)

/-- The results of `n` calls of `Prev`, the first on `e`. -/
def Enumerator.prevs (t : Tree) : Nat → Enumerator → M (List Item)
  | 0, _ => pure []
  | n + 1, e => do
    let (e, it) ← e.Prev t
    let rest ← Enumerator.prevs t n e
    pure (it :: rest)

/-- On `treeFarTwice`: the results of four calls of `Next` on the enumerator of `SeekFirst`. -/
def scenarioNextFar : M (List Item) := do
  let t ← treeFarTwice
  match (← t.SeekFirst).1 with
  | none => pure []
  | some e => Enumerator.nexts t 4 e

/-- On `treeFarTwice`: the results of four calls of `Prev` on the enumerator of `SeekLast`. -/
def scenarioPrevFar : M (List Item) := do
  let t ← treeFarTwice
  match (← t.SeekLast).1 with
  | none => pure []
  | some e => Enumerator.prevs t 4 e

/-- On `treeFarKeys` after `Delete(0)`: the keys of the page, the flag of `Seek(keyHi)` and the
result of the first `Next` on its enumerator. -/
def scenarioSeekFar : M (List Int × Bool × Item) := do
  let t ← treeFarKeys
  let (t, _) ← t.Delete 0
  let (e, hit) ← t.Seek keyHi
  let (_, it) ← e.Next t
  pure (t.rootKeys, hit, it)

/-- The keys of the one data page of `treeFarTwice` and its `Len`. -/
def scenarioPageFar : M (List Int × Int) := do
  let t ← treeFarTwice
  pure (t.rootKeys, t.Len)

end Memstore

namespace Memstore

/-- Method `deleteQuadNodes` with the outcome `onNeg` in the place of the statement
`panic("remove of deleted node")`; `deleteQuadNodesWith` is the instance `throw .panic`. -/
def QuadStore.deleteQuadNodesOr (onNeg : M QuadStore)
    (del : QuadStore → Int → M (QuadStore × Bool))
    (q : internalQuad) : List Direction → QuadStore → M QuadStore
  | [], qs => pure qs
  | dir :: ds, qs =>
    let id := q.Dir dir
    if id = 0 then QuadStore.deleteQuadNodesOr onNeg del q ds qs
    else
      match mapGet qs.prim id with
      | none => QuadStore.deleteQuadNodesOr onNeg del q ds qs
      | some a => do
        let p ← qs.deref a
        let qs := qs.store a { p with refs := p.refs - 1 }
        if p.refs - 1 < 0 then onNeg
        else if p.refs - 1 = 0 then do
          let (qs, _) ← del qs id
          QuadStore.deleteQuadNodesOr onNeg del q ds qs
        else QuadStore.deleteQuadNodesOr onNeg del q ds qs

/-- The statements of `Delete` from the test `p.Value != nil` to the removal from `all`, for
the primitive `p` at address `a` found as `qs.prim[id]`. -/
def QuadStore.deleteHead (qs : QuadStore) (id : Int) (a : Nat) (p : Primitive) : M QuadStore := do
  let qs := match p.Value with
    | some v => { qs with vals := mapDel qs.vals v.String }
    | none => qs
  let (qs, trees) := QuadStore.indexesForQuad p.Quad Direction.all qs
  let qs ← QuadStore.deleteAll id trees qs
  let qs := { qs with quads := mapDel qs.quads p.Quad }
  let qs := { qs with prim := mapDel qs.prim id }
  let qs := match ptrIndex a (qs.elems qs.all) 0 with
    | some di => qs.removeAll di
    | none => qs
  pure qs

/-- Method `Delete` with the outcome `onNeg` in the place of the panic of `deleteQuadNodes` and
the outcome `base` of a call nested deeper than the bound; `deleteN` is the instance
`throw .panic`, `throw .diverge`. -/
def QuadStore.deleteOr (onNeg : M QuadStore) (base : QuadStore → Int → M (QuadStore × Bool)) :
    Nat → QuadStore → Int → M (QuadStore × Bool)
  | 0, qs, id => base qs id
  | fuel + 1, qs, id =>
    match mapGet qs.prim id with
    | none => pure (qs, false)
    | some a => do
      let p ← qs.deref a
      let qs ← qs.deleteHead id a p
      let qs ← QuadStore.deleteQuadNodesOr onNeg (QuadStore.deleteOr onNeg base fuel) p.Quad
        Direction.all qs
      pure (qs, true)

/-- Every primitive of `prim` is a different allocated object with a reference count of at
least 1. -/
def QuadStore.RefsOk (qs : QuadStore) : Prop :=
  (qs.prim.map Prod.snd).Nodup ∧
    ∀ e ∈ qs.prim, ∃ p, qs.heap[e.2]? = some p ∧ 1 ≤ p.refs

/-- Calls that add `<alice> <knows> <bob>` and `<bob> <knows> <carol>`, delete the first quad
(id 4) and add a blank node. -/
def twoQuadOps : List StoreOp :=
  [.AddQuad quadAKB,
   .AddQuad ⟨some (.other "<bob>"), some (.other "<knows>"), some (.other "<carol>"), none⟩,
   .Delete 4,
   .AddBNode]

/-- The store after the calls `twoQuadOps` on a new store. -/
def storeTwoQuads : QuadStore :=
  okOr newQuadStore (QuadStore.steps twoQuadOps newQuadStore)

/-- The store after `AddQuad(_:memnode3 <knows> <bob>)` on a new store: the quad gets the id 3,
so its subject is the quad itself. -/
def storeSelfRef : QuadStore :=
  okOr newQuadStore (QuadStore.steps
    [.AddQuad ⟨some (.BNode "memnode3"), some (.other "<knows>"), some (.other "<bob>"), none⟩]
    newQuadStore)

end Memstore

/-! ### Further concrete states -/

namespace LRU

open Memstore (okOr)

/-- Calls on a cache of capacity 2: put a = 1, put b = 2, get a. -/
def opsAB : List Op := [.Put "a" (some 1), .Put "b" (some 2), .Get "a"]

/-- The cache after the calls `opsAB` on `New(2)`. -/
def cacheAB : Cache :=
  (okOr (New 2, fun _ => 0) (Cache.run opsAB (New 2) 0 (fun _ => 0))).1

/-- For every key the time of the last call of `opsAB` that touched it. -/
def stampsAB : String → Nat :=
  (okOr (New 2, fun _ => 0) (Cache.run opsAB (New 2) 0 (fun _ => 0))).2

/-- The cache `cacheAB` after `Put("c", 3)`, and on it the results of `Get("b")`, `Get("a")` and
`Get("c")`. -/
def scenarioEvict : Memstore.M (Cache × List (Any × Bool)) := do
  let c ← cacheAB.Put "c" (some 3)
  let (_, vb, okb) ← c.Get "b"
  let (_, va, oka) ← c.Get "a"
  let (_, vc, okc) ← c.Get "c"
  pure (c, [(vb, okb), (va, oka), (vc, okc)])

end LRU

namespace Graph

open Memstore (quadAKB quadM5)

/-- A transaction as it is after `NewTransaction`, `AddQuad(_:memnode5 <knows> <bob>)` and an
assignment to the exported field `Deltas` that puts the `Add` delta of `<alice> <knows> <bob>`
in front: the list holds that delta, the map does not. -/
def txSkew : Transaction :=
  { Deltas := [⟨quadAKB, .Add⟩, ⟨quadM5, .Add⟩], deltas := [(⟨quadM5, .Add⟩, ())] }

end Graph

namespace KV

open Memstore (M)

/-- A key-value engine whose horizon holds the greatest `int64`. -/
def txHorizonMax : Tx := { data := [(horizonKey, le8 9223372036854775807)] }

/-- A key-value engine whose horizon holds `-2`, the bytes of `2^64 - 2`. -/
def txHorizonNeg : Tx := { data := [(horizonKey, le8 18446744073709551614)] }

/-- On `txHorizonMax`: the horizon read by `getMetaIntTx`, the id returned by `genIDs(1)` and the
horizon read after it. -/
def scenarioHorizonMax : M (Int × Nat × Int) := do
  let (h, _) ← getMetaIntTx txHorizonMax "horizon"
  let (tx, id, _) ← genIDs txHorizonMax 1
  let (h', _) ← getMetaIntTx tx "horizon"
  pure (h, id, h')

/-- On `txHorizonNeg`: the horizon read by `getMetaIntTx` and the ids returned by two calls of
`genIDs(1)`. -/
def scenarioHorizonNeg : M (Int × List Nat) := do
  let (h, _) ← getMetaIntTx txHorizonNeg "horizon"
  let (_, ids) ← genIDsSeq [1, 1] txHorizonNeg
  pure (h, ids)

/-- Two indexes whose first two directions are `Subject` and `Predicate` in either order. -/
def twoExactIndexes : List QuadIndex :=
  [{ Dirs := [.Subject, .Predicate, .Object], Unique := false },
   { Dirs := [.Predicate, .Subject, .Label], Unique := false }]

end KV

namespace Memstore

/-- Every result that the call `x` returns satisfies `Q`. -/
def Ensures {α : Type} (x : M α) (Q : α → Prop) : Prop := ∀ a, x = .ok a → Q a

/-- Library method `Set` of `quad.Quad`. -/
def Quad.Set (q : Quad) (d : Direction) (v : Value) : Quad :=
  match d with
  | .Subject => { q with Subject := some v }
  | .Predicate => { q with Predicate := some v }
  | .Object => { q with Object := some v }
  | .Label => { q with Label := some v }

/-- Loop of `lookupQuadDirs` over the directions `ds`. -/
def QuadStore.lookupDirs (qs : QuadStore) (p : internalQuad) : List Direction → Quad → M Quad
  | [], q => pure q
  | dir :: ds, q =>
    let vid := p.Dir dir
    if vid = 0 then qs.lookupDirs p ds q
    else do
      let v ← qs.lookupVal vid
      qs.lookupDirs p ds (q.Set dir v)

/-- Method `lookupQuadDirs`. -/
def QuadStore.lookupQuadDirs (qs : QuadStore) (p : internalQuad) : M Quad :=
  qs.lookupDirs p Direction.all ⟨none, none, none, none⟩

/-- Method `quad`. -/
def QuadStore.quad (qs : QuadStore) : Ref → M (internalQuad × Bool)
  | .bnode id =>
    match mapGet qs.prim id with
    | none => pure (⟨0, 0, 0, 0⟩, false)
    | some a => do
      let p ← qs.deref a
      pure (p.Quad, !p.Quad.Zero)
  | .qprim a => do
    let p ← qs.deref a
    pure (p.Quad, !p.Quad.Zero)
  | .prefetched _ => pure (⟨0, 0, 0, 0⟩, false)

/-- Method `Quad`; the error returned is always nil. -/
def QuadStore.Quad (qs : QuadStore) (index : Ref) : M Quad := do
  let (q, ok) ← qs.quad index
  if !ok then pure ⟨none, none, none, none⟩
  else qs.lookupQuadDirs q

end Memstore

namespace Memstore

/-! ### Go maps -/

theorem ok_of_isOk {α : Type} (d : α) (x : M α) (h : isOk x = true) : x = .ok (okOr d x) := by
  cases x with
  | ok a => rfl
  | error e => simp [isOk] at h

theorem mapGet_eq_none {κ β : Type} [DecidableEq κ] (m : List (κ × β)) (k : κ) :
    mapGet m k = none ↔ k ∉ m.map Prod.fst := by
  induction m with
  | nil => simp [mapGet]
  | cons e rest ih =>
    simp only [mapGet, List.map_cons, List.mem_cons, not_or]
    by_cases h : e.1 = k
    · simp [h]
    · simp [h, ih, Ne.symm h]

theorem mapGet_mem {κ β : Type} [DecidableEq κ] (m : List (κ × β)) (k : κ) (v : β)
    (h : mapGet m k = some v) : (k, v) ∈ m := by
  induction m with
  | nil => simp [mapGet] at h
  | cons e rest ih =>
    simp only [mapGet] at h
    by_cases he : e.1 = k
    · simp only [he, if_true, Option.some.injEq] at h
      subst h; subst he; simp
    · simp only [he, if_false] at h
      exact List.mem_cons_of_mem _ (ih h)

theorem mapGet_of_mem {κ β : Type} [DecidableEq κ] (m : List (κ × β)) (k : κ) (v : β)
    (hn : (m.map Prod.fst).Nodup) (h : (k, v) ∈ m) : mapGet m k = some v := by
  induction m with
  | nil => simp at h
  | cons e rest ih =>
    simp only [List.map_cons, List.nodup_cons] at hn
    simp only [mapGet]
    rcases List.mem_cons.1 h with h | h
    · subst h; simp
    · have : e.1 ≠ k := by
        intro he
        exact hn.1 (he ▸ List.mem_map_of_mem Prod.fst h)
      simp [this, ih hn.2 h]

theorem mapSet_absent {κ β : Type} [DecidableEq κ] (m : List (κ × β)) (k : κ) (v : β)
    (h : mapGet m k = none) : mapSet m k v = m ++ [(k, v)] := by
  induction m with
  | nil => simp [mapSet]
  | cons e rest ih =>
    simp only [mapGet] at h
    by_cases he : e.1 = k
    · simp [he] at h
    · simp only [he, if_false] at h
      simp [mapSet, he, ih h]

theorem mapDel_mem {κ β : Type} [DecidableEq κ] (m : List (κ × β)) (k : κ) (e : κ × β) :
    e ∈ mapDel m k ↔ e ∈ m ∧ e.1 ≠ k := by
  simp [mapDel]

theorem mapDel_keys_nodup {κ β : Type} [DecidableEq κ] (m : List (κ × β)) (k : κ)
    (hn : (m.map Prod.fst).Nodup) : ((mapDel m k).map Prod.fst).Nodup := by
  unfold mapDel
  exact hn.sublist (List.Sublist.map _ (List.filter_sublist _))

theorem mapGet_mapDel {κ β : Type} [DecidableEq κ] (m : List (κ × β)) (k k' : κ) :
    mapGet (mapDel m k) k' = if k' = k then none else mapGet m k' := by
  induction m with
  | nil => simp [mapDel, mapGet]
  | cons e rest ih =>
    unfold mapDel at ih ⊢
    by_cases he : e.1 = k
    · simp only [List.filter_cons, he, ne_eq, not_true_eq_false, decide_False, Bool.false_eq_true,
        if_false, ih, mapGet]
      by_cases hk : k' = k
      · simp [hk]
      · have : ¬ k = k' := fun h => hk h.symm
        simp [hk, this]
    · simp only [List.filter_cons, he, ne_eq, not_false_eq_true, decide_True, if_true, mapGet, ih]
      by_cases hk : k' = k
      · subst hk; simp [he]
      · simp [hk]

theorem mapDel_perm {κ β : Type} [DecidableEq κ] (m : List (κ × β)) (k : κ) (v : β)
    (hn : (m.map Prod.fst).Nodup) (h : (k, v) ∈ m) :
    (m.map Prod.snd).Perm (v :: (mapDel m k).map Prod.snd) := by
  induction m with
  | nil => simp at h
  | cons e rest ih =>
    simp only [List.map_cons, List.nodup_cons] at hn
    rcases List.mem_cons.1 h with h | h
    · subst h
      have : mapDel ((k, v) :: rest) k = rest := by
        unfold mapDel
        simp only [List.filter_cons, ne_eq, not_true_eq_false, decide_False, Bool.false_eq_true,
          if_false]
        apply List.filter_eq_self.2
        intro a ha
        simp only [ne_eq, decide_eq_true_eq]
        intro hak
        have hm := List.mem_map_of_mem Prod.fst ha
        rw [hak] at hm
        exact hn.1 hm
      simp [this]
    · have hek : e.1 ≠ k := by
        intro he
        exact hn.1 (he ▸ List.mem_map_of_mem Prod.fst h)
      have : mapDel (e :: rest) k = e :: mapDel rest k := by
        unfold mapDel
        simp [List.filter_cons, hek]
      rw [this]
      simp only [List.map_cons]
      exact ((ih hn.2 h).cons e.2).trans (List.Perm.swap _ _ _)

theorem mapGet_append_single {κ β : Type} [DecidableEq κ] (m : List (κ × β)) (k k' : κ) (v : β) :
    mapGet (m ++ [(k, v)]) k' =
      match mapGet m k' with
      | some w => some w
      | none => if k = k' then some v else none := by
  induction m with
  | nil => simp [mapGet]
  | cons e rest ih =>
    simp only [List.cons_append, mapGet]
    by_cases he : e.1 = k'
    · simp [he]
    · simp [he, ih]

end Memstore

namespace LRU

open Memstore

theorem Inv_New (N : Nat) : (New N).Inv N := by
  constructor <;> simp [New]

theorem Cache.Inv.mem_priority {c : Cache} {N : Nat} (h : c.Inv N) {k : String} {e : Nat}
    (hm : (k, e) ∈ c.cache) : e ∈ c.priority :=
  h.perm.subset (List.mem_map_of_mem Prod.snd hm)

theorem Cache.Inv.of_priority {c : Cache} {N : Nat} (h : c.Inv N) {e : Nat} (he : e ∈ c.priority) :
    ∃ k, (k, e) ∈ c.cache := by
  have := h.perm.symm.subset he
  rcases List.mem_map.1 this with ⟨⟨k, e'⟩, hm, rfl⟩
  exact ⟨k, hm⟩

theorem Cache.Inv.keyOf_eq {c : Cache} {N : Nat} (h : c.Inv N) {k : String} {e : Nat}
    (hm : (k, e) ∈ c.cache) : c.keyOf e = k := by
  rcases h.el k e hm with ⟨v, hv⟩
  simp [Cache.keyOf, List.getD_eq_getElem?_getD, hv]

theorem Cache.Inv.lt_length {c : Cache} {N : Nat} (h : c.Inv N) {e : Nat} (he : e ∈ c.priority) :
    e < c.elems.length := by
  rcases h.of_priority he with ⟨k, hm⟩
  rcases h.el k e hm with ⟨v, hv⟩
  exact (List.getElem?_eq_some.1 hv).1

theorem Cache.Inv.inj {c : Cache} {N : Nat} (h : c.Inv N) {k : String} {e e' : Nat}
    (hm : (k, e) ∈ c.cache) (hm' : (k, e') ∈ c.cache) : e = e' := by
  have h1 := mapGet_of_mem _ _ _ h.keys hm
  have h2 := mapGet_of_mem _ _ _ h.keys hm'
  rw [h1] at h2
  exact Option.some.inj h2

theorem Cache.Inv.length_eq {c : Cache} {N : Nat} (h : c.Inv N) :
    c.priority.length = c.cache.length := by
  have := h.perm.length_eq
  simpa using this.symm

end LRU

namespace LRU

open Memstore

theorem Cache.Get_miss (c : Cache) (k : String) (h : mapGet c.cache k = none) :
    c.Get k = .ok (c, none, false) := by
  simp [Cache.Get, h]; rfl

theorem Cache.Get_hit {c : Cache} {N : Nat} (hI : c.Inv N) {k : String} {e : Nat}
    (h : mapGet c.cache k = some e) :
    ∃ v, c.elems[e]? = some ⟨k, v⟩ ∧
      c.Get k = .ok ({ c with priority := e :: c.priority.erase e }, v, true) := by
  have hm := mapGet_mem _ _ _ h
  rcases hI.el k e hm with ⟨v, hv⟩
  refine ⟨v, hv, ?_⟩
  simp [Cache.Get, h, hv, moveToFront, hI.mem_priority hm]; rfl

theorem Cache.Inv.move {c : Cache} {N : Nat} (hI : c.Inv N) {k : String} {e : Nat}
    (hm : (k, e) ∈ c.cache) : Cache.Inv { c with priority := e :: c.priority.erase e } N := by
  have he := hI.mem_priority hm
  refine ⟨hI.max, hI.keys, ?_, ?_, hI.el, hI.le⟩
  · exact hI.perm.trans (List.perm_cons_erase he)
  · exact List.nodup_cons.2 ⟨fun h => (hI.nodup.mem_erase_iff.1 h).1 rfl, hI.nodup.erase e⟩

theorem Cache.Ordered.move_keeps {c : Cache} {N : Nat} (hI : c.Inv N) {t : Nat} {st st' : String → Nat}
    (hO : c.Ordered t st) {k : String} {e : Nat} (hm : (k, e) ∈ c.cache)
    (h1 : st' k = t + 1) (h2 : ∀ k', k' ≠ k → st' k' = st k') :
    Cache.Ordered { c with priority := e :: c.priority.erase e } (t + 1) st' := by
  have hke := hI.keyOf_eq hm
  have hne : ∀ e2 ∈ c.priority.erase e, c.keyOf e2 ≠ k := by
    intro e2 he2 hk
    have hmem := List.mem_of_mem_erase he2
    rcases hI.of_priority hmem with ⟨k2, hm2⟩
    have := hI.keyOf_eq hm2
    rw [hk] at this
    subst this
    have := hI.inj hm hm2
    subst this
    exact (hI.nodup.mem_erase_iff.1 he2).1 rfl
  constructor
  · simp only [Cache.keyOf] at hke hne ⊢
    refine List.pairwise_cons.2 ⟨?_, ?_⟩
    · intro e2 he2
      rw [hke, h1, h2 _ (hne e2 he2)]
      have := hO.2 e2 (List.mem_of_mem_erase he2)
      simp only [Cache.keyOf] at this
      omega
    · refine (hO.1.sublist (List.erase_sublist _ _)).imp_of_mem ?_
      intro a b ha hb hab
      simp only [Cache.keyOf] at hab
      rw [h2 _ (hne a ha), h2 _ (hne b hb)]
      exact hab
  · intro e2 he2
    simp only [Cache.keyOf] at hke hne ⊢
    rcases List.mem_cons.1 he2 with rfl | he2
    · rw [hke, h1]
    · rw [h2 _ (hne e2 he2)]
      have := hO.2 e2 (List.mem_of_mem_erase he2)
      simp only [Cache.keyOf] at this
      omega

theorem Cache.Ordered.sub {c c' : Cache} {t : Nat} {st : String → Nat} (hO : c.Ordered t st)
    (he : c'.elems = c.elems) (hs : c'.priority.Sublist c.priority) : c'.Ordered t st := by
  constructor
  · simp only [Cache.keyOf, he]
    exact hO.1.sublist hs
  · intro e hm
    have := hO.2 e (hs.subset hm)
    simp only [Cache.keyOf, he] at this ⊢
    omega

theorem Cache.Ordered.mono {c : Cache} {t t' : Nat} {st : String → Nat} (hO : c.Ordered t st)
    (h : t ≤ t') : c.Ordered t' st :=
  ⟨hO.1, fun e he => le_trans (hO.2 e he) h⟩

theorem Cache.Inv.evict {c : Cache} {N : Nat} (hI : c.Inv N) {back : Nat}
    (hb : back ∈ c.priority) :
    (c.evict back).Inv N ∧ (c.evict back).cache.length + 1 = c.cache.length ∧
      (c.keyOf back, back) ∈ c.cache := by
  rcases hI.of_priority hb with ⟨kb, hm⟩
  have hk := hI.keyOf_eq hm
  rw [hk]
  have hp := mapDel_perm _ _ _ hI.keys hm
  have hp2 : (List.map Prod.snd (mapDel c.cache kb)).Perm (c.priority.erase back) :=
    List.Perm.cons_inv (hp.symm.trans (hI.perm.trans (List.perm_cons_erase hb)))
  have hlen : (mapDel c.cache kb).length + 1 = c.cache.length := by
    have := hp.length_eq
    simpa using this.symm
  refine ⟨⟨hI.max, ?_, ?_, hI.nodup.erase _, ?_, ?_⟩, ?_, hm⟩
  · simpa [Cache.evict, hk] using mapDel_keys_nodup _ _ hI.keys
  · simpa [Cache.evict, hk] using hp2
  · intro k e he
    simp only [Cache.evict, hk] at he
    exact hI.el k e ((mapDel_mem _ _ _).1 he).1
  · simp only [Cache.evict, hk]
    have := hI.le
    omega
  · simpa [Cache.evict, hk] using hlen

theorem Cache.Inv.push {c : Cache} {N : Nat} (hI : c.Inv N) (hlt : c.cache.length < N)
    {k : String} (v : Any) (ha : mapGet c.cache k = none) : (c.push k v).Inv N := by
  have hset := mapSet_absent c.cache k c.elems.length ha
  have hfresh : c.elems.length ∉ c.priority := fun h => lt_irrefl _ (hI.lt_length h)
  refine ⟨hI.max, ?_, ?_, ?_, ?_, ?_⟩
  · simp only [Cache.push, hset, List.map_append, List.map_cons, List.map_nil]
    refine List.Nodup.append hI.keys (by simp) ?_
    intro a h1 h2
    rw [List.mem_singleton] at h2
    subst h2
    exact (mapGet_eq_none _ _).1 ha h1
  · simp only [Cache.push, hset, List.map_append, List.map_cons, List.map_nil]
    exact (List.perm_append_comm.trans (List.Perm.cons _ hI.perm))
  · exact List.nodup_cons.2 ⟨hfresh, hI.nodup⟩
  · intro k' e he
    simp only [Cache.push, hset, List.mem_append, List.mem_singleton, Prod.mk.injEq] at he ⊢
    rcases he with he | ⟨rfl, rfl⟩
    · rcases hI.el k' e he with ⟨w, hw⟩
      exact ⟨w, by rw [List.getElem?_append_left (List.getElem?_eq_some.1 hw).1]; exact hw⟩
    · exact ⟨v, by simp⟩
  · simp only [Cache.push, hset, List.length_append, List.length_singleton]
    omega

theorem Cache.Ordered.push_keeps {c : Cache} {N : Nat} (hI : c.Inv N) {t : Nat}
    {st st' : String → Nat} (hO : c.Ordered t st) {k : String} (v : Any)
    (ha : mapGet c.cache k = none) (h1 : st' k = t + 1) (h2 : ∀ k', k' ≠ k → st' k' = st k') :
    (c.push k v).Ordered (t + 1) st' := by
  have hkey : ∀ e ∈ c.priority, (c.push k v).keyOf e = c.keyOf e ∧ c.keyOf e ≠ k := by
    intro e he
    have hlt := hI.lt_length he
    rcases hI.of_priority he with ⟨k2, hm⟩
    refine ⟨?_, ?_⟩
    · simp [Cache.keyOf, Cache.push, List.getD_eq_getElem?_getD, List.getElem?_append_left hlt]
    · rw [hI.keyOf_eq hm]
      intro hk
      have := (mapGet_eq_none _ _).1 ha
      exact this (hk ▸ List.mem_map_of_mem Prod.fst hm)
  have hfront : (c.push k v).keyOf c.elems.length = k := by
    simp [Cache.keyOf, Cache.push, List.getD_eq_getElem?_getD]
  constructor
  · show List.Pairwise _ (c.elems.length :: c.priority)
    refine List.pairwise_cons.2 ⟨?_, ?_⟩
    · intro e he
      rw [hfront, h1, (hkey e he).1, h2 _ (hkey e he).2]
      have := hO.2 e he
      omega
    · refine hO.1.imp_of_mem ?_
      intro a b ha' hb hab
      rw [(hkey a ha').1, (hkey b hb).1, h2 _ (hkey a ha').2, h2 _ (hkey b hb).2]
      exact hab
  · intro e he
    rcases List.mem_cons.1 he with rfl | he
    · rw [hfront, h1]
    · rw [(hkey e he).1, h2 _ (hkey e he).2]
      have := hO.2 e he
      omega

theorem Cache.Put_present {c : Cache} {N : Nat} (hI : c.Inv N) {k : String} {e : Nat} (v : Any)
    (h : mapGet c.cache k = some e) :
    c.Put k v = .ok { c with priority := e :: c.priority.erase e } := by
  rcases Cache.Get_hit hI h with ⟨w, _, hg⟩
  simp [Cache.Put, hg, bind, Except.bind]; rfl

theorem Cache.Put_absent_room {c : Cache} {N : Nat} (hI : c.Inv N) {k : String} (v : Any)
    (h : mapGet c.cache k = none) (hlen : c.cache.length ≠ N) :
    c.Put k v = .ok (c.push k v) := by
  have hne : ¬ ((c.cache.length : Int) = c.maxSize) := by
    rw [hI.max]; exact_mod_cast hlen
  simp [Cache.Put, Cache.Get_miss c k h, bind, Except.bind, hne, Cache.push]; rfl

theorem Cache.Put_absent_full {c : Cache} {N : Nat} (hN : 1 ≤ N) (hI : c.Inv N) {k : String}
    (v : Any) (h : mapGet c.cache k = none) (hlen : c.cache.length = N) :
    ∃ back, c.priority.getLast? = some back ∧ back ∈ c.priority ∧
      c.Put k v = .ok ((c.evict back).push k v) := by
  have hne : c.priority ≠ [] := by
    intro h0
    have := hI.length_eq
    rw [h0] at this
    simp at this
    omega
  have hb := List.getLast?_eq_getLast _ hne
  have hmem : c.priority.getLast hne ∈ c.priority := List.getLast_mem hne
  refine ⟨_, hb, hmem, ?_⟩
  rcases hI.of_priority hmem with ⟨kb, hm⟩
  rcases hI.el kb _ hm with ⟨vb, hvb⟩
  have hk := hI.keyOf_eq hm
  have heq : ((c.cache.length : Int) = c.maxSize) := by
    rw [hI.max]; exact_mod_cast hlen
  simp [Cache.Put, Cache.Get_miss c k h, bind, Except.bind, heq, hb, hvb, Cache.push,
    Cache.evict, hk]
  rfl

theorem Cache.step_spec {c : Cache} {N : Nat} (hN : 1 ≤ N) (hI : c.Inv N) {t : Nat}
    {st : String → Nat} (hO : c.Ordered t st) (op : Op) :
    ∃ c', c.step op = .ok c' ∧ c'.Inv N ∧
      c'.Ordered (t + 1) (fun k => if c.touches k op then t + 1 else st k) := by
  cases op with
  | Put k v =>
    have h1 : (fun k' => if c.touches k' (Op.Put k v) then t + 1 else st k') k = t + 1 := by
      simp [Cache.touches]
    have h2 : ∀ k', k' ≠ k →
        (fun k' => if c.touches k' (Op.Put k v) then t + 1 else st k') k' = st k' := by
      intro k' hk
      have : ¬ k = k' := fun h => hk h.symm
      simp [Cache.touches, this]
    cases hg : mapGet c.cache k with
    | some e =>
      have hm := mapGet_mem _ _ _ hg
      exact ⟨_, Cache.Put_present hI v hg, hI.move hm, hO.move_keeps hI hm h1 h2⟩
    | none =>
      by_cases hlen : c.cache.length = N
      · rcases Cache.Put_absent_full hN hI v hg hlen with ⟨back, _, hmem, hput⟩
        rcases hI.evict hmem with ⟨hI1, hl1, _⟩
        have ha1 : mapGet (c.evict back).cache k = none := by
          simp [Cache.evict, mapGet_mapDel, hg]
        have hO1 : (c.evict back).Ordered t st :=
          hO.sub rfl (List.erase_sublist _ _)
        exact ⟨_, hput, hI1.push (by omega) v ha1, hO1.push_keeps hI1 v ha1 h1 h2⟩
      · have := hI.le
        exact ⟨_, Cache.Put_absent_room hI v hg hlen, hI.push (by omega) v hg,
          hO.push_keeps hI v hg h1 h2⟩
  | Get k =>
    cases hg : mapGet c.cache k with
    | some e =>
      have hm := mapGet_mem _ _ _ hg
      rcases Cache.Get_hit hI hg with ⟨w, _, hget⟩
      refine ⟨_, by simp [Cache.step, hget, bind, Except.bind]; rfl, hI.move hm, ?_⟩
      refine hO.move_keeps hI hm ?_ ?_
      · simp [Cache.touches, hg]
      · intro k' hk
        have : ¬ k = k' := fun h => hk h.symm
        simp [Cache.touches, this]
    | none =>
      refine ⟨c, by simp [Cache.step, Cache.Get_miss c k hg, bind, Except.bind]; rfl, hI, ?_⟩
      have : (fun k' => if c.touches k' (Op.Get k) then t + 1 else st k') = st := by
        funext k'
        simp only [Cache.touches, hg, Option.isSome_none, Bool.and_false, Bool.false_eq_true,
          if_false]
      rw [this]
      exact hO.mono (Nat.le_succ t)
  | Del k =>
    have hst : (fun k' => if c.touches k' (Op.Del k) then t + 1 else st k') = st := by
      funext k'
      simp [Cache.touches]
    rw [hst]
    cases hg : mapGet c.cache k with
    | none =>
      exact ⟨c, by simp [Cache.step, Cache.Del, hg]; rfl, hI, hO.mono (Nat.le_succ t)⟩
    | some e =>
      have hm := mapGet_mem _ _ _ hg
      have he := hI.mem_priority hm
      have hk := hI.keyOf_eq hm
      rcases hI.evict he with ⟨hI1, _, _⟩
      refine ⟨c.evict e, by simp [Cache.step, Cache.Del, hg, Cache.evict, hk]; rfl, hI1, ?_⟩
      have hO1 : (c.evict e).Ordered t st := hO.sub rfl (List.erase_sublist _ _)
      exact hO1.mono (Nat.le_succ t)

theorem Cache.run_spec {N : Nat} (hN : 1 ≤ N) (ops : List Op) :
    ∀ (c : Cache) (t : Nat) (st : String → Nat), c.Inv N → c.Ordered t st →
      ∃ c' st', Cache.run ops c t st = .ok (c', st') ∧ c'.Inv N ∧
        c'.Ordered (t + ops.length) st' := by
  induction ops with
  | nil =>
    intro c t st hI hO
    exact ⟨c, st, rfl, hI, hO⟩
  | cons op ops ih =>
    intro c t st hI hO
    rcases Cache.step_spec hN hI hO op with ⟨c1, hs, hI1, hO1⟩
    rcases ih c1 (t + 1) _ hI1 hO1 with ⟨c', st', hr, hI', hO'⟩
    refine ⟨c', st', ?_, hI', ?_⟩
    · simp only [Cache.run, hs, bind, Except.bind]
      exact hr
    · have : t + (op :: ops).length = t + 1 + ops.length := by simp; omega
      rw [this]; exact hO'

end LRU

namespace LRU

open Memstore

theorem pairwise_getLast {α : Type} {R : α → α → Prop} {l : List α} (hp : l.Pairwise R)
    {b : α} (hb : l.getLast? = some b) : ∀ a ∈ l, a ≠ b → R a b := by
  intro a ha hab
  have hne : l ≠ [] := by intro h; simp [h] at hb
  have hlast : l.getLast hne = b := by
    rw [List.getLast?_eq_getLast _ hne] at hb
    exact Option.some.inj hb
  have hl := List.dropLast_append_getLast hne
  rw [hlast] at hl
  rw [← hl] at hp ha
  rcases List.mem_append.1 ha with h | h
  · exact (List.pairwise_append.1 hp).2.2 a h b (by simp)
  · simp at h; exact absurd h hab

theorem Cache.run_New (N : Int) (hN : 1 ≤ N) (ops : List Op) :
    ∃ c st, Cache.run ops (New N) 0 (fun _ => 0) = .ok (c, st) ∧ c.Inv N.toNat ∧
      c.Ordered ops.length st := by
  have hN' : 1 ≤ N.toNat := by omega
  have hI : (New N).Inv N.toNat := by
    have := Inv_New N.toNat
    have h : ((N.toNat : Nat) : Int) = N := by omega
    rw [h] at this
    exact this
  have hO : (New N).Ordered 0 (fun _ => 0) := by
    constructor <;> simp [New]
  rcases Cache.run_spec hN' ops (New N) 0 _ hI hO with ⟨c, st, hr, hI', hO'⟩
  refine ⟨c, st, hr, hI', ?_⟩
  simpa using hO'

/-- C20: for every cache created with `New(N)`, `N >= 1`, and every sequence of `Put`, `Get`
and `Del` calls, all calls return and the number of entries held by the cache (the entries of
the map and the elements of the list alike) is at most `N`. -/
theorem Cache.size_le_capacity (N : Int) (hN : 1 ≤ N) (ops : List Op) :
    ∃ c st, Cache.run ops (New N) 0 (fun _ => 0) = .ok (c, st) ∧
      (c.size : Int) ≤ N ∧ (c.priority.length : Int) ≤ N := by
  rcases Cache.run_New N hN ops with ⟨c, st, hr, hI, _⟩
  refine ⟨c, st, hr, ?_, ?_⟩
  · have := hI.le
    simp only [Cache.size]
    omega
  · have := hI.le
    have := hI.length_eq
    omega

theorem Cache.size_le_capacity_witness :
    (1 : Int) ≤ 2 ∧ ∃ c st,
      Cache.run [.Put "a" (some 1), .Put "b" (some 2), .Get "a", .Put "c" (some 3)] (New 2) 0
        (fun _ => 0) = .ok (c, st) ∧ (c.size : Int) ≤ 2 ∧ (c.priority.length : Int) ≤ 2 :=
  ⟨by decide, Cache.size_le_capacity 2 (by decide) _⟩

/-- C19: for a cache of capacity `N >= 1` reached from `New(N)` by any calls and holding `N`
entries, and a key `k` that it does not hold, `Put(k, v)` returns a cache from which exactly one
entry is gone, that of the key `victim` whose last touch (a `Put` of the key or a `Get` hit) is
earlier than that of every other key in the cache; afterwards `Get(k)` returns `v`, and every
other key that was in the cache is still there with the value it had. -/
theorem Cache.Put_evicts_least_recent (N : Int) (hN : 1 ≤ N) (ops : List Op) (c : Cache)
    (st : String → Nat) (k : String) (v : Any)
    (hrun : Cache.run ops (New N) 0 (fun _ => 0) = .ok (c, st))
    (hsize : (c.size : Int) = N) (hk : c.has k = false) :
    ∃ victim c', c.Put k v = .ok c' ∧ c.has victim = true ∧ c'.has victim = false ∧
      (∀ k', c.has k' = true → k' ≠ victim → st victim < st k') ∧
      (∀ k', c'.has k' = true ↔ k' = k ∨ (c.has k' = true ∧ k' ≠ victim)) ∧
      (∃ c'', c'.Get k = .ok (c'', v, true)) ∧
      (∀ k', c.has k' = true → k' ≠ victim →
        ∃ w c1 c2, c.Get k' = .ok (c1, w, true) ∧ c'.Get k' = .ok (c2, w, true)) := by
  rcases Cache.run_New N hN ops with ⟨c0, st0, hr, hI, hO⟩
  rw [hrun] at hr
  simp only [Except.ok.injEq, Prod.mk.injEq] at hr
  obtain ⟨rfl, rfl⟩ := hr
  have hN' : 1 ≤ N.toNat := by omega
  have hg : mapGet c.cache k = none := by
    simpa [Cache.has] using hk
  have hlen : c.cache.length = N.toNat := by
    simp only [Cache.size] at hsize
    omega
  rcases Cache.Put_absent_full hN' hI v hg hlen with ⟨back, hb, hmem, hput⟩
  rcases hI.evict hmem with ⟨hI1, hl1, hmb⟩
  have ha1 : mapGet (c.evict back).cache k = none := by
    simp [Cache.evict, mapGet_mapDel, hg]
  have hI' := hI1.push (by omega) v ha1
  have hcache : ((c.evict back).push k v).cache =
      mapDel c.cache (c.keyOf back) ++ [(k, c.elems.length)] := by
    have := mapSet_absent _ _ (c.evict back).elems.length ha1
    simpa [Cache.push, Cache.evict] using this
  have hget : ∀ k', mapGet ((c.evict back).push k v).cache k' =
      if k' = c.keyOf back then (if k = k' then some c.elems.length else none)
      else match mapGet c.cache k' with
        | some w => some w
        | none => if k = k' then some c.elems.length else none := by
    intro k'
    rw [hcache, mapGet_append_single, mapGet_mapDel]
    by_cases h : k' = c.keyOf back
    · simp [h]
    · simp only [h, if_false]
      cases mapGet c.cache k' <;> rfl
  have hkv : k ≠ c.keyOf back := by
    intro h
    have := mapGet_of_mem _ _ _ hI.keys hmb
    rw [← h, hg] at this
    exact Option.noConfusion this
  refine ⟨c.keyOf back, _, hput, ?_, ?_, ?_, ?_, ?_, ?_⟩
  · simp [Cache.has, mapGet_of_mem _ _ _ hI.keys hmb]
  · simp [Cache.has, hget (c.keyOf back), hkv]
  · intro k' hk' hne
    simp only [Cache.has, Option.isSome_iff_exists] at hk'
    rcases hk' with ⟨e, he⟩
    have hm := mapGet_mem _ _ _ he
    have hep := hI.mem_priority hm
    have hneq : e ≠ back := by
      intro h
      subst h
      exact hne (hI.keyOf_eq hm).symm
    have := pairwise_getLast hO.1 hb e hep hneq
    rw [hI.keyOf_eq hm] at this
    exact this
  · intro k'
    simp only [Cache.has, hget k']
    by_cases h1 : k' = c.keyOf back
    · have : ¬ k = k' := fun h => hkv (h.trans h1)
      have h2 : ¬ k' = k := fun h => this h.symm
      simp [h1, this, hkv, hkv.symm]
    · cases hm : mapGet c.cache k' with
      | some w => simp [h1]
      | none =>
        by_cases h2 : k = k'
        · simp [h1, h2]
        · have : ¬ k' = k := fun h => h2 h.symm
          simp [h1, h2, this]
  · have hk2 : mapGet ((c.evict back).push k v).cache k = some c.elems.length := by
      rw [hget k]
      simp [hkv, hg]
    rcases Cache.Get_hit hI' hk2 with ⟨w, hw, hgw⟩
    have : w = v := by
      simp [Cache.push, Cache.evict] at hw
      exact hw.symm
    subst this
    exact ⟨_, hgw⟩
  · intro k' hk' hne
    simp only [Cache.has, Option.isSome_iff_exists] at hk'
    rcases hk' with ⟨e, he⟩
    rcases Cache.Get_hit hI he with ⟨w, hw, hgw⟩
    have hk2 : mapGet ((c.evict back).push k v).cache k' = some e := by
      rw [hget k']
      simp [hne, he]
    rcases Cache.Get_hit hI' hk2 with ⟨w', hw', hgw'⟩
    have : w' = w := by
      have hlt := (List.getElem?_eq_some.1 hw).1
      simp only [Cache.push, Cache.evict, List.getElem?_append_left hlt] at hw'
      rw [hw] at hw'
      simpa using hw'.symm
    subst this
    exact ⟨_, _, _, hgw, hgw'⟩

set_option maxRecDepth 100000 in
theorem Cache.Put_evicts_least_recent_witness :
    cacheAB = ⟨[("a", 0), ("b", 1)], [0, 1], [⟨"a", some 1⟩, ⟨"b", some 2⟩], 2⟩ ∧
    (stampsAB "a", stampsAB "b") = (3, 2) ∧
    scenarioEvict = .ok (⟨[("a", 0), ("c", 2)], [2, 0],
        [⟨"a", some 1⟩, ⟨"b", some 2⟩, ⟨"c", some 3⟩], 2⟩,
      [(none, false), (some 1, true), (some 3, true)]) ∧
    ∃ victim c', cacheAB.Put "c" (some 3) = .ok c' ∧ cacheAB.has victim = true ∧
      c'.has victim = false ∧
      (∀ k', cacheAB.has k' = true → k' ≠ victim → stampsAB victim < stampsAB k') ∧
      (∀ k', c'.has k' = true ↔ k' = "c" ∨ (cacheAB.has k' = true ∧ k' ≠ victim)) ∧
      (∃ c'', c'.Get "c" = .ok (c'', some 3, true)) ∧
      (∀ k', cacheAB.has k' = true → k' ≠ victim →
        ∃ w c1 c2, cacheAB.Get k' = .ok (c1, w, true) ∧ c'.Get k' = .ok (c2, w, true)) :=
  ⟨by decide, by decide, by decide,
   Cache.Put_evicts_least_recent 2 (by decide) opsAB cacheAB stampsAB "c" (some 3)
     (ok_of_isOk (New 2, fun _ => 0) _ (by decide)) (by decide) (by decide)⟩

end LRU

namespace LRU

open Memstore

/-- C38: for every cache state in which `Get(k)` hits with value `v`, and every new value
`w`, `Put(k, w)` returns the state left by that `Get`: the map `cache` and the values of all
elements are as before, so `Get` of every key (`k` included, which still yields `v`) gives the
same value and hit flag before and after; only the list `priority` changes, by `MoveToFront`
of the element of `k`, which puts it first and keeps the order of the others. -/
theorem Cache.Put_present_keeps_value (c c1 : Cache) (k : String) (v w : Any)
    (h : c.Get k = .ok (c1, v, true)) :
    c.Put k w = .ok c1 ∧ c1.cache = c.cache ∧ c1.elems = c.elems ∧ c1.maxSize = c.maxSize ∧
      (∃ c2, c1.Get k = .ok (c2, v, true)) ∧
      (∀ k', (c1.Get k').map (fun r => r.2) = (c.Get k').map (fun r => r.2)) ∧
      ∃ e, mapGet c.cache k = some e ∧ c1.priority = moveToFront c.priority e ∧
        (e ∈ c.priority → c1.priority = e :: c.priority.erase e) := by
  have hput : c.Put k w = .ok c1 := by
    simp [Cache.Put, h, bind, Except.bind]; rfl
  cases hg : mapGet c.cache k with
  | none =>
    simp [Cache.Get, hg, pure, Except.pure] at h
  | some e =>
    cases he : c.elems[e]? with
    | none => simp [Cache.Get, hg, he, throw, throwThe, MonadExceptOf.throw] at h
    | some el =>
      simp only [Cache.Get, hg, he, pure, Except.pure, Except.ok.injEq, Prod.mk.injEq,
        and_true] at h
      obtain ⟨rfl, rfl⟩ := h
      refine ⟨hput, rfl, rfl, rfl, ?_, ?_, e, rfl, rfl, ?_⟩
      · exact ⟨_, by simp only [Cache.Get, hg, he]; rfl⟩
      · intro k'
        simp only [Cache.Get]
        cases mapGet c.cache k' with
        | none => rfl
        | some e' =>
          show Except.map _ (match c.elems[e']? with
            | some _ => _
            | none => _) = Except.map _ (match c.elems[e']? with
            | some _ => _
            | none => _)
          cases c.elems[e']? with
          | none => rfl
          | some el' => rfl
      · intro hm
        simp [moveToFront, hm]

theorem Cache.Put_present_keeps_value_witness :
    (New 2).Put "a" (some 1) = .ok ⟨[("a", 0)], [0], [⟨"a", some 1⟩], 2⟩ ∧
    Cache.Put ⟨[("a", 0)], [0], [⟨"a", some 1⟩], 2⟩ "a" (some 7) =
      .ok ⟨[("a", 0)], [0], [⟨"a", some 1⟩], 2⟩ :=
  ⟨by decide, (Cache.Put_present_keeps_value ⟨[("a", 0)], [0], [⟨"a", some 1⟩], 2⟩
    ⟨[("a", 0)], [0], [⟨"a", some 1⟩], 2⟩ "a" (some 1) (some 7) (by decide)).1⟩

end LRU

/-! ### Transactions: staging of deltas -/

namespace Memstore

theorem mapGet_mapSet {κ β : Type} [DecidableEq κ] (m : List (κ × β)) (k k' : κ) (v : β) :
    mapGet (mapSet m k v) k' = if k' = k then some v else mapGet m k' := by
  induction m with
  | nil =>
    by_cases h : k = k'
    · subst h; simp [mapSet, mapGet]
    · have h' : ¬ k' = k := fun e => h e.symm
      simp [mapSet, mapGet, h, h']
  | cons e rest ih =>
    simp only [mapSet]
    by_cases he : e.1 = k
    · by_cases h : k' = k
      · subst h; simp [he, mapGet]
      · have h' : ¬ k = k' := fun e => h e.symm
        have h2 : ¬ e.1 = k' := by rw [he]; exact h'
        simp [he, mapGet, h, h', h2]
    · by_cases h : k' = k
      · subst h; simp [he, mapGet, ih]
      · simp only [he, if_false, mapGet, ih, h]

theorem mapDel_absent {κ β : Type} [DecidableEq κ] (m : List (κ × β)) (k : κ)
    (h : mapGet m k = none) : mapDel m k = m := by
  rw [mapGet_eq_none] at h
  unfold mapDel
  rw [List.filter_eq_self]
  intro e he
  have : e.1 ≠ k := fun hk => h (hk ▸ List.mem_map_of_mem Prod.fst he)
  simpa using this

theorem mapDel_keys {κ β : Type} [DecidableEq κ] (m : List (κ × β)) (k : κ)
    (hn : (m.map Prod.fst).Nodup) : (mapDel m k).map Prod.fst = (m.map Prod.fst).erase k := by
  induction m with
  | nil => simp [mapDel]
  | cons e rest ih =>
    simp only [List.map_cons, List.nodup_cons] at hn
    have ih' := ih hn.2
    unfold mapDel at ih' ⊢
    by_cases he : e.1 = k
    · have hk : k ∉ rest.map Prod.fst := he ▸ hn.1
      have hrest : mapGet rest k = none := (mapGet_eq_none rest k).2 hk
      have := mapDel_absent rest k hrest
      unfold mapDel at this
      simp only [ne_eq, decide_not] at this
      simp [List.filter_cons, he, this]
    · have hne : ¬ (e.1 == k) = true := by simpa using he
      simp only [ne_eq, decide_not] at ih'
      simp [List.filter_cons, he, ih', List.erase_cons, hne]

end Memstore

namespace Graph

open Memstore

theorem deleteFirst_eq_erase (d : Delta) (l : List Delta) : deleteFirst d l = l.erase d := by
  induction l with
  | nil => rfl
  | cons a rest ih =>
    by_cases h : a = d
    · simp [deleteFirst, h]
    · have : ¬ (a == d) = true := by simpa using h
      simp [deleteFirst, h, ih, List.erase_cons, this]

theorem Transaction.staged_addDelta (t : Transaction) (d d' : Delta) :
    (t.addDelta d).staged d' = (decide (d' = d) || t.staged d') := by
  simp only [Transaction.staged, Transaction.addDelta, mapGet_mapSet]
  by_cases h : d' = d <;> simp [h]

theorem Transaction.staged_deleteDelta (t : Transaction) (d d' : Delta) :
    (t.deleteDelta d).staged d' = (decide (d' ≠ d) && t.staged d') := by
  simp only [Transaction.staged, Transaction.deleteDelta, mapGet_mapDel]
  by_cases h : d' = d <;> simp [h]

theorem Transaction.Inv.mem_iff {t : Transaction} (h : t.Inv) (d : Delta) :
    d ∈ t.Deltas ↔ t.staged d = true := by
  rw [← h.1, Transaction.staged]
  constructor
  · intro hm
    cases hg : mapGet t.deltas d with
    | none => exact absurd hm ((mapGet_eq_none _ _).1 hg)
    | some v => rfl
  · intro hs
    by_contra hm
    rw [(mapGet_eq_none _ _).2 hm] at hs
    simp at hs

theorem Transaction.Inv.addDelta_inv {t : Transaction} (h : t.Inv) {d : Delta}
    (hd : t.staged d = false) :
    (t.addDelta d).Inv ∧ t.addDelta d = ⟨t.Deltas ++ [d], t.deltas ++ [(d, ())]⟩ := by
  have hg : mapGet t.deltas d = none := by
    simpa [Transaction.staged] using hd
  have hset := mapSet_absent t.deltas d () hg
  have hnot : d ∉ t.Deltas := by
    rw [h.mem_iff, hd]; simp
  refine ⟨⟨?_, ?_⟩, ?_⟩
  · simp [Transaction.addDelta, hset, h.1]
  · simp only [Transaction.addDelta]
    exact List.Nodup.append h.2 (by simp) (by
      intro a h1 h2
      rw [List.mem_singleton] at h2
      subst h2
      exact hnot h1)
  · simp [Transaction.addDelta, hset]

theorem Transaction.Inv.deleteDelta_inv {t : Transaction} (h : t.Inv) (d : Delta) :
    (t.deleteDelta d).Inv ∧ (t.deleteDelta d).Deltas = t.Deltas.erase d := by
  have hk : (t.deltas.map Prod.fst).Nodup := by rw [h.1]; exact h.2
  refine ⟨⟨?_, ?_⟩, ?_⟩
  · simp only [Transaction.deleteDelta, deleteFirst_eq_erase, mapDel_keys _ _ hk, h.1]
  · simp only [Transaction.deleteDelta, deleteFirst_eq_erase]
    exact h.2.erase d
  · simp only [Transaction.deleteDelta, deleteFirst_eq_erase]

theorem Transaction.addDelta_deleteDelta {t : Transaction} (h : t.Inv) {d : Delta}
    (hd : t.staged d = false) : (t.addDelta d).deleteDelta d = t := by
  have hg : mapGet t.deltas d = none := by
    simpa [Transaction.staged] using hd
  have hnot : d ∉ t.Deltas := by
    rw [h.mem_iff, hd]; simp
  have hset := mapSet_absent t.deltas d () hg
  have h1 : mapDel (t.deltas ++ [(d, ())]) d = t.deltas := by
    have := mapDel_absent t.deltas d hg
    unfold mapDel at this ⊢
    simp only [ne_eq, decide_not] at this
    simp [List.filter_append, this]
  have h2 : (t.Deltas ++ [d]).erase d = t.Deltas := by
    rw [List.erase_append_right _ hnot]; simp
  cases t with
  | mk D m =>
    simp only [Transaction.addDelta, Transaction.deleteDelta, deleteFirst_eq_erase] at *
    rw [hset, h1, h2]

end Graph

namespace Graph

open Memstore

theorem Transaction.step_unchanged {t : Transaction} {n : Nat} {st : Delta → Nat}
    (hO : t.Ordered n st) :
    t.Ordered (n + 1) (fun d => if !t.staged d && t.staged d then n + 1 else st d) := by
  have : (fun d => if !t.staged d && t.staged d then n + 1 else st d) = st := by
    funext d; cases t.staged d <;> simp
  rw [this]
  exact ⟨hO.1, fun d hd => Nat.le_succ_of_le (hO.2 d hd)⟩

theorem Transaction.step_deleteDelta {t : Transaction} {n : Nat} {st : Delta → Nat}
    (hI : t.Inv) (hO : t.Ordered n st) (hB : t.NoBoth) (d : Delta) :
    (t.deleteDelta d).Inv ∧
      (t.deleteDelta d).Ordered (n + 1)
        (fun d' => if !t.staged d' && (t.deleteDelta d).staged d' then n + 1 else st d') ∧
      (t.deleteDelta d).NoBoth := by
  rcases hI.deleteDelta_inv d with ⟨hI', hD⟩
  have hsub : (t.deleteDelta d).Deltas.Sublist t.Deltas := by rw [hD]; exact List.erase_sublist _ _
  have : (fun d' => if !t.staged d' && (t.deleteDelta d).staged d' then n + 1 else st d') = st := by
    funext d'
    rw [Transaction.staged_deleteDelta]
    cases t.staged d' <;> simp
  rw [this]
  refine ⟨hI', ⟨hO.1.sublist hsub, fun d' hd' => Nat.le_succ_of_le (hO.2 d' (hsub.subset hd'))⟩, ?_⟩
  intro q hq
  exact hB q ⟨hsub.subset hq.1, hsub.subset hq.2⟩

theorem Transaction.step_addDelta {t : Transaction} {n : Nat} {st : Delta → Nat}
    (hI : t.Inv) (hO : t.Ordered n st) {d : Delta} (hd : t.staged d = false) :
    (t.addDelta d).Inv ∧
      (t.addDelta d).Ordered (n + 1)
        (fun d' => if !t.staged d' && (t.addDelta d).staged d' then n + 1 else st d') := by
  rcases hI.addDelta_inv hd with ⟨hI', hE⟩
  have hnot : d ∉ t.Deltas := by
    rw [hI.mem_iff, hd]; simp
  have hst : ∀ d', (if !t.staged d' && (t.addDelta d).staged d' then n + 1 else st d') =
      if d' = d then n + 1 else st d' := by
    intro d'
    rw [Transaction.staged_addDelta]
    by_cases h : d' = d
    · subst h; simp [hd]
    · cases t.staged d' <;> simp [h]
  have hD : (t.addDelta d).Deltas = t.Deltas ++ [d] := rfl
  refine ⟨hI', ?_, ?_⟩
  · rw [hD, List.pairwise_append]
    refine ⟨?_, by simp, ?_⟩
    · refine hO.1.imp_of_mem ?_
      intro a b ha hb hab
      have h1 : a ≠ d := fun e => hnot (e ▸ ha)
      have h2 : b ≠ d := fun e => hnot (e ▸ hb)
      simp only [hst, h1, h2, if_false]
      exact hab
    · intro a ha b hb
      rw [List.mem_singleton] at hb
      subst hb
      have h1 : a ≠ b := fun e => hnot (e ▸ ha)
      have := hO.2 a ha
      simp only [hst, h1, if_false, if_true]
      omega
  · intro d' hd'
    rw [hD, List.mem_append, List.mem_singleton] at hd'
    simp only [hst]
    split_ifs with h
    · exact le_refl _
    · rcases hd' with h' | h'
      · exact Nat.le_succ_of_le (hO.2 d' h')
      · exact absurd h' h

theorem Transaction.NoBoth.addDelta_noBoth {t : Transaction} (hI : t.Inv) (hB : t.NoBoth)
    {q : Quad} {a b : Procedure} (hab : (a = .Add ∧ b = .Delete) ∨ (a = .Delete ∧ b = .Add))
    (hb : t.staged ⟨q, b⟩ = false) : (t.addDelta ⟨q, a⟩).NoBoth := by
  have hnot : (⟨q, b⟩ : Delta) ∉ t.Deltas := by
    rw [hI.mem_iff, hb]; simp
  intro q' hq'
  have hD : (t.addDelta ⟨q, a⟩).Deltas = t.Deltas ++ [⟨q, a⟩] := rfl
  rw [hD] at hq'
  simp only [List.mem_append, List.mem_singleton, Delta.mk.injEq] at hq'
  rcases hab with ⟨rfl, rfl⟩ | ⟨rfl, rfl⟩
  · rcases hq' with ⟨h1 | h1, h2 | h2⟩
    · exact hB q' ⟨h1, h2⟩
    · exact absurd h2.2 (by decide)
    · rcases h1 with ⟨rfl, _⟩; exact hnot h2
    · exact absurd h2.2 (by decide)
  · rcases hq' with ⟨h1 | h1, h2 | h2⟩
    · exact hB q' ⟨h1, h2⟩
    · rcases h2 with ⟨rfl, _⟩; exact hnot h1
    · exact absurd h1.2 (by decide)
    · exact absurd h1.2 (by decide)

theorem Transaction.step_inv {t : Transaction} {n : Nat} {st : Delta → Nat}
    (hI : t.Inv) (hO : t.Ordered n st) (hB : t.NoBoth) (op : TxOp) :
    (t.step op).Inv ∧
      (t.step op).Ordered (n + 1)
        (fun d => if !t.staged d && (t.step op).staged d then n + 1 else st d) ∧
      (t.step op).NoBoth := by
  cases op with
  | AddQuad q =>
    simp only [Transaction.step, Transaction.AddQuad, createDeltas]
    cases ha : t.staged ⟨q, .Add⟩ with
    | true => exact ⟨hI, Transaction.step_unchanged hO, hB⟩
    | false =>
      cases hr : t.staged ⟨q, .Delete⟩ with
      | true => exact Transaction.step_deleteDelta hI hO hB _
      | false =>
        rcases Transaction.step_addDelta hI hO ha with ⟨h1, h2⟩
        exact ⟨h1, h2, Transaction.NoBoth.addDelta_noBoth hI hB (Or.inl ⟨rfl, rfl⟩) hr⟩
  | RemoveQuad q =>
    simp only [Transaction.step, Transaction.RemoveQuad, createDeltas]
    cases ha : t.staged ⟨q, .Add⟩ with
    | true => exact Transaction.step_deleteDelta hI hO hB _
    | false =>
      cases hr : t.staged ⟨q, .Delete⟩ with
      | true => exact ⟨hI, Transaction.step_unchanged hO, hB⟩
      | false =>
        rcases Transaction.step_addDelta hI hO hr with ⟨h1, h2⟩
        exact ⟨h1, h2, Transaction.NoBoth.addDelta_noBoth hI hB (Or.inr ⟨rfl, rfl⟩) ha⟩

theorem Transaction.run_inv (ops : List TxOp) :
    ∀ (t : Transaction) (n : Nat) (st : Delta → Nat), t.Inv → t.Ordered n st → t.NoBoth →
      (Transaction.run ops t n st).1.Inv ∧
        (Transaction.run ops t n st).1.Ordered (n + ops.length) (Transaction.run ops t n st).2 ∧
        (Transaction.run ops t n st).1.NoBoth := by
  induction ops with
  | nil => intro t n st hI hO hB; exact ⟨hI, hO, hB⟩
  | cons op ops ih =>
    intro t n st hI hO hB
    rcases Transaction.step_inv hI hO hB op with ⟨h1, h2, h3⟩
    have := ih _ _ _ h1 h2 h3
    simp only [Transaction.run, List.length_cons]
    have e : n + (ops.length + 1) = n + 1 + ops.length := by omega
    rw [e]
    exact this

theorem Transaction.run_NewTransaction (ops : List TxOp) (t0 : Transaction) (h0 : NewTransaction = .ok t0) :
    (Transaction.run ops t0 0 (fun _ => 0)).1.Inv ∧
      (Transaction.run ops t0 0 (fun _ => 0)).1.Ordered ops.length
        (Transaction.run ops t0 0 (fun _ => 0)).2 ∧
      (Transaction.run ops t0 0 (fun _ => 0)).1.NoBoth := by
  have ht : t0 = ⟨[], []⟩ := by
    simp only [NewTransaction, NewTransactionN] at h0
    exact (Except.ok.inj h0).symm
  subst ht
  have := Transaction.run_inv ops ⟨[], []⟩ 0 (fun _ => 0) ⟨rfl, List.nodup_nil⟩
    ⟨List.Pairwise.nil, by simp⟩ (by intro q hq; simp at hq)
  simpa using this

end Graph

namespace Graph

open Memstore

/-- C21: for every transaction `t` and quad `q`: if the `Add` delta of `q` is staged (held by
the map `deltas`), `AddQuad(q)` leaves `t` unchanged; otherwise, if the `Delete` delta of `q`
is staged, it removes that delta from the list `Deltas` and from the map and stages nothing;
otherwise it appends the `Add` delta of `q` at the end of `Deltas` and enters it into the
map. -/
theorem Transaction.AddQuad_cases (t : Transaction) (q : Quad) :
    if t.staged ⟨q, .Add⟩ = true then t.AddQuad q = t
    else if t.staged ⟨q, .Delete⟩ = true then
      (t.AddQuad q).Deltas = t.Deltas.erase ⟨q, .Delete⟩ ∧
        ∀ d, (t.AddQuad q).staged d = (decide (d ≠ ⟨q, .Delete⟩) && t.staged d)
    else
      (t.AddQuad q).Deltas = t.Deltas ++ [⟨q, .Add⟩] ∧
        ∀ d, (t.AddQuad q).staged d = (decide (d = ⟨q, .Add⟩) || t.staged d) := by
  simp only [Transaction.AddQuad, createDeltas]
  cases ha : t.staged ⟨q, .Add⟩ with
  | true => simp
  | false =>
    cases hr : t.staged ⟨q, .Delete⟩ with
    | true =>
      simp only [Bool.not_false, if_true, Bool.false_eq_true, if_false]
      exact ⟨by simp [Transaction.deleteDelta, deleteFirst_eq_erase],
        fun d => Transaction.staged_deleteDelta t _ d⟩
    | false =>
      simp only [Bool.not_false, if_true, Bool.false_eq_true, if_false]
      exact ⟨rfl, fun d => Transaction.staged_addDelta t _ d⟩

/-- C22: for every transaction `t` and quad `q`: if the `Add` delta of `q` is staged (held by
the map `deltas`), `RemoveQuad(q)` removes it from the list `Deltas` and from the map and
stages nothing; otherwise, if the `Delete` delta of `q` is already staged, `t` is unchanged;
otherwise the `Delete` delta of `q` is appended at the end of `Deltas` and entered into the
map. -/
theorem Transaction.RemoveQuad_cases (t : Transaction) (q : Quad) :
    if t.staged ⟨q, .Add⟩ = true then
      (t.RemoveQuad q).Deltas = t.Deltas.erase ⟨q, .Add⟩ ∧
        ∀ d, (t.RemoveQuad q).staged d = (decide (d ≠ ⟨q, .Add⟩) && t.staged d)
    else if t.staged ⟨q, .Delete⟩ = true then t.RemoveQuad q = t
    else
      (t.RemoveQuad q).Deltas = t.Deltas ++ [⟨q, .Delete⟩] ∧
        ∀ d, (t.RemoveQuad q).staged d = (decide (d = ⟨q, .Delete⟩) || t.staged d) := by
  simp only [Transaction.RemoveQuad, createDeltas]
  cases ha : t.staged ⟨q, .Add⟩ with
  | true =>
    simp only [if_true]
    exact ⟨by simp [Transaction.deleteDelta, deleteFirst_eq_erase],
      fun d => Transaction.staged_deleteDelta t _ d⟩
  | false =>
    cases hr : t.staged ⟨q, .Delete⟩ with
    | true => simp
    | false =>
      simp only [Bool.not_false, if_true, Bool.false_eq_true, if_false]
      exact ⟨rfl, fun d => Transaction.staged_addDelta t _ d⟩

theorem Transaction.addDelta_deleteDelta_absent (t : Transaction) {d : Delta}
    (hd : t.staged d = false) (hnot : d ∉ t.Deltas) : (t.addDelta d).deleteDelta d = t := by
  have hg : mapGet t.deltas d = none := by
    simpa [Transaction.staged] using hd
  have hset := mapSet_absent t.deltas d () hg
  have h1 : mapDel (t.deltas ++ [(d, ())]) d = t.deltas := by
    have := mapDel_absent t.deltas d hg
    unfold mapDel at this ⊢
    simp only [ne_eq, decide_not] at this
    simp [List.filter_append, this]
  have h2 : (t.Deltas ++ [d]).erase d = t.Deltas := by
    rw [List.erase_append_right _ hnot]; simp
  cases t with
  | mk D m =>
    simp only [Transaction.addDelta, Transaction.deleteDelta, deleteFirst_eq_erase] at *
    rw [hset, h1, h2]

/-- C23: in the transaction `txSkew`, whose map stages neither the `Add` nor the `Delete` delta
of `<alice> <knows> <bob>` while its list `Deltas` holds the `Add` delta in front, `AddQuad(q)`
followed by `RemoveQuad(q)` leaves the list `Deltas` with that delta moved to the end. -/
theorem AddQuad_RemoveQuad_moves_listed_delta :
    txSkew.staged ⟨quadAKB, .Add⟩ = false ∧ txSkew.staged ⟨quadAKB, .Delete⟩ = false ∧
    txSkew.Deltas = [⟨quadAKB, .Add⟩, ⟨quadM5, .Add⟩] ∧
    ((txSkew.AddQuad quadAKB).RemoveQuad quadAKB).Deltas =
      [⟨quadM5, .Add⟩, ⟨quadAKB, .Add⟩] ∧
    (txSkew.AddQuad quadAKB).RemoveQuad quadAKB ≠ txSkew := by
  decide

/-- C23: for every transaction `t` and quad `q` such that neither the map `deltas` nor the list
`Deltas` holds the `Add` or the `Delete` delta of `q`, `AddQuad(q)` followed by `RemoveQuad(q)`,
and `RemoveQuad(q)` followed by `AddQuad(q)`, give back `t`: the same list `Deltas` and the
same map `deltas`. -/
theorem Transaction.AddQuad_RemoveQuad_cancel (t : Transaction) (q : Quad)
    (ha : t.staged ⟨q, .Add⟩ = false) (hr : t.staged ⟨q, .Delete⟩ = false)
    (hla : (⟨q, .Add⟩ : Delta) ∉ t.Deltas) (hlr : (⟨q, .Delete⟩ : Delta) ∉ t.Deltas) :
    (t.AddQuad q).RemoveQuad q = t ∧ (t.RemoveQuad q).AddQuad q = t := by
  constructor
  · have h1 : t.AddQuad q = t.addDelta ⟨q, .Add⟩ := by
      simp [Transaction.AddQuad, createDeltas, ha, hr]
    have h2 : (t.addDelta ⟨q, .Add⟩).staged ⟨q, .Add⟩ = true := by
      rw [Transaction.staged_addDelta]; simp
    rw [h1]
    simp only [Transaction.RemoveQuad, createDeltas, h2, if_true]
    exact Transaction.addDelta_deleteDelta_absent t ha hla
  · have h1 : t.RemoveQuad q = t.addDelta ⟨q, .Delete⟩ := by
      simp [Transaction.RemoveQuad, createDeltas, ha, hr]
    have h2 : (t.addDelta ⟨q, .Delete⟩).staged ⟨q, .Delete⟩ = true := by
      rw [Transaction.staged_addDelta]; simp
    have h3 : (t.addDelta ⟨q, .Delete⟩).staged ⟨q, .Add⟩ = false := by
      rw [Transaction.staged_addDelta, ha]; simp
    rw [h1]
    simp only [Transaction.AddQuad, createDeltas, h2, h3, Bool.not_false, if_true]
    exact Transaction.addDelta_deleteDelta_absent t hr hlr

theorem Transaction.AddQuad_RemoveQuad_cancel_witness :
    (Transaction.run [.AddQuad quadAKB] ⟨[], []⟩ 0 (fun _ => 0)).1 =
      ⟨[⟨quadAKB, .Add⟩], [(⟨quadAKB, .Add⟩, ())]⟩ ∧
    (Transaction.AddQuad ⟨[⟨quadAKB, .Add⟩], [(⟨quadAKB, .Add⟩, ())]⟩ quadM5).Deltas =
      [⟨quadAKB, .Add⟩, ⟨quadM5, .Add⟩] ∧
    ((Transaction.AddQuad ⟨[⟨quadAKB, .Add⟩], [(⟨quadAKB, .Add⟩, ())]⟩ quadM5).RemoveQuad quadM5 =
        ⟨[⟨quadAKB, .Add⟩], [(⟨quadAKB, .Add⟩, ())]⟩ ∧
      (Transaction.RemoveQuad ⟨[⟨quadAKB, .Add⟩], [(⟨quadAKB, .Add⟩, ())]⟩ quadM5).AddQuad quadM5 =
        ⟨[⟨quadAKB, .Add⟩], [(⟨quadAKB, .Add⟩, ())]⟩) :=
  ⟨by decide, by decide,
   Transaction.AddQuad_RemoveQuad_cancel ⟨[⟨quadAKB, .Add⟩], [(⟨quadAKB, .Add⟩, ())]⟩ quadM5
     (by decide) (by decide) (by decide) (by decide)⟩

/-- C24: in every transaction reached from `NewTransaction` by `AddQuad` and `RemoveQuad`
calls, the list `Deltas` has no duplicates, holds exactly the deltas that the map `deltas`
holds, lists them in the order in which they were staged (a delta nearer to the front was
staged at an earlier call), and never holds the `Add` and the `Delete` delta of one quad. -/
theorem Transaction.Deltas_invariant (ops : List TxOp) (t0 : Transaction)
    (h0 : NewTransaction = .ok t0) :
    (Transaction.run ops t0 0 (fun _ => 0)).1.Deltas.Nodup ∧
      (∀ d, d ∈ (Transaction.run ops t0 0 (fun _ => 0)).1.Deltas ↔
        (Transaction.run ops t0 0 (fun _ => 0)).1.staged d = true) ∧
      (Transaction.run ops t0 0 (fun _ => 0)).1.Deltas.Pairwise
        (fun d1 d2 => (Transaction.run ops t0 0 (fun _ => 0)).2 d1 <
          (Transaction.run ops t0 0 (fun _ => 0)).2 d2) ∧
      ∀ q : Quad, ¬ ((⟨q, .Add⟩ : Delta) ∈ (Transaction.run ops t0 0 (fun _ => 0)).1.Deltas ∧
        (⟨q, .Delete⟩ : Delta) ∈ (Transaction.run ops t0 0 (fun _ => 0)).1.Deltas) := by
  rcases Transaction.run_NewTransaction ops t0 h0 with ⟨hI, hO, hB⟩
  exact ⟨hI.2, hI.mem_iff, hO.1, hB⟩

theorem Transaction.Deltas_invariant_witness :
    (Transaction.run [.AddQuad quadAKB, .RemoveQuad quadM5, .RemoveQuad quadAKB] ⟨[], []⟩ 0
      (fun _ => 0)).1.Deltas = [⟨quadM5, .Delete⟩] ∧
    (Transaction.run [.AddQuad quadAKB, .RemoveQuad quadM5, .RemoveQuad quadAKB] ⟨[], []⟩ 0
      (fun _ => 0)).1.Deltas.Nodup :=
  ⟨by decide, (Transaction.Deltas_invariant
    [.AddQuad quadAKB, .RemoveQuad quadM5, .RemoveQuad quadAKB] ⟨[], []⟩ rfl).1⟩

end Graph

/-! ### Results of calls -/

namespace Memstore

theorem bind_ok {α β : Type} {x : M α} {f : α → M β} {b : β} :
    (x >>= f) = .ok b ↔ ∃ a, x = .ok a ∧ f a = .ok b := by
  cases x with
  | error e => simp [bind, Except.bind]
  | ok a => simp [bind, Except.bind]

theorem pure_ok {α : Type} {a b : α} : (pure a : M α) = .ok b ↔ a = b := by
  simp [pure, Except.pure]

theorem throw_ok {α : Type} {e : Err} {b : α} : (throw e : M α) = .ok b ↔ False := by
  simp [throw, throwThe, MonadExceptOf.throw]

theorem ok_bind {α β : Type} (a : α) (f : α → M β) : ((Except.ok a : M α) >>= f) = f a := rfl

theorem pure_bind_M {α β : Type} (a : α) (f : α → M β) : ((pure a : M α) >>= f) = f a := rfl

theorem idx_ok {α : Type} (a : List α) (i : Nat) (h : i < a.length) :
    idx a (i : Int) = .ok a[i] := by
  simp [idx, List.getElem?_eq_getElem h]; rfl

theorem upd_ok {α : Type} (a : List α) (i : Nat) (v : α) (h : i < a.length) :
    upd a (i : Int) v = .ok (a.set i v) := by
  simp [upd, h]; rfl

theorem slice_ok {α : Type} (a : List α) (lo hi : Nat) (h1 : lo ≤ hi) (h2 : hi ≤ a.length) :
    slice a (lo : Int) (hi : Int) = .ok ((a.drop lo).take (hi - lo)) := by
  have h3 : ((hi : Int) - (lo : Int)).toNat = hi - lo := by omega
  simp [slice, h1, h2, h3]; rfl

theorem copy_ok {α : Type} (a : List α) (lo hi : Nat) (src : List α) (h1 : lo ≤ hi)
    (h2 : hi ≤ a.length) :
    copy a (lo : Int) (hi : Int) src =
      .ok (a.take lo ++ src.take (min (hi - lo) src.length) ++
        a.drop (lo + min (hi - lo) src.length)) := by
  have h3 : ((hi : Int) - (lo : Int)).toNat = hi - lo := by omega
  simp [copy, h1, h2, h3]; rfl

end Memstore

/-! ### Persistent store: intersection of id lists -/

namespace KV

open Memstore

theorem intersectInner_spec (x : Nat) (b : List Nat) (hb : b.Pairwise (· < ·)) (c : List Nat) :
    intersectInner x b c =
      (c ++ (if x ∈ b then [x] else []), b.filter (fun y => x < y),
        decide (∀ y ∈ b, y < x)) := by
  induction b with
  | nil => simp [intersectInner]
  | cons y bs ih =>
    rw [List.pairwise_cons] at hb
    by_cases h1 : x > y
    · have hne : x ≠ y := by omega
      have hf : ¬ x < y := by omega
      simp [intersectInner, h1, ih hb.2, hne, hf]
    · by_cases h2 : x < y
      · have hne : x ≠ y := by omega
        have hnot : x ∉ bs := fun hm => by have := hb.1 x hm; omega
        have hall : ∀ z ∈ bs, x < z := fun z hz => by have := hb.1 z hz; omega
        have hfil : bs.filter (fun y => x < y) = bs := by
          rw [List.filter_eq_self]; intro z hz; simpa using hall z hz
        simp [intersectInner, h1, h2, hne, hnot, hfil]
      · have he : x = y := by omega
        subst he
        have hall : ∀ z ∈ bs, x < z := fun z hz => hb.1 z hz
        have hfil : bs.filter (fun y => x < y) = bs := by
          rw [List.filter_eq_self]; intro z hz; simpa using hall z hz
        simp [intersectInner, hfil]

theorem intersectOuter_spec (a : List Nat) (ha : a.Pairwise (· < ·)) :
    ∀ (b : List Nat), b.Pairwise (· < ·) → ∀ c : List Nat,
      intersectOuter a b c = c ++ a.filter (fun x => x ∈ b) := by
  induction a with
  | nil => intro b _ c; simp [intersectOuter]
  | cons x as ih =>
    intro b hb c
    rw [List.pairwise_cons] at ha
    simp only [intersectOuter, intersectInner_spec x b hb c]
    by_cases hall : ∀ y ∈ b, y < x
    · have hx : x ∉ b := fun hm => by have := hall x hm; omega
      have has : ∀ z ∈ as, z ∉ b := fun z hz hm => by
        have := hall z hm; have := ha.1 z hz; omega
      have hfil : as.filter (fun x => decide (x ∈ b)) = [] := by
        rw [List.filter_eq_nil_iff]; intro z hz; simpa using has z hz
      have hd : decide (∀ y ∈ b, y < x) = true := by simpa using hall
      rw [hd]
      simp [hx, List.filter_cons, hfil]
    · have hd : decide (∀ y ∈ b, y < x) = false := by simpa using hall
      rw [hd]
      simp only []
      rw [ih ha.2 _ (hb.filter _)]
      have hfil : as.filter (fun z => decide (z ∈ b.filter (fun y => x < y))) =
          as.filter (fun z => decide (z ∈ b)) := by
        apply List.filter_congr
        intro z hz
        have := ha.1 z hz
        simp [List.mem_filter, this]
      rw [hfil]
      by_cases hx : x ∈ b <;> simp [hx, List.filter_cons]

/-- C34: for all strictly ascending lists `a` and `b`, `intersectSortedUint64(a, b)` is
strictly ascending and holds a value exactly when the value occurs in both `a` and `b`. -/
theorem intersectSortedUint64_spec (a b : List Nat) (ha : a.Sorted (· < ·))
    (hb : b.Sorted (· < ·)) :
    (intersectSortedUint64 a b).Sorted (· < ·) ∧
      ∀ x, x ∈ intersectSortedUint64 a b ↔ x ∈ a ∧ x ∈ b := by
  have h := intersectOuter_spec a ha b hb []
  simp only [List.nil_append] at h
  unfold intersectSortedUint64
  rw [h]
  refine ⟨List.Pairwise.sublist (List.filter_sublist a) ha, ?_⟩
  intro x
  simp [List.mem_filter]

theorem intersectSortedUint64_spec_witness :
    intersectSortedUint64 [1, 3, 5, 7, 9] [3, 4, 5, 9, 10] = [3, 5, 9] ∧
      ∀ x, x ∈ intersectSortedUint64 [1, 3, 5, 7, 9] [3, 4, 5, 9, 10] ↔
        x ∈ [1, 3, 5, 7, 9] ∧ x ∈ [3, 4, 5, 9, 10] :=
  ⟨by decide, (intersectSortedUint64_spec [1, 3, 5, 7, 9] [3, 4, 5, 9, 10]
    (by decide) (by decide)).2⟩

end KV

/-! ### Persistent store: encoding of id lists -/

namespace KV

open Memstore

set_option maxRecDepth 100000 in
theorem byte_or_128 : ∀ y, y < 256 → y ||| 128 = y % 128 + 128 := by decide

set_option maxRecDepth 100000 in
theorem byte_and_127 : ∀ y, y < 256 → y &&& 127 = y % 128 := by decide

theorem uvarintBytes_length_le (fuel x : Nat) : (uvarintBytes fuel x).length ≤ fuel := by
  induction fuel generalizing x with
  | zero => simp [uvarintBytes]
  | succ n ih =>
    simp only [uvarintBytes]
    split
    · simp only [List.length_cons]; have := ih (x / 128); omega
    · simp

theorem uvarintBytes_length_pos (fuel x : Nat) : 0 < (uvarintBytes (fuel + 1) x).length := by
  simp only [uvarintBytes]
  split <;> simp

theorem putUvarintLoop_spec (off : Nat) (fuel : Nat) :
    ∀ (x i : Nat) (pre mid post : List Nat), x < 128 ^ (fuel + 1) → pre.length = off + i →
      mid.length = (uvarintBytes (fuel + 1) x).length →
      putUvarintLoop off (fuel + 1) (pre ++ mid ++ post) x i =
        .ok (pre ++ uvarintBytes (fuel + 1) x ++ post,
          i + (uvarintBytes (fuel + 1) x).length) := by
  induction fuel with
  | zero =>
    intro x i pre mid post hx hpre hmid
    have h : ¬ x ≥ 128 := by simpa using hx
    simp only [putUvarintLoop, uvarintBytes, h, if_false] at hmid ⊢
    cases mid with
    | nil => simp at hmid
    | cons m mid' =>
      have hm : mid' = [] := by simpa using hmid
      subst hm
      have hlt : off + i < (pre ++ [m] ++ post).length := by
        simp only [List.length_append, List.length_cons]; omega
      have hv : x % 256 = x := Nat.mod_eq_of_lt (by omega)
      have hset : (pre ++ [m] ++ post).set (off + i) x = pre ++ [x] ++ post := by
        rw [List.append_assoc, List.set_append_right _ _ (by omega)]
        simp [hpre]
      rw [upd_ok _ _ _ hlt, ok_bind, hv, hset]
      rfl
  | succ n ih =>
    intro x i pre mid post hx hpre hmid
    rw [putUvarintLoop, uvarintBytes]
    rw [uvarintBytes] at hmid
    by_cases h : x ≥ 128
    · simp only [h, if_true] at hmid ⊢
      cases mid with
      | nil => simp at hmid
      | cons m mid' =>
        have hlt : off + i < (pre ++ m :: mid' ++ post).length := by
          simp only [List.length_append, List.length_cons]; omega
        have hv : x % 256 ||| 128 = x % 128 + 128 := by
          rw [byte_or_128 _ (Nat.mod_lt _ (by decide))]
          omega
        have hset : (pre ++ m :: mid' ++ post).set (off + i) (x % 128 + 128) =
            (pre ++ [x % 128 + 128]) ++ mid' ++ post := by
          rw [List.append_assoc, List.set_append_right _ _ (by omega)]
          simp [hpre]
        have hx' : x / 128 < 128 ^ (n + 1) := by
          rw [pow_succ] at hx
          exact Nat.div_lt_of_lt_mul (by omega)
        have hsh : x >>> 7 = x / 128 := by
          rw [Nat.shiftRight_eq_div_pow]
        rw [upd_ok _ _ _ hlt, ok_bind, hv, hset, hsh,
          ih (x / 128) (i + 1) (pre ++ [x % 128 + 128]) mid' post hx'
            (by simp only [List.length_append, List.length_singleton]; omega)
            (by simpa using hmid)]
        simp only [List.append_assoc, List.singleton_append, List.length_cons]
        congr 2
        omega
    · simp only [h, if_false] at hmid ⊢
      cases mid with
      | nil => simp at hmid
      | cons m mid' =>
        have hm : mid' = [] := by simpa using hmid
        subst hm
        have hlt : off + i < (pre ++ [m] ++ post).length := by
          simp only [List.length_append, List.length_cons]; omega
        have hv : x % 256 = x := Nat.mod_eq_of_lt (by omega)
        have hset : (pre ++ [m] ++ post).set (off + i) x = pre ++ [x] ++ post := by
          rw [List.append_assoc, List.set_append_right _ _ (by omega)]
          simp [hpre]
        rw [upd_ok _ _ _ hlt, ok_bind, hv, hset]
        rfl

end KV

namespace KV

open Memstore

theorem enc_length_le (x : Nat) : (enc x).length ≤ 10 := uvarintBytes_length_le _ _

theorem enc_length_pos (x : Nat) : 0 < (enc x).length := uvarintBytes_length_pos _ _

theorem flatMap_enc_length_le (l : List Nat) : (l.flatMap enc).length ≤ 10 * l.length := by
  induction l with
  | nil => simp
  | cons x l ih =>
    simp only [List.flatMap_cons, List.length_append, List.length_cons]
    have := enc_length_le x
    omega

theorem PutUvarint_spec (x : Nat) (hx : x < 2 ^ 64) (pre post : List Nat)
    (hlen : (enc x).length ≤ post.length) :
    PutUvarint (pre ++ post) pre.length x =
      .ok (pre ++ enc x ++ post.drop (enc x).length, (enc x).length) := by
  have h128 : x < 128 ^ (9 + 1) := by
    have : (2 : Nat) ^ 64 < 128 ^ (9 + 1) := by norm_num
    omega
  have := putUvarintLoop_spec pre.length 9 x 0 pre (post.take (enc x).length)
    (post.drop (enc x).length) h128 rfl (by
      rw [List.length_take]
      exact Nat.min_eq_left hlen)
  rw [List.append_assoc, List.take_append_drop] at this
  simp only [PutUvarint, MaxVarintLen64, enc] at this ⊢
  rw [this]
  simp

theorem appendLoop_spec (l : List Nat) :
    ∀ (pre post : List Nat), (∀ x ∈ l, x < 2 ^ 64) → (l.flatMap enc).length ≤ post.length →
      appendLoop l (pre ++ post) pre.length =
        .ok (pre ++ l.flatMap enc ++ post.drop (l.flatMap enc).length,
          pre.length + (l.flatMap enc).length) := by
  induction l with
  | nil => intro pre post _ _; simp [appendLoop]; rfl
  | cons x l ih =>
    intro pre post hl hlen
    simp only [List.flatMap_cons, List.length_append] at hlen
    have hx := hl x (List.mem_cons_self _ _)
    have hs := slice_ok (pre ++ post) pre.length (pre ++ post).length
      (by simp) (le_refl _)
    have hput := PutUvarint_spec x hx pre post (by omega)
    have hrec := ih (pre ++ enc x) (post.drop (enc x).length)
      (fun y hy => hl y (List.mem_cons_of_mem _ hy))
      (by rw [List.length_drop]; omega)
    simp only [appendLoop]
    rw [hs, ok_bind, hput, ok_bind]
    simp only [List.length_append] at hrec
    rw [hrec]
    simp only [List.flatMap_cons, List.append_assoc, List.length_append, List.drop_drop,
      Nat.add_assoc]

theorem appendIndex_spec (bytelist l : List Nat) (hl : ∀ x ∈ l, x < 2 ^ 64) :
    appendIndex bytelist l = .ok (bytelist ++ l.flatMap enc) := by
  have hcopy := copy_ok (List.replicate (bytelist.length + MaxVarintLen64 * l.length) 0) 0
    bytelist.length bytelist (Nat.zero_le _) (by simp)
  have hb : List.take 0 (List.replicate (bytelist.length + MaxVarintLen64 * l.length) 0) ++
      List.take (min (bytelist.length - 0) bytelist.length) bytelist ++
      List.drop (0 + min (bytelist.length - 0) bytelist.length)
        (List.replicate (bytelist.length + MaxVarintLen64 * l.length) 0) =
      bytelist ++ List.replicate (MaxVarintLen64 * l.length) 0 := by
    simp
  rw [hb] at hcopy
  have hlen := flatMap_enc_length_le l
  have hloop := appendLoop_spec l bytelist (List.replicate (MaxVarintLen64 * l.length) 0) hl
    (by rw [List.length_replicate]; exact hlen)
  generalize l.flatMap enc = e at hloop hlen
  have hsl := slice_ok (bytelist ++ e ++
      (List.replicate (MaxVarintLen64 * l.length) 0).drop e.length) 0
    (bytelist.length + e.length) (Nat.zero_le _) (by simp)
  simp only [appendIndex]
  have h0 : ((0 : Nat) : Int) = 0 := rfl
  rw [h0] at hcopy hsl
  rw [hcopy, ok_bind, hloop, ok_bind, hsl]
  have : bytelist.length + e.length = (bytelist ++ e).length := by simp
  simp only [Nat.sub_zero, List.drop_zero]
  rw [this, List.take_left']
  rfl

end KV

namespace KV

open Memstore

theorem lor_shiftLeft (acc m s : Nat) (h : acc < 2 ^ s) : acc ||| (m <<< s) = acc + m * 2 ^ s := by
  rw [Nat.shiftLeft_eq, Nat.lor_comm, Nat.mul_comm m, ← Nat.mul_add_lt_is_or h, Nat.add_comm]

theorem two_pow_seven_succ (i : Nat) : 2 ^ (7 * (i + 1)) = 128 * 2 ^ (7 * i) := by
  rw [Nat.mul_succ, pow_add]
  norm_num
  ring

theorem uvarintLoop_spec (fuel : Nat) :
    ∀ (x i acc : Nat) (rest : List Nat), x < 128 ^ (fuel + 1) →
      i + (uvarintBytes (fuel + 1) x).length ≤ 10 → acc < 2 ^ (7 * i) →
      acc + x * 2 ^ (7 * i) < 2 ^ 64 →
      uvarintLoop (uvarintBytes (fuel + 1) x ++ rest) i acc (7 * i) =
        (acc + x * 2 ^ (7 * i), (i : Int) + (uvarintBytes (fuel + 1) x).length) := by
  induction fuel with
  | zero =>
    intro x i acc rest hx hlen hacc hval
    have h : ¬ x ≥ 128 := by simpa using hx
    have hb : x < 128 := by omega
    simp only [uvarintBytes, h, if_false, List.length_singleton] at hlen ⊢
    have hi : ¬ i = MaxVarintLen64 := by simp only [MaxVarintLen64]; omega
    have h9 : ¬ (i = MaxVarintLen64 - 1 ∧ x > 1) := by
      rintro ⟨h9, hx1⟩
      simp only [MaxVarintLen64] at h9
      subst h9
      have : (2 : Nat) ^ (7 * 9) = 9223372036854775808 := by norm_num
      rw [this] at hval
      omega
    have hsh : x <<< (7 * i) = x * 2 ^ (7 * i) := Nat.shiftLeft_eq _ _
    have hm : (x <<< (7 * i)) % 2 ^ 64 = x <<< (7 * i) := by
      rw [hsh]; exact Nat.mod_eq_of_lt (by omega)
    simp only [List.singleton_append, uvarintLoop, hi, if_false, hb, if_true, h9, hm,
      lor_shiftLeft _ _ _ hacc, Nat.mod_eq_of_lt hval]
    simp
  | succ n ih =>
    intro x i acc rest hx hlen hacc hval
    rw [uvarintBytes] at hlen ⊢
    by_cases h : x ≥ 128
    · simp only [h, if_true, List.length_cons] at hlen ⊢
      have hpos := uvarintBytes_length_pos n (x / 128)
      have hi : ¬ i = MaxVarintLen64 := by simp only [MaxVarintLen64]; omega
      have hb : ¬ x % 128 + 128 < 128 := by omega
      have hand : (x % 128 + 128) &&& 127 = x % 128 := by
        rw [byte_and_127 _ (by omega)]; omega
      have hx' : x / 128 < 128 ^ (n + 1) := by
        rw [pow_succ] at hx
        exact Nat.div_lt_of_lt_mul (by omega)
      have hxd : x = x % 128 + 128 * (x / 128) := (Nat.mod_add_div x 128).symm
      have hP := two_pow_seven_succ i
      generalize hPd : 2 ^ (7 * i) = P at hacc hval hP
      have hle : x % 128 * P ≤ x * P := Nat.mul_le_mul_right _ (Nat.mod_le _ _)
      have hsh : (x % 128) <<< (7 * i) = x % 128 * P := by rw [Nat.shiftLeft_eq, hPd]
      have hm : ((x % 128) <<< (7 * i)) % 2 ^ 64 = x % 128 * P := by
        rw [hsh]; exact Nat.mod_eq_of_lt (by omega)
      have hor : acc ||| (x % 128 * P) = acc + x % 128 * P := by
        have := lor_shiftLeft acc (x % 128) (7 * i) (by rw [hPd]; exact hacc)
        rw [hsh, hPd] at this
        exact this
      have hlt128 : x % 128 < 128 := Nat.mod_lt _ (by decide)
      have hacc' : acc + x % 128 * P < 2 ^ (7 * (i + 1)) := by
        rw [hP]
        have : x % 128 * P ≤ 127 * P := Nat.mul_le_mul_right _ (by omega)
        omega
      have hsplit : x * P = x % 128 * P + x / 128 * (128 * P) := by
        conv_lhs => rw [hxd]
        ring
      have hval' : acc + x % 128 * P + x / 128 * 2 ^ (7 * (i + 1)) < 2 ^ 64 := by
        rw [hP]; omega
      have hrec := ih (x / 128) (i + 1) (acc + x % 128 * P) rest hx' (by omega) hacc' hval'
      have h7 : 7 * i + 7 = 7 * (i + 1) := by ring
      have hlo : (acc + x % 128 * P) % 2 ^ 64 = acc + x % 128 * P :=
        Nat.mod_eq_of_lt (by omega)
      simp only [List.cons_append, uvarintLoop, hi, if_false, hb, hand, hm, hor, hlo, h7,
        List.append_eq]
      rw [hrec, hP]
      refine Prod.ext ?_ ?_
      · simp only; omega
      · simp only [Nat.cast_add, Nat.cast_one]; omega
    · have hb : x < 128 := by omega
      simp only [h, if_false, List.length_singleton] at hlen ⊢
      have hi : ¬ i = MaxVarintLen64 := by simp only [MaxVarintLen64]; omega
      have h9 : ¬ (i = MaxVarintLen64 - 1 ∧ x > 1) := by
        rintro ⟨h9, hx1⟩
        simp only [MaxVarintLen64] at h9
        subst h9
        have : (2 : Nat) ^ (7 * 9) = 9223372036854775808 := by norm_num
        rw [this] at hval
        omega
      have hsh : x <<< (7 * i) = x * 2 ^ (7 * i) := Nat.shiftLeft_eq _ _
      have hm : (x <<< (7 * i)) % 2 ^ 64 = x <<< (7 * i) := by
        rw [hsh]; exact Nat.mod_eq_of_lt (by omega)
      simp only [List.singleton_append, uvarintLoop, hi, if_false, hb, if_true, h9, hm,
        lor_shiftLeft _ _ _ hacc, Nat.mod_eq_of_lt hval]
      simp

theorem Uvarint_enc (x : Nat) (hx : x < 2 ^ 64) (rest : List Nat) :
    Uvarint (enc x ++ rest) = (x, ((enc x).length : Int)) := by
  have h128 : x < 128 ^ (9 + 1) := by
    have : (2 : Nat) ^ 64 < 128 ^ (9 + 1) := by norm_num
    omega
  have := uvarintLoop_spec 9 x 0 0 rest h128 (by have := enc_length_le x; simpa [enc] using this)
    (by norm_num) (by simpa using hx)
  simpa [Uvarint, enc, MaxVarintLen64] using this

end KV

namespace KV

open Memstore

theorem decodeLoop_spec (l : List Nat) :
    ∀ (fuel : Nat) (out : List Nat), (∀ x ∈ l, x < 2 ^ 64) →
      (l.flatMap enc).length < fuel →
      decodeLoop fuel (l.flatMap enc) out = .ok (out ++ l, none) := by
  induction l with
  | nil =>
    intro fuel out _ hf
    cases fuel with
    | zero => simp at hf
    | succ n => simp [decodeLoop]; rfl
  | cons x l ih =>
    intro fuel out hl hf
    cases fuel with
    | zero => simp at hf
    | succ n =>
      have hx := hl x (List.mem_cons_self _ _)
      have hpos := enc_length_pos x
      simp only [List.flatMap_cons, List.length_append] at hf ⊢
      have hU := Uvarint_enc x hx (l.flatMap enc)
      have hsl := slice_ok (enc x ++ l.flatMap enc) (enc x).length
        (enc x ++ l.flatMap enc).length (by simp) (le_refl _)
      have hrec := ih n (out ++ [x]) (fun y hy => hl y (List.mem_cons_of_mem _ hy)) (by omega)
      have hlen : (enc x ++ l.flatMap enc).length > 0 := by
        rw [List.length_append]; omega
      have hn0 : ¬ ((enc x).length : Int) = 0 := by omega
      have hn1 : ¬ ((enc x).length : Int) < 0 := by omega
      simp only [decodeLoop, hlen, if_true, hU, hn0, hn1, if_false]
      rw [hsl, ok_bind]
      simp only [List.drop_left, List.length_append, Nat.add_sub_cancel_left]
      rw [List.take_of_length_le (le_refl _), hrec]
      simp

theorem decodeIndex_flatMap_enc (l : List Nat) (hl : ∀ x ∈ l, x < 2 ^ 64) :
    decodeIndex (l.flatMap enc) = .ok (l, none) := by
  have := decodeLoop_spec l ((l.flatMap enc).length + 1) [] hl (Nat.lt_succ_self _)
  simpa [decodeIndex] using this

/-- C35: for all lists `a` and `b` of `uint64`, `appendIndex(nil, a)` and `appendIndex` of its
result and `b` return, and `decodeIndex` of the bytes returns the list `a` followed by `b` and
no error. -/
theorem decodeIndex_appendIndex (a b : List Nat) (ha : ∀ x ∈ a, x < 2 ^ 64)
    (hb : ∀ x ∈ b, x < 2 ^ 64) :
    (do
      let e ← appendIndex [] a
      let e ← appendIndex e b
      decodeIndex e) = .ok (a ++ b, none) := by
  rw [appendIndex_spec [] a ha, ok_bind, appendIndex_spec _ b hb, ok_bind]
  have : [] ++ a.flatMap enc ++ b.flatMap enc = (a ++ b).flatMap enc := by simp
  rw [this]
  exact decodeIndex_flatMap_enc (a ++ b) (by
    intro x hx
    rcases List.mem_append.1 hx with h | h
    · exact ha x h
    · exact hb x h)

theorem decodeIndex_appendIndex_witness :
    (do
      let e ← appendIndex [] [1, 300]
      let e ← appendIndex e [18446744073709551615]
      decodeIndex e) = .ok ([1, 300] ++ [18446744073709551615], none) :=
  decodeIndex_appendIndex [1, 300] [18446744073709551615] (by decide) (by decide)

end KV

/-! ### Persistent store: index keys -/

namespace KV

open Memstore

theorem set_append_mid {α : Type} (pre post : List α) (l : List α) (k : Nat) (v : α)
    (h : k < l.length) :
    (pre ++ l ++ post).set (pre.length + k) v = pre ++ l.set k v ++ post := by
  rw [List.append_assoc, List.set_append_right _ _ (by omega), Nat.add_sub_cancel_left,
    List.set_append_left _ _ h, List.append_assoc]

theorem PutUint64_spec (pre post : List Nat) (m0 m1 m2 m3 m4 m5 m6 m7 v : Nat) :
    PutUint64 (pre ++ [m0, m1, m2, m3, m4, m5, m6, m7] ++ post) pre.length v =
      .ok (pre ++ be8 v ++ post) := by
  have hlen : pre.length + 7 < (pre ++ [m0, m1, m2, m3, m4, m5, m6, m7] ++ post).length := by
    simp only [List.length_append, List.length_cons, List.length_nil]; omega
  have step : ∀ (l : List Nat) (k : Nat) (w : Nat), k < l.length →
      upd (pre ++ l ++ post) ((pre.length + k : Nat) : Int) w = .ok (pre ++ l.set k w ++ post) := by
    intro l k w hk
    rw [upd_ok _ _ _ (by simp only [List.length_append]; omega), set_append_mid _ _ _ _ _ hk]
  simp only [PutUint64, hlen, if_true]
  have h0 := step [m0, m1, m2, m3, m4, m5, m6, m7] 0 ((v >>> 56) % 256) (by simp)
  rw [Nat.add_zero] at h0
  rw [h0, ok_bind, step _ 1 _ (by simp), ok_bind, step _ 2 _ (by simp), ok_bind,
    step _ 3 _ (by simp), ok_bind, step _ 4 _ (by simp), ok_bind, step _ 5 _ (by simp), ok_bind,
    step _ 6 _ (by simp), ok_bind, step _ 7 _ (by simp)]
  rfl

theorem replicate_eight_mul_succ (n : Nat) :
    List.replicate (8 * (n + 1)) 0 = [0, 0, 0, 0, 0, 0, 0, 0] ++ List.replicate (8 * n) 0 := by
  rw [Nat.mul_succ, Nat.add_comm, List.replicate_add]
  rfl

theorem putAll_spec (vals : List Nat) :
    ∀ pre : List Nat, putAll vals (pre ++ List.replicate (8 * vals.length) 0) pre.length =
      .ok (pre ++ vals.flatMap be8) := by
  induction vals with
  | nil => intro pre; simp [putAll]; rfl
  | cons v vals ih =>
    intro pre
    have hs := slice_ok (pre ++ List.replicate (8 * (v :: vals).length) 0) pre.length
      (pre ++ List.replicate (8 * (v :: vals).length) 0).length (by simp) (le_refl _)
    simp only [putAll]
    rw [hs, ok_bind]
    simp only [List.length_cons]
    rw [replicate_eight_mul_succ, ← List.append_assoc, PutUint64_spec, ok_bind]
    have := ih (pre ++ be8 v)
    have hl : (pre ++ be8 v).length = pre.length + 8 := by simp [be8]
    rw [hl] at this
    rw [this]
    simp

theorem putDirs_eq_putAll (p : Primitive) (ds : List Direction) :
    ∀ (key : List Nat) (n : Nat),
      putDirs p ds key n = putAll (ds.map p.GetDirection) key n := by
  induction ds with
  | nil => intro key n; rfl
  | cons d ds ih =>
    intro key n
    simp only [putDirs, List.map_cons, putAll, ih]

/-- C28: for every index and quad primitive `p`, `KeyFor(p)` returns the key made of the
bucket of the index, which holds one prefix byte per direction in the order of the index, and
of the 8-byte big-endian encodings of the node ids of `p` for those directions in the same
order; it is the key that `Key` returns for the list of those ids. -/
theorem KeyFor_eq_Key (pre : Direction → Nat) (ind : QuadIndex) (p : Primitive) :
    ind.KeyFor pre p =
        .ok [ind.Dirs.map pre, (ind.Dirs.map p.GetDirection).flatMap be8] ∧
      ind.KeyFor pre p = ind.Key pre (ind.Dirs.map p.GetDirection) := by
  have h := putAll_spec (ind.Dirs.map p.GetDirection) []
  simp only [List.nil_append, List.length_nil, List.length_map] at h
  constructor
  · simp only [QuadIndex.KeyFor, putDirs_eq_putAll, h, ok_bind, QuadIndex.bucket]
    rfl
  · simp only [QuadIndex.KeyFor, QuadIndex.Key, putDirs_eq_putAll, List.length_map]

end KV

/-! ### Persistent store: choice of an index -/

namespace KV

open Memstore

theorem hasDir_iff (dirs : List Direction) (d : Direction) : hasDir dirs d = true ↔ d ∈ dirs := by
  induction dirs with
  | nil => simp [hasDir]
  | cons d2 rest ih =>
    simp only [hasDir, List.mem_cons]
    by_cases h : d = d2
    · simp [h]
    · simp [h, ih]

theorem matchLoop_eq (dirs : List Direction) (ds : List Direction) :
    ∀ i m, matchLoop dirs ds i m =
      m + ((ds.take (dirs.length - i)).takeWhile (fun d => decide (d ∈ dirs))).length := by
  induction ds with
  | nil => intro i m; simp [matchLoop]
  | cons d rest ih =>
    intro i m
    simp only [matchLoop]
    by_cases h1 : i ≥ dirs.length
    · have : dirs.length - i = 0 := by omega
      simp [h1, this]
    · by_cases h2 : d ∈ dirs
      · have h3 : hasDir dirs d = true := (hasDir_iff _ _).2 h2
        have h4 : dirs.length - i = (dirs.length - (i + 1)) + 1 := by omega
        simp only [h1, h3, Bool.not_true, Bool.false_eq_true, or_self, if_false, ih]
        rw [h4, List.take_succ_cons, List.takeWhile_cons]
        simp only [h2, decide_True, if_true, List.length_cons]
        omega
      · have h3 : hasDir dirs d = false := by
          rw [← Bool.not_eq_true, hasDir_iff]; exact h2
        have h4 : dirs.length - i = (dirs.length - (i + 1)) + 1 := by omega
        simp only [h3, Bool.not_false, or_true, if_true]
        rw [h4, List.take_succ_cons, List.takeWhile_cons]
        simp [h2]

theorem matchLoop_le (dirs ds : List Direction) : matchLoop dirs ds 0 0 ≤ dirs.length := by
  rw [matchLoop_eq]
  simp only [Nat.zero_add, Nat.sub_zero]
  exact le_trans (List.Sublist.length_le (List.takeWhile_sublist _))
    (by rw [List.length_take]; exact Nat.min_le_left _ _)

theorem matchLoop_pos_iff (dirs ds : List Direction) (hd : dirs ≠ []) :
    0 < matchLoop dirs ds 0 0 ↔ ∃ d rest, ds = d :: rest ∧ d ∈ dirs := by
  rw [matchLoop_eq]
  simp only [Nat.zero_add, Nat.sub_zero]
  have hpos : 0 < dirs.length := List.length_pos.2 hd
  cases ds with
  | nil => simp
  | cons d rest =>
    obtain ⟨n, hn⟩ : ∃ n, dirs.length = n + 1 := ⟨dirs.length - 1, by omega⟩
    rw [hn, List.take_succ_cons, List.takeWhile_cons]
    by_cases h : d ∈ dirs <;> simp [h]

theorem bestLoop_spec (dirs : List Direction) (hd : dirs ≠ []) (rest : List QuadIndex) :
    ∀ (max : Nat) (best : QuadIndex), (0 < max → matchLoop dirs best.Dirs 0 0 = max) →
      (bestLoop dirs rest max best).length ≤ 1 ∧
      (∀ ind ∈ bestLoop dirs rest max best,
        ((ind ∈ rest ∧ dirs.length ≤ ind.Dirs.length) ∨ (ind = best ∧ 0 < max)) ∧
        max ≤ matchLoop dirs ind.Dirs 0 0 ∧ 0 < matchLoop dirs ind.Dirs 0 0 ∧
        ∀ ind' ∈ rest, dirs.length ≤ ind'.Dirs.length →
          matchLoop dirs ind'.Dirs 0 0 ≤ matchLoop dirs ind.Dirs 0 0) ∧
      (bestLoop dirs rest max best = [] →
        max = 0 ∧ ∀ ind' ∈ rest, dirs.length ≤ ind'.Dirs.length →
          matchLoop dirs ind'.Dirs 0 0 = 0) := by
  have hpos : 0 < dirs.length := List.length_pos.2 hd
  induction rest with
  | nil =>
    intro max best hinv
    simp only [bestLoop]
    by_cases h : max = 0
    · simp [h]
    · have hm : 0 < max := Nat.pos_of_ne_zero h
      simp [h, hm, hinv hm]
  | cons ind rest ih =>
    intro max best hinv
    simp only [bestLoop]
    by_cases h1 : ind.Dirs.length < dirs.length
    · simp only [h1, if_true]
      rcases ih max best hinv with ⟨a, b, c⟩
      refine ⟨a, ?_, ?_⟩
      · intro i hi
        rcases b i hi with ⟨b1, b2, b3, b4⟩
        refine ⟨?_, b2, b3, ?_⟩
        · rcases b1 with ⟨x, y⟩ | x
          · exact Or.inl ⟨List.mem_cons_of_mem _ x, y⟩
          · exact Or.inr x
        · intro i' hi' he
          rcases List.mem_cons.1 hi' with rfl | hm
          · omega
          · exact b4 i' hm he
      · intro he
        rcases c he with ⟨c1, c2⟩
        refine ⟨c1, ?_⟩
        intro i' hi' hle
        rcases List.mem_cons.1 hi' with rfl | hm
        · omega
        · exact c2 i' hm hle
    · simp only [h1, if_false]
      have hle := matchLoop_le dirs ind.Dirs
      by_cases h2 : matchLoop dirs ind.Dirs 0 0 = dirs.length
      · simp only [h2, if_true, List.length_singleton, le_refl, List.mem_singleton, true_and]
        refine ⟨?_, by simp⟩
        intro i hi
        subst hi
        refine ⟨Or.inl ⟨List.mem_cons_self _ _, by omega⟩, ?_, by omega, ?_⟩
        · by_cases hm : 0 < max
          · have := hinv hm
            have := matchLoop_le dirs best.Dirs
            omega
          · omega
        · intro i' _ _
          have := matchLoop_le dirs i'.Dirs
          omega
      · simp only [h2, if_false]
        by_cases h3 : matchLoop dirs ind.Dirs 0 0 > 0 ∧ matchLoop dirs ind.Dirs 0 0 > max
        · simp only [h3, and_self, if_true]
          rcases ih (matchLoop dirs ind.Dirs 0 0) ind (fun _ => rfl) with ⟨a, b, c⟩
          refine ⟨a, ?_, ?_⟩
          · intro i hi
            rcases b i hi with ⟨b1, b2, b3, b4⟩
            refine ⟨?_, by omega, b3, ?_⟩
            · rcases b1 with ⟨x, y⟩ | ⟨x, _⟩
              · exact Or.inl ⟨List.mem_cons_of_mem _ x, y⟩
              · exact Or.inl ⟨x ▸ List.mem_cons_self _ _, by rw [x]; omega⟩
            · intro i' hi' he
              rcases List.mem_cons.1 hi' with rfl | hm
              · exact b2
              · exact b4 i' hm he
          · intro he
            have := (c he).1
            omega
        · simp only [h3, if_false]
          rcases ih max best hinv with ⟨a, b, c⟩
          refine ⟨a, ?_, ?_⟩
          · intro i hi
            rcases b i hi with ⟨b1, b2, b3, b4⟩
            refine ⟨?_, b2, b3, ?_⟩
            · rcases b1 with ⟨x, y⟩ | x
              · exact Or.inl ⟨List.mem_cons_of_mem _ x, y⟩
              · exact Or.inr x
            · intro i' hi' he
              rcases List.mem_cons.1 hi' with rfl | hm
              · omega
              · exact b4 i' hm he
          · intro he
            rcases c he with ⟨c1, c2⟩
            refine ⟨c1, ?_⟩
            intro i' hi' hle
            rcases List.mem_cons.1 hi' with rfl | hm
            · omega
            · exact c2 i' hm hle

theorem bestLoop_first (dirs : List Direction) (rest : List QuadIndex) :
    ∀ (max : Nat) (best : QuadIndex), max < dirs.length →
      ∀ ind, bestLoop dirs rest max best = [ind] →
        (ind = best ∧ 0 < max) ∨
        ∃ pre post, rest = pre ++ ind :: post ∧ max < matchLoop dirs ind.Dirs 0 0 ∧
          ∀ i ∈ pre, dirs.length ≤ i.Dirs.length →
            matchLoop dirs i.Dirs 0 0 < matchLoop dirs ind.Dirs 0 0 := by
  induction rest with
  | nil =>
    intro max best _ ind h
    simp only [bestLoop] at h
    by_cases h0 : max = 0
    · simp [h0] at h
    · simp only [h0, if_false, List.cons.injEq, and_true] at h
      exact Or.inl ⟨h.symm, Nat.pos_of_ne_zero h0⟩
  | cons x rest ih =>
    intro max best hmax ind h
    simp only [bestLoop] at h
    have hle := matchLoop_le dirs x.Dirs
    -- every case but the exact match goes on with the rest of the list
    have step : ∀ (max' : Nat) (best' : QuadIndex), max' < dirs.length → max ≤ max' →
        (dirs.length ≤ x.Dirs.length → matchLoop dirs x.Dirs 0 0 ≤ max') →
        ((best' = best ∧ max' = max) ∨ (best' = x ∧ max' = matchLoop dirs x.Dirs 0 0 ∧
          max < max')) →
        bestLoop dirs rest max' best' = [ind] →
        (ind = best ∧ 0 < max) ∨
        ∃ pre post, x :: rest = pre ++ ind :: post ∧ max < matchLoop dirs ind.Dirs 0 0 ∧
          ∀ i ∈ pre, dirs.length ≤ i.Dirs.length →
            matchLoop dirs i.Dirs 0 0 < matchLoop dirs ind.Dirs 0 0 := by
      intro max' best' hm' hmm hx hb h'
      rcases ih max' best' hm' ind h' with ⟨e1, e2⟩ | ⟨pre, post, e1, e2, e3⟩
      · rcases hb with ⟨b1, b2⟩ | ⟨b1, b2, b3⟩
        · left
          exact ⟨e1.trans b1, by omega⟩
        · right
          refine ⟨[], rest, by rw [e1, b1]; rfl, by rw [e1, b1]; omega, by simp⟩
      · right
        refine ⟨x :: pre, post, by rw [e1]; rfl, by omega, ?_⟩
        intro i hi he
        rcases List.mem_cons.1 hi with rfl | hi
        · have := hx he
          omega
        · exact e3 i hi he
    by_cases h1 : x.Dirs.length < dirs.length
    · simp only [h1, if_true] at h
      exact step max best hmax (le_refl _) (fun he => by omega) (Or.inl ⟨rfl, rfl⟩) h
    · simp only [h1, if_false] at h
      by_cases h2 : matchLoop dirs x.Dirs 0 0 = dirs.length
      · simp only [h2, if_true, List.cons.injEq, and_true] at h
        subst h
        right
        exact ⟨[], rest, rfl, by omega, by simp⟩
      · simp only [h2, if_false] at h
        by_cases h3 : matchLoop dirs x.Dirs 0 0 > 0 ∧ matchLoop dirs x.Dirs 0 0 > max
        · simp only [h3, and_self, if_true] at h
          exact step _ x (by omega) (by omega) (fun _ => le_refl _)
            (Or.inr ⟨rfl, rfl, h3.2⟩) h
        · simp only [h3, if_false] at h
          exact step max best hmax (le_refl _) (fun _ => by omega) (Or.inl ⟨rfl, rfl⟩) h

theorem bestLoop_exact (dirs : List Direction) (ind : QuadIndex) (post : List QuadIndex)
    (he : dirs.length ≤ ind.Dirs.length) (hm : matchLoop dirs ind.Dirs 0 0 = dirs.length)
    (pre : List QuadIndex) :
    ∀ (max : Nat) (best : QuadIndex),
      (∀ i ∈ pre, dirs.length ≤ i.Dirs.length → matchLoop dirs i.Dirs 0 0 ≠ dirs.length) →
      bestLoop dirs (pre ++ ind :: post) max best = [ind] := by
  induction pre with
  | nil =>
    intro max best _
    have h1 : ¬ ind.Dirs.length < dirs.length := by omega
    simp [bestLoop, h1, hm]
  | cons x pre ih =>
    intro max best hpre
    have hpre' : ∀ i ∈ pre, dirs.length ≤ i.Dirs.length →
        matchLoop dirs i.Dirs 0 0 ≠ dirs.length :=
      fun i hi => hpre i (List.mem_cons_of_mem _ hi)
    simp only [List.cons_append, bestLoop]
    by_cases h1 : x.Dirs.length < dirs.length
    · simp only [h1, if_true]
      exact ih max best hpre'
    · simp only [h1, if_false]
      have h2 := hpre x (List.mem_cons_self _ _) (by omega)
      simp only [h2, if_false]
      split
      · exact ih _ x hpre'
      · exact ih max best hpre'

theorem takeWhile_length_eq_iff {α : Type} (p : α → Bool) (l : List α) :
    (l.takeWhile p).length = l.length ↔ ∀ x ∈ l, p x = true := by
  induction l with
  | nil => simp
  | cons a l ih =>
    by_cases h : p a = true
    · simp [List.takeWhile_cons, h, ih]
    · simp [List.takeWhile_cons, h]

/-- C27: with the legacy indexes `[Subject]` and `[Object]` and the constrained directions
`Subject` and `Predicate`, `bestIndexes` returns no index although the first direction of the
index `[Subject]` is constrained. -/
theorem bestIndexes_skips_short_index :
    bestIndexes legacyQuadIndexes [.Subject, .Predicate] = [] ∧
      (∃ ind ∈ legacyQuadIndexes, ∃ d rest, ind.Dirs = d :: rest ∧
        d ∈ [Direction.Subject, Direction.Predicate]) := by
  refine ⟨by decide, ⟨[.Subject], false⟩, by decide, .Subject, [], rfl, by decide⟩

/-- C27: for every list `all` of configured indexes and every non-empty list `dirs` of
constrained directions, `bestIndexes` returns at most one index; an index it returns is a
configured index with at least `len(dirs)` directions whose leading directions match at least
one and at least as many members of `dirs` as those of every configured index with at least
`len(dirs)` directions (the number of matches being the number of leading directions, among
the first `len(dirs)`, that belong to `dirs`), and it is the first such index of `all`: every
index of that length before it matches fewer; an index with at least `len(dirs)` directions
whose first `len(dirs)` directions all belong to `dirs` is returned at once, whatever comes
after it, when no index of that length before it is such a one; and it returns no index
exactly when no configured index with at least `len(dirs)` directions has its first direction
in `dirs`. -/
theorem bestIndexes_spec (all : List QuadIndex) (dirs : List Direction) (hd : dirs ≠ []) :
    (bestIndexes all dirs).length ≤ 1 ∧
      (∀ ind ∈ bestIndexes all dirs, ind ∈ all ∧ dirs.length ≤ ind.Dirs.length ∧
        0 < ((ind.Dirs.take dirs.length).takeWhile (fun d => decide (d ∈ dirs))).length ∧
        (∀ ind' ∈ all, dirs.length ≤ ind'.Dirs.length →
          ((ind'.Dirs.take dirs.length).takeWhile (fun d => decide (d ∈ dirs))).length ≤
            ((ind.Dirs.take dirs.length).takeWhile (fun d => decide (d ∈ dirs))).length) ∧
        ∃ pre post, all = pre ++ ind :: post ∧
          ∀ i ∈ pre, dirs.length ≤ i.Dirs.length →
            ((i.Dirs.take dirs.length).takeWhile (fun d => decide (d ∈ dirs))).length <
              ((ind.Dirs.take dirs.length).takeWhile (fun d => decide (d ∈ dirs))).length) ∧
      (∀ pre ind post, all = pre ++ ind :: post → dirs.length ≤ ind.Dirs.length →
        (∀ d ∈ ind.Dirs.take dirs.length, d ∈ dirs) →
        (∀ i ∈ pre, dirs.length ≤ i.Dirs.length → ∃ d ∈ i.Dirs.take dirs.length, d ∉ dirs) →
        bestIndexes all dirs = [ind]) ∧
      (bestIndexes all dirs = [] ↔
        ∀ ind ∈ all, dirs.length ≤ ind.Dirs.length →
          ¬ ∃ d rest, ind.Dirs = d :: rest ∧ d ∈ dirs) := by
  have hm : ∀ ds : List Direction, matchLoop dirs ds 0 0 =
      ((ds.take dirs.length).takeWhile (fun d => decide (d ∈ dirs))).length := by
    intro ds; rw [matchLoop_eq]; simp
  have hpos : 0 < dirs.length := List.length_pos.2 hd
  have hall : ∀ ds : List Direction, dirs.length ≤ ds.length →
      (matchLoop dirs ds 0 0 = dirs.length ↔ ∀ d ∈ ds.take dirs.length, d ∈ dirs) := by
    intro ds hle
    rw [hm]
    have hl : (ds.take dirs.length).length = dirs.length := by
      rw [List.length_take]; omega
    have := takeWhile_length_eq_iff (fun d => decide (d ∈ dirs)) (ds.take dirs.length)
    rw [hl] at this
    rw [this]
    simp
  rcases bestLoop_spec dirs hd all 0 ⟨[], false⟩ (by intro h; omega) with ⟨a, b, c⟩
  refine ⟨a, ?_, ?_, ?_, ?_⟩
  · intro ind hi
    rcases b ind hi with ⟨b1, _, b3, b4⟩
    have hone : bestIndexes all dirs = [ind] := by
      have a' : (bestIndexes all dirs).length ≤ 1 := a
      have hi' : ind ∈ bestIndexes all dirs := hi
      cases hr : bestIndexes all dirs with
      | nil => rw [hr] at hi'; cases hi'
      | cons j r =>
        rw [hr] at hi' a'
        cases r with
        | nil => simp only [List.mem_singleton] at hi'; rw [hi']
        | cons j' r' => simp at a'
    rcases b1 with ⟨x, y⟩ | ⟨_, y⟩
    · refine ⟨x, y, by rw [← hm]; exact b3, ?_, ?_⟩
      · intro i' hi' he
        rw [← hm, ← hm]
        exact b4 i' hi' he
      · rcases bestLoop_first dirs all 0 ⟨[], false⟩ hpos ind hone with
          ⟨_, h0⟩ | ⟨pre, post, e1, _, e3⟩
        · omega
        · refine ⟨pre, post, e1, ?_⟩
          intro i hi' he
          rw [← hm, ← hm]
          exact e3 i hi' he
    · omega
  · intro pre ind post hsplit hle hin hpre
    rw [hsplit]
    refine bestLoop_exact dirs ind post hle ((hall _ hle).2 hin) pre 0 ⟨[], false⟩ ?_
    intro i hi he hex
    rcases hpre i hi he with ⟨d, hd1, hd2⟩
    exact hd2 ((hall _ he).1 hex d hd1)
  · intro he ind hi hle hex
    have h0 := (c he).2 ind hi hle
    have := (matchLoop_pos_iff dirs ind.Dirs hd).2 hex
    omega
  · intro hall'
    cases hr : bestIndexes all dirs with
    | nil => rfl
    | cons i r =>
      have hmem : i ∈ bestIndexes all dirs := by rw [hr]; exact List.mem_cons_self _ _
      rcases b i hmem with ⟨b1, _, b3, _⟩
      rcases b1 with ⟨x, y⟩ | ⟨_, y⟩
      · exact absurd ((matchLoop_pos_iff dirs i.Dirs hd).1 b3) (hall' i x y)
      · omega

theorem bestIndexes_spec_witness :
    bestIndexes DefaultQuadIndexes [.Predicate, .Object] =
        [⟨[.Object, .Predicate, .Subject], false⟩] ∧
      bestIndexes twoExactIndexes [.Subject, .Predicate] =
        [⟨[.Subject, .Predicate, .Object], false⟩] ∧
      bestIndexes ([⟨[.Object], false⟩] ++ ⟨[.Subject, .Predicate, .Object], false⟩ ::
          [⟨[.Predicate, .Subject, .Label], false⟩]) [.Subject, .Predicate] =
        [⟨[.Subject, .Predicate, .Object], false⟩] :=
  ⟨by decide, by decide,
   (bestIndexes_spec
      ([⟨[.Object], false⟩] ++ ⟨[.Subject, .Predicate, .Object], false⟩ ::
          [⟨[.Predicate, .Subject, .Label], false⟩])
      [.Subject, .Predicate] (by decide)).2.2.1 [⟨[.Object], false⟩]
     ⟨[.Subject, .Predicate, .Object], false⟩ [⟨[.Predicate, .Subject, .Label], false⟩] rfl
     (by decide) (by decide) (by decide)⟩

end KV

/-! ### Persistent store: generation of ids -/

namespace KV

open Memstore

theorem PutUint64LE_spec (v : Nat) : PutUint64LE (List.replicate 8 0) v = .ok (le8 v) := by
  simp [PutUint64LE, upd, le8, bind, Except.bind, pure, Except.pure]

theorem Uint64LE_le8 (v : Nat) (hv : v < 2 ^ 64) : Uint64LE (le8 v) = .ok v := by
  simp only [le8, Uint64LE, Nat.shiftRight_eq_div_pow]
  have h0 : v % 256 < 2 ^ 8 := by norm_num; exact Nat.mod_lt _ (by decide)
  rw [lor_shiftLeft _ _ _ h0]
  have h1 : v % 256 + v / 2 ^ 8 % 256 * 2 ^ 8 < 2 ^ 16 := by norm_num; omega
  rw [lor_shiftLeft _ _ _ h1]
  have h2 : v % 256 + v / 2 ^ 8 % 256 * 2 ^ 8 + v / 2 ^ 16 % 256 * 2 ^ 16 < 2 ^ 24 := by
    norm_num; omega
  rw [lor_shiftLeft _ _ _ h2]
  have h3 : v % 256 + v / 2 ^ 8 % 256 * 2 ^ 8 + v / 2 ^ 16 % 256 * 2 ^ 16 +
      v / 2 ^ 24 % 256 * 2 ^ 24 < 2 ^ 32 := by norm_num; omega
  rw [lor_shiftLeft _ _ _ h3]
  have h4 : v % 256 + v / 2 ^ 8 % 256 * 2 ^ 8 + v / 2 ^ 16 % 256 * 2 ^ 16 +
      v / 2 ^ 24 % 256 * 2 ^ 24 + v / 2 ^ 32 % 256 * 2 ^ 32 < 2 ^ 40 := by norm_num; omega
  rw [lor_shiftLeft _ _ _ h4]
  have h5 : v % 256 + v / 2 ^ 8 % 256 * 2 ^ 8 + v / 2 ^ 16 % 256 * 2 ^ 16 +
      v / 2 ^ 24 % 256 * 2 ^ 24 + v / 2 ^ 32 % 256 * 2 ^ 32 + v / 2 ^ 40 % 256 * 2 ^ 40 <
      2 ^ 48 := by norm_num; omega
  rw [lor_shiftLeft _ _ _ h5]
  have h6 : v % 256 + v / 2 ^ 8 % 256 * 2 ^ 8 + v / 2 ^ 16 % 256 * 2 ^ 16 +
      v / 2 ^ 24 % 256 * 2 ^ 24 + v / 2 ^ 32 % 256 * 2 ^ 32 + v / 2 ^ 40 % 256 * 2 ^ 40 +
      v / 2 ^ 48 % 256 * 2 ^ 48 < 2 ^ 56 := by norm_num; omega
  rw [lor_shiftLeft _ _ _ h6]
  simp only [pure, Except.pure, Except.ok.injEq]
  norm_num at hv ⊢
  omega

end KV

namespace KV

open Memstore

theorem wrap64_id (x : Int) (h1 : -9223372036854775808 ≤ x) (h2 : x ≤ 9223372036854775807) :
    wrap64 x = x := by
  unfold wrap64; omega

theorem getMetaIntTx_err (tx : Tx) (key : String) (v : Int) (e : Option KvErr)
    (h : getMetaIntTx tx key = .ok (v, e)) : e = none ∨ (e = some .ErrNotFound ∧ v = 0) := by
  unfold getMetaIntTx at h
  split at h
  · simp only [pure_ok, Prod.mk.injEq] at h
    exact Or.inr ⟨h.2.symm, h.1.symm⟩
  · simp only [bind_ok, pure_ok, Prod.mk.injEq] at h
    obtain ⟨_, _, _, h⟩ := h
    exact Or.inl h.symm

theorem getMetaIntTx_Put (tx : Tx) (key : String) (v : Int) (h0 : 0 ≤ v)
    (h1 : v ≤ 9223372036854775807) :
    getMetaIntTx (tx.Put (metaBucket ++ [bytesOf key]) (le8 v.toNat)) key = .ok (v, none) := by
  have hv : v.toNat < 2 ^ 64 := by norm_num; omega
  have hw : wrap64 ((v.toNat : Nat) : Int) = v := by
    rw [Int.toNat_of_nonneg h0]; exact wrap64_id _ (by omega) (by omega)
  simp only [getMetaIntTx, Tx.Get, Tx.Put, mapGet_mapSet, if_true, Uint64LE_le8 _ hv, ok_bind,
    int64, hw]
  rfl

theorem Tx.Get_Put_ne (tx : Tx) (k k' : Key) (v : List Nat) (h : k' ≠ k) :
    (tx.Put k v).Get k' = tx.Get k' := by
  simp [Tx.Get, Tx.Put, mapGet_mapSet, h]

theorem genIDs_spec (tx : Tx) (h n : Int) (e : Option KvErr)
    (hget : getMetaIntTx tx "horizon" = .ok (h, e)) (hn : 0 < n) (h0 : 0 ≤ h)
    (hmax : h + n ≤ 9223372036854775807) :
    genIDs tx n = .ok (tx.Put horizonKey (le8 (h + n).toNat), (h + 1).toNat, none) := by
  have hne : ¬ n = 0 := by omega
  have he : ¬ (e ≠ none ∧ e ≠ some KvErr.ErrNotFound) := by
    rcases getMetaIntTx_err _ _ _ _ hget with h | ⟨h, _⟩ <;> simp [h]
  have hw : wrap64 (h + n) = h + n := wrap64_id _ (by omega) (by omega)
  have hw1 : wrap64 (h + 1) = h + 1 := wrap64_id _ (by omega) (by omega)
  have hu : uint64 (h + n) = (h + n).toNat := by unfold uint64; omega
  have hu1 : uint64 (h + 1) = (h + 1).toNat := by unfold uint64; omega
  simp only [genIDs, hne, if_false, incMetaInt, hget, ok_bind, he, hw, hu, PutUint64LE_spec,
    horizonKey, pure_bind_M, hw1, hu1]
  rfl

end KV

namespace KV

open Memstore

theorem genIDsSeq_spec (ns : List Int) :
    ∀ (tx : Tx) (h : Int) (e : Option KvErr), getMetaIntTx tx "horizon" = .ok (h, e) →
      (∀ n ∈ ns, 0 < n) → 0 ≤ h → h + ns.sum ≤ 9223372036854775807 →
      ∃ tx' starts e', genIDsSeq ns tx = .ok (tx', starts) ∧
        (∀ i, i < ns.length → starts[i]? = some (h + (ns.take i).sum + 1).toNat) ∧
        starts.length = ns.length ∧
        getMetaIntTx tx' "horizon" = .ok (h + ns.sum, e') ∧
        ∀ k, k ≠ horizonKey → tx'.Get k = tx.Get k := by
  induction ns with
  | nil =>
    intro tx h e hget _ _ _
    exact ⟨tx, [], e, rfl, by simp, rfl, by simpa using hget, fun _ _ => rfl⟩
  | cons n ns ih =>
    intro tx h e hget hpos h0 hmax
    have hn : 0 < n := hpos n (List.mem_cons_self _ _)
    have hpos' : ∀ m ∈ ns, 0 < m := fun m hm => hpos m (List.mem_cons_of_mem _ hm)
    have hsum : 0 ≤ ns.sum := List.sum_nonneg (fun m hm => le_of_lt (hpos' m hm))
    rw [List.sum_cons] at hmax
    have h1 := genIDs_spec tx h n e hget hn h0 (by omega)
    have h2 := getMetaIntTx_Put tx "horizon" (h + n) (by omega) (by omega)
    rcases ih _ (h + n) none h2 hpos' (by omega) (by omega) with ⟨tx', starts, e', r1, r2, r3, r4, r5⟩
    refine ⟨tx', (h + 1).toNat :: starts, e', ?_, ?_, ?_, ?_, ?_⟩
    · simp only [genIDsSeq, h1, ok_bind]
      rw [show horizonKey = metaBucket ++ [bytesOf "horizon"] from rfl, r1]
      rfl
    · intro i hi
      cases i with
      | zero => simp
      | succ j =>
        simp only [List.length_cons, Nat.add_lt_add_iff_right] at hi
        simp only [List.getElem?_cons_succ, List.take_succ_cons, List.sum_cons, r2 j hi]
        congr 2
        ring
    · simp [r3]
    · rw [r4, List.sum_cons]
      congr 2
      ring
    · intro k hk
      rw [r5 k hk]
      exact Tx.Get_Put_ne tx _ _ _ hk

set_option maxRecDepth 1000000 in
/-- C25: with the horizon at the greatest `int64`, `genIDs(1)` returns the id `2^63` and leaves
a horizon that reads as the least `int64`, not as the last id issued; with the horizon at `-2`,
two calls of `genIDs(1)` return `2^64 - 1` and then `0`, so the later id is not the greater. -/
theorem genIDs_wraps_around :
    scenarioHorizonMax =
        .ok (9223372036854775807, 9223372036854775808, -9223372036854775808) ∧
      scenarioHorizonNeg = .ok (-2, [18446744073709551615, 0]) := by
  decide!

/-- C25: for a key-value engine whose horizon metadata holds `h` (`0` when it is absent), with
`0 <= h`, and calls of `genIDs` with counts `n_1, ..., n_m`, all positive, such that
`h + n_1 + ... + n_m` is an `int64`: every call returns without error, the call `i` returns
the horizon before it plus one, that is `h + n_1 + ... + n_(i-1) + 1`, so that its ids follow
the ids of the earlier calls without a gap; after the calls the horizon holds
`h + n_1 + ... + n_m`, the last id issued, and no other key of the engine has changed. -/
theorem genIDs_contiguous (ns : List Int) (tx : Tx) (h : Int) (e : Option KvErr)
    (hget : getMetaIntTx tx "horizon" = .ok (h, e)) (hpos : ∀ n ∈ ns, 0 < n) (h0 : 0 ≤ h)
    (hmax : h + ns.sum ≤ 9223372036854775807) :
    ∃ tx' starts e', genIDsSeq ns tx = .ok (tx', starts) ∧
      (∀ i, i < ns.length → starts[i]? = some (h + (ns.take i).sum + 1).toNat) ∧
      starts.length = ns.length ∧
      getMetaIntTx tx' "horizon" = .ok (h + ns.sum, e') ∧
      ∀ k, k ≠ horizonKey → tx'.Get k = tx.Get k :=
  genIDsSeq_spec ns tx h e hget hpos h0 hmax

theorem genIDs_contiguous_witness :
    getMetaIntTx ⟨[]⟩ "horizon" = .ok (0, some .ErrNotFound) ∧
    ∃ tx' starts e', genIDsSeq [3, 2, 5] ⟨[]⟩ = .ok (tx', starts) ∧
      (∀ i, i < [(3 : Int), 2, 5].length →
        starts[i]? = some (0 + (([3, 2, 5] : List Int).take i).sum + 1).toNat) ∧
      starts.length = [(3 : Int), 2, 5].length ∧
      getMetaIntTx tx' "horizon" = .ok (0 + ([3, 2, 5] : List Int).sum, e') ∧
      ∀ k, k ≠ horizonKey → tx'.Get k = (⟨[]⟩ : Tx).Get k :=
  ⟨rfl, genIDs_contiguous [3, 2, 5] ⟨[]⟩ 0 (some .ErrNotFound) rfl (by decide) (by decide)
    (by decide)⟩

end KV

/-! ### Persistent store: the existence check -/

namespace KV

open Memstore

theorem uint64KeyBytes_spec (x : Nat) : uint64KeyBytes x = .ok [be8 x] := by
  have := PutUint64_spec [] [] 0 0 0 0 0 0 0 0 x
  simp only [List.nil_append, List.append_nil, List.length_nil] at this
  simp only [uint64KeyBytes]
  rw [show List.replicate 8 0 = [0, 0, 0, 0, 0, 0, 0, 0] from rfl, this]
  rfl

theorem getPrimitiveFromLog_some (qs : QuadStore) (tx : Tx) (k : Nat) (prim : Primitive)
    (e : Option KvErr) (h : qs.getPrimitiveFromLog tx k = .ok (some prim, e)) :
    ∃ v, tx.Get (logIndex ++ [be8 k]) = some v ∧ qs.unmarshal v = some prim := by
  simp only [QuadStore.getPrimitiveFromLog, uint64KeyBytes_spec, ok_bind, Tx.GetBatch,
    List.map_cons, List.map_nil] at h
  cases hg : tx.Get (logIndex ++ [be8 k]) with
  | none =>
    rw [hg] at h
    simp [pure, Except.pure] at h
  | some v =>
    rw [hg] at h
    refine ⟨v, rfl, ?_⟩
    cases hu : qs.unmarshal v with
    | none =>
      simp only [hu] at h
      simp [pure, Except.pure] at h
    | some p =>
      simp only [hu] at h
      simp only [pure, Except.pure, Except.ok.injEq, Prod.mk.injEq, Option.some.injEq] at h
      rw [h.1]

theorem probe_some (qs : QuadStore) (tx : Tx) (p : Primitive) (options : List Nat) :
    ∀ (prim : Primitive) (e : Option KvErr), qs.probe tx p options = .ok (some prim, e) →
      ∃ id ∈ options, ∃ v, tx.Get (logIndex ++ [be8 id]) = some v ∧
        qs.unmarshal v = some prim ∧ prim.Deleted = false ∧ prim.IsSameLink p = true := by
  induction options with
  | nil =>
    intro prim e h
    simp [QuadStore.probe, pure, Except.pure] at h
  | cons o rest ih =>
    intro prim e h
    simp only [QuadStore.probe, bind_ok] at h
    obtain ⟨⟨pr, er⟩, hg, h⟩ := h
    cases er with
    | some e' => simp [pure, Except.pure] at h
    | none =>
      cases pr with
      | none => simp [throw, throwThe, MonadExceptOf.throw] at h
      | some q =>
        simp only [] at h
        by_cases hd : q.Deleted = true
        · simp only [hd, if_true] at h
          rcases ih prim e h with ⟨id, hm, r⟩
          exact ⟨id, List.mem_cons_of_mem _ hm, r⟩
        · simp only [hd, if_false] at h
          by_cases hs : q.IsSameLink p = true
          · simp only [hs, if_true, pure, Except.pure, Except.ok.injEq, Prod.mk.injEq,
              Option.some.injEq] at h
            obtain ⟨rfl, _⟩ := h
            rcases getPrimitiveFromLog_some qs tx o prim none hg with ⟨v, h1, h2⟩
            exact ⟨o, List.mem_cons_self _ _, v, h1, h2, by simpa using hd, hs⟩
          · simp only [hs, if_false] at h
            rcases ih prim e h with ⟨id, hm, r⟩
            exact ⟨id, List.mem_cons_of_mem _ hm, r⟩

theorem bestUnique_mem (qs : QuadStore) :
    qs.bestUnique.1.unmarshal = qs.unmarshal ∧
      ∀ i ∈ qs.bestUnique.2.1, i ∈ qs.all ∨ i ∈ qs.exist := by
  unfold QuadStore.bestUnique
  split
  · exact ⟨rfl, fun i hi => Or.inr hi⟩
  · split
    · rename_i i hf
      refine ⟨rfl, fun j hj => ?_⟩
      simp only [List.mem_singleton] at hj
      subst hj
      exact Or.inl (List.mem_of_find?_eq_some hf)
    · split
      · exact ⟨rfl, fun i hi => by simp at hi⟩
      · exact ⟨rfl, fun i hi => Or.inl hi⟩

set_option maxRecDepth 100000 in
/-- C26: with one unique index, the existence filter switched off and an empty key-value
engine, `hasPrimitive(p, false)` returns the candidate `p` although the log holds no
primitive. -/
theorem hasPrimitive_reports_absent_quad :
    scenarioUnique = .ok (some ⟨0, 1, 2, 3, 0, 0, false, []⟩, none, [none, none, none, none]) := by
  decide!

/-- C26: for every index configuration, filter and candidate `p`, when `get` is set or no
configured index is unique: a primitive returned by `hasPrimitive(p, get)` was read and decoded
from the log, is not deleted, and its subject, predicate, object and label ids equal those of
`p`; this holds whatever the existence filter answers. -/
theorem hasPrimitive_sound (pre : Direction → Nat) (qs qs' : QuadStore) (tx : Tx)
    (p prim : Primitive) (get : Bool) (e : Option KvErr)
    (h : qs.hasPrimitive pre tx p get = .ok (qs', some prim, e))
    (hu : get = true ∨ ∀ i, i ∈ qs.all ∨ i ∈ qs.exist → i.Unique = false) :
    ∃ id v, tx.Get (logIndex ++ [be8 id]) = some v ∧ qs.unmarshal v = some prim ∧
      prim.Deleted = false ∧ prim.IsSameLink p = true := by
  simp only [QuadStore.hasPrimitive, bind_ok] at h
  obtain ⟨b, _, h⟩ := h
  cases b with
  | false => simp [pure, Except.pure] at h
  | true =>
    simp only [Bool.not_true, Bool.false_eq_true, if_false] at h
    have hm := bestUnique_mem qs
    rcases hb : qs.bestUnique with ⟨qs1, inds, err⟩
    rw [hb] at h hm
    simp only at h hm
    cases err with
    | some e' => simp [pure, Except.pure] at h
    | none =>
      simp only [bind_ok] at h
      obtain ⟨keys, _, ⟨lists, err2⟩, _, h⟩ := h
      cases err2 with
      | some e' => simp [pure, Except.pure] at h
      | none =>
        simp only at h
        have hnu : ¬ (((!get) = true) ∧ (inds.length ≠ 0 ∧
            (inds.head?.map (fun i => i.Unique)) = some true)) := by
          rintro ⟨hg, _, hh⟩
          rcases hu with hu | hu
          · simp [hu] at hg
          · cases inds with
            | nil => simp at hh
            | cons i rest =>
              simp only [List.head?_cons, Option.map_some', Option.some.injEq] at hh
              have := hu i (hm.2 i (List.mem_cons_self _ _))
              rw [this] at hh
              exact absurd hh (by decide)
        rw [if_neg hnu] at h
        simp only [bind_ok, pure_ok, Prod.mk.injEq] at h
        obtain ⟨⟨pr, er⟩, hp, _, h2, _⟩ := h
        simp only at h2
        subst h2
        rcases probe_some qs1 tx p _ prim er hp with ⟨id, _, v, r1, r2, r3, r4⟩
        rw [hm.1] at r2
        exact ⟨id, v, r1, r2, r3, r4⟩

end KV

namespace KV

open Memstore

set_option maxRecDepth 100000 in
theorem hasPrimitive_sound_witness :
    ∃ id v, plainTx.Get (logIndex ++ [be8 id]) = some v ∧ plainStore.unmarshal v = some primFive ∧
      primFive.Deleted = false ∧ primFive.IsSameLink ⟨0, 1, 2, 3, 0, 0, false, []⟩ = true :=
  hasPrimitive_sound (fun _ => 115) plainStore { plainStore with exist := plainStore.all } plainTx
    ⟨0, 1, 2, 3, 0, 0, false, []⟩ primFive true none (by rfl) (Or.inl rfl)

end KV

/-! ### Persistent store: flush of the write buffer -/

namespace KV

open Memstore

theorem uvarintLoop_append (b rest : List Nat) :
    ∀ (i x s : Nat) (v : Nat) (n : Int), uvarintLoop b i x s = (v, n) → n ≠ 0 →
      uvarintLoop (b ++ rest) i x s = (v, n) := by
  induction b with
  | nil =>
    intro i x s v n h hn
    simp only [uvarintLoop, Prod.mk.injEq] at h
    exact absurd h.2.symm hn
  | cons c b ih =>
    intro i x s v n h hn
    simp only [List.cons_append, uvarintLoop] at h ⊢
    split
    · rename_i h1
      simpa [h1] using h
    · rename_i h1
      simp only [h1, if_false] at h
      split
      · rename_i h2
        simpa [h2] using h
      · rename_i h2
        simp only [h2, if_false] at h
        exact ih _ _ _ _ _ h hn

theorem decodeLoop_append (rest : List Nat) (fuel : Nat) :
    ∀ (b out old : List Nat), decodeLoop fuel b out = .ok (old, none) →
      ∀ fuel2, (b ++ rest).length < fuel2 →
        ∃ fuel3, rest.length < fuel3 ∧
          decodeLoop fuel2 (b ++ rest) out = decodeLoop fuel3 rest old := by
  induction fuel with
  | zero => intro b out old h; simp [decodeLoop, throw, throwThe, MonadExceptOf.throw] at h
  | succ f ih =>
    intro b out old h fuel2 hf
    cases b with
    | nil =>
      simp only [decodeLoop, List.length_nil, gt_iff_lt, lt_self_iff_false, if_false, pure_ok,
        Prod.mk.injEq, and_true] at h
      subst h
      exact ⟨fuel2, by simpa using hf, rfl⟩
    | cons c b =>
      cases fuel2 with
      | zero => simp at hf
      | succ f2 =>
        have hpos : (c :: b).length > 0 := by simp
        have hpos2 : (c :: b ++ rest).length > 0 := by simp
        simp only [decodeLoop, hpos, if_true] at h
        rcases hU : Uvarint (c :: b) with ⟨v, n⟩
        rw [hU] at h
        simp only at h
        by_cases hn0 : n = 0
        · simp [hn0, pure, Except.pure] at h
        · by_cases hn1 : n < 0
          · simp [hn0, hn1, pure, Except.pure] at h
          · simp only [hn0, hn1, if_false, bind_ok] at h
            obtain ⟨b', hs, h⟩ := h
            have hU2 : Uvarint (c :: b ++ rest) = (v, n) := by
              unfold Uvarint at hU ⊢
              exact uvarintLoop_append _ _ _ _ _ _ _ hU hn0
            have hnn : 0 ≤ n := by omega
            obtain ⟨k, hk⟩ : ∃ k : Nat, n = (k : Int) := ⟨n.toNat, by omega⟩
            subst hk
            have hkl : k ≤ (c :: b).length := by
              unfold Memstore.slice at hs
              split at hs
              · rename_i hc; omega
              · simp [throw, throwThe, MonadExceptOf.throw] at hs
            rw [slice_ok _ _ _ hkl (le_refl _)] at hs
            have hb' : b' = (c :: b).drop k := by
              have := Except.ok.inj hs
              rw [← this, List.take_of_length_le (by simp)]
            have hs2 := slice_ok (c :: b ++ rest) k (c :: b ++ rest).length
              (by simp only [List.length_append] at *; omega) (le_refl _)
            have hd : ((c :: b ++ rest).drop k).take ((c :: b ++ rest).length - k) =
                b' ++ rest := by
              rw [List.take_of_length_le (by simp), hb', List.drop_append_of_le_length hkl]
            rw [hd] at hs2
            have hk0 : 0 < k := by omega
            have hlen : (b' ++ rest).length < f2 := by
              rw [hb']
              simp only [List.length_append, List.length_drop, List.length_cons] at hf ⊢
              omega
            rcases ih b' (out ++ [v]) old h f2 hlen with ⟨f3, h3, h4⟩
            refine ⟨f3, h3, ?_⟩
            simp only [decodeLoop, hpos2, if_true, hU2, hn0, hn1, if_false]
            rw [hs2, ok_bind, h4]

theorem decodeIndex_append (b old l : List Nat) (hb : decodeIndex b = .ok (old, none))
    (hl : ∀ x ∈ l, x < 2 ^ 64) : decodeIndex (b ++ l.flatMap enc) = .ok (old ++ l, none) := by
  unfold decodeIndex at hb ⊢
  rcases decodeLoop_append (l.flatMap enc) _ b [] old hb _ (Nat.lt_succ_self _) with
    ⟨f3, h3, h4⟩
  rw [h4]
  exact decodeLoop_spec l f3 old hl h3

end KV

namespace KV

open Memstore

theorem Tx.Get_Put (tx : Tx) (k k' : Key) (v : List Nat) :
    (tx.Put k v).Get k' = if k' = k then some v else tx.Get k' := by
  simp [Tx.Get, Tx.Put, mapGet_mapSet]

theorem idsOk_getD {m : List (List Nat × List Nat)} (h : idsOk m) (k : List Nat) :
    ∀ x ∈ (mapGet m k).getD [], x < 2 ^ 64 := by
  intro x hx
  cases hg : mapGet m k with
  | none => simp [hg] at hx
  | some l =>
    rw [hg] at hx
    exact h k l hg x hx

theorem putNew_spec (m : List (List Nat × List Nat)) (hm : idsOk m) (bucket : List Nat)
    (ks : List Key) :
    ∀ (tx : Tx) (bloom : Option Bloom), (∀ key ∈ ks, ∃ k1, key = [bucket, k1]) →
      ∃ tx' bloom', putNew m ks tx bloom = .ok (tx', bloom') ∧
        bloom'.isSome = bloom.isSome ∧
        ∀ key, tx'.Get key = if key ∈ ks then some (encOf m key) else tx.Get key := by
  induction ks with
  | nil => intro tx bloom _; exact ⟨tx, bloom, rfl, rfl, fun _ => by simp⟩
  | cons k ks ih =>
    intro tx bloom hk
    rcases hk k (List.mem_cons_self _ _) with ⟨k1, rfl⟩
    have hidx : idx [bucket, k1] 1 = .ok k1 := rfl
    have happ := appendIndex_spec [] ((mapGet m k1).getD []) (idsOk_getD hm k1)
    rcases ih (tx.Put [bucket, k1] ([] ++ ((mapGet m k1).getD []).flatMap enc))
      (bloom.map (fun f => f.Add k1)) (fun key hkey => hk key (List.mem_cons_of_mem _ hkey))
      with ⟨tx', bloom', h1, h2, h3⟩
    refine ⟨tx', bloom', ?_, ?_, ?_⟩
    · simp only [putNew, hidx, ok_bind, happ]
      exact h1
    · rw [h2]; cases bloom <;> rfl
    · intro key
      rw [h3 key, Tx.Get_Put]
      by_cases hin : key ∈ ks
      · simp [hin]
      · by_cases he : key = [bucket, k1]
        · subst he
          simp [encOf]
        · simp [hin, he]

theorem putOld_spec (m : List (List Nat × List Nat)) (hm : idsOk m) (bucket : List Nat)
    (g : Key → Option (List Nat)) (ks : List Key) :
    ∀ (tx : Tx) (bloom : Option Bloom), (∀ key ∈ ks, ∃ k1, key = [bucket, k1]) →
      ∃ tx' bloom', putOld m ks (ks.map g) tx bloom = .ok (tx', bloom') ∧
        bloom'.isSome = bloom.isSome ∧
        ∀ key, tx'.Get key =
          if key ∈ ks then some ((g key).getD [] ++ encOf m key) else tx.Get key := by
  induction ks with
  | nil => intro tx bloom _; exact ⟨tx, bloom, rfl, rfl, fun _ => by simp⟩
  | cons k ks ih =>
    intro tx bloom hk
    rcases hk k (List.mem_cons_self _ _) with ⟨k1, rfl⟩
    have hidx : idx [bucket, k1] 1 = .ok k1 := rfl
    have happ := appendIndex_spec ((g [bucket, k1]).getD []) ((mapGet m k1).getD [])
      (idsOk_getD hm k1)
    rcases ih (tx.Put [bucket, k1]
        ((g [bucket, k1]).getD [] ++ ((mapGet m k1).getD []).flatMap enc))
      (bloom.map (fun f => f.Add k1)) (fun key hkey => hk key (List.mem_cons_of_mem _ hkey))
      with ⟨tx', bloom', h1, h2, h3⟩
    refine ⟨tx', bloom', ?_, ?_, ?_⟩
    · simp only [List.map_cons, putOld, hidx, ok_bind, happ]
      exact h1
    · rw [h2]; cases bloom <;> rfl
    · intro key
      rw [h3 key, Tx.Get_Put]
      by_cases hin : key ∈ ks
      · simp [hin]
      · by_cases he : key = [bucket, k1]
        · subst he
          simp [encOf]
        · simp [hin, he]

theorem splitKeys_mem (qs : QuadStore) (bloom : Option Bloom) (bucket : List Nat)
    (m : List (List Nat × List Nat)) (key : Key) :
    (key ∈ (qs.splitKeys bloom [bucket] m).1 ↔
        ∃ k, k ∈ m.map Prod.fst ∧ key = [bucket, k] ∧ qs.skipsGet bloom k = false) ∧
      (key ∈ (qs.splitKeys bloom [bucket] m).2 ↔
        ∃ k, k ∈ m.map Prod.fst ∧ key = [bucket, k] ∧ qs.skipsGet bloom k = true) := by
  induction m with
  | nil => simp [QuadStore.splitKeys]
  | cons e m ih =>
    rcases e with ⟨k0, l0⟩
    simp only [QuadStore.splitKeys]
    rcases hs : qs.splitKeys bloom [bucket] m with ⟨keys, keysPut⟩
    rw [hs] at ih
    simp only at ih
    by_cases hp : qs.skipsGet bloom k0 = true
    · simp only [hp, if_true, List.map_cons, List.mem_cons]
      constructor
      · rw [ih.1]
        constructor
        · rintro ⟨k, h1, h2, h3⟩; exact ⟨k, Or.inr h1, h2, h3⟩
        · rintro ⟨k, h1 | h1, h2, h3⟩
          · subst h1; rw [hp] at h3; exact absurd h3 (by decide)
          · exact ⟨k, h1, h2, h3⟩
      · rw [ih.2]
        constructor
        · rintro (h | ⟨k, h1, h2, h3⟩)
          · exact ⟨k0, Or.inl rfl, h, hp⟩
          · exact ⟨k, Or.inr h1, h2, h3⟩
        · rintro ⟨k, h1 | h1, h2, h3⟩
          · subst h1; exact Or.inl h2
          · exact Or.inr ⟨k, h1, h2, h3⟩
    · have hp' : qs.skipsGet bloom k0 = false := by simpa using hp
      simp only [hp', Bool.false_eq_true, if_false, List.map_cons, List.mem_cons]
      constructor
      · rw [ih.1]
        constructor
        · rintro (h | ⟨k, h1, h2, h3⟩)
          · exact ⟨k0, Or.inl rfl, h, hp'⟩
          · exact ⟨k, Or.inr h1, h2, h3⟩
        · rintro ⟨k, h1 | h1, h2, h3⟩
          · subst h1; exact Or.inl h2
          · exact Or.inr ⟨k, h1, h2, h3⟩
      · rw [ih.2]
        constructor
        · rintro ⟨k, h1, h2, h3⟩; exact ⟨k, Or.inr h1, h2, h3⟩
        · rintro ⟨k, h1 | h1, h2, h3⟩
          · subst h1; rw [hp'] at h3; exact absurd h3 (by decide)
          · exact ⟨k, h1, h2, h3⟩

theorem mem_sortKeys (l : List Key) (k : Key) : k ∈ sortKeys l ↔ k ∈ l :=
  (List.perm_insertionSort _ l).mem_iff

theorem mem_sortStrings (l : List (List Nat)) (k : List Nat) : k ∈ sortStrings l ↔ k ∈ l :=
  (List.perm_insertionSort _ l).mem_iff

end KV

namespace KV

open Memstore

theorem mapGet_mapSet_ne {κ β : Type} [DecidableEq κ] (m : List (κ × β)) (k k' : κ) (v : β)
    (h : k' ≠ k) : mapGet (mapSet m k v) k' = mapGet m k' := by
  rw [mapGet_mapSet, if_neg h]

theorem flushBucket_spec (qs : QuadStore) (tx : Tx) (bucket : List Nat)
    (hm : idsOk ((mapGet (qs.mapBucket.getD []) bucket).getD []))
    (hb : ∀ k ∈ ((mapGet (qs.mapBucket.getD []) bucket).getD []).map Prod.fst,
      qs.skipsGet (qs.mapBloom.bind (fun mb => mapGet mb bucket)) k = true →
        tx.Get [bucket, k] = none) :
    ∃ qs' tx', qs.flushBucket tx bucket = .ok (qs', tx') ∧ qs'.mapBucket = qs.mapBucket ∧
      qs'.mapBloom.isSome = qs.mapBloom.isSome ∧
      (∀ b', b' ≠ bucket →
        qs'.mapBloom.bind (fun mb => mapGet mb b') = qs.mapBloom.bind (fun mb => mapGet mb b')) ∧
      (∀ k ∈ ((mapGet (qs.mapBucket.getD []) bucket).getD []).map Prod.fst,
        tx'.Get [bucket, k] = some ((tx.Get [bucket, k]).getD [] ++
          encOf ((mapGet (qs.mapBucket.getD []) bucket).getD []) [bucket, k])) ∧
      (∀ key, (∀ k ∈ ((mapGet (qs.mapBucket.getD []) bucket).getD []).map Prod.fst,
        key ≠ [bucket, k]) → tx'.Get key = tx.Get key) := by
  generalize hmd : (mapGet (qs.mapBucket.getD []) bucket).getD [] = m at hm hb
  generalize hbl : qs.mapBloom.bind (fun mb => mapGet mb bucket) = bloom at hb
  unfold QuadStore.flushBucket
  simp only [hmd, hbl]
  by_cases h0 : m.length = 0
  · have : m = [] := List.length_eq_zero.1 h0
    subst this
    exact ⟨qs, tx, by simp; rfl, rfl, rfl, fun _ _ => rfl, by simp, fun _ _ => rfl⟩
  · simp only [h0, if_false]
    have hsplit := splitKeys_mem qs bloom bucket m
    rcases hs : qs.splitKeys bloom [bucket] m with ⟨keys, keysPut⟩
    rw [hs] at hsplit
    simp only at hsplit
    have hF : ∃ F : Option Bloom → QuadStore, F = fun bl =>
        (match qs.mapBloom, bl with
          | some mb, some f => { qs with mapBloom := some (mapSet mb bucket f) }
          | _, _ => qs) := ⟨_, rfl⟩
    rcases hF with ⟨F, hF⟩
    have hkP : ∀ key ∈ sortKeys keysPut, ∃ k1, key = [bucket, k1] := by
      intro key hk
      rw [mem_sortKeys] at hk
      rcases ((hsplit key).2).1 hk with ⟨k, _, h2, _⟩
      exact ⟨k, h2⟩
    have hkO : ∀ key ∈ sortKeys keys, ∃ k1, key = [bucket, k1] := by
      intro key hk
      rw [mem_sortKeys] at hk
      rcases ((hsplit key).1).1 hk with ⟨k, _, h2, _⟩
      exact ⟨k, h2⟩
    generalize hbl2 : (if qs.mapBloom.isSome = true ∧ bloom.isNone = true
      then some ({ Test := fun _ => false } : Bloom) else bloom) = bloom2
    rcases putNew_spec m hm bucket (sortKeys keysPut) tx bloom2 hkP with ⟨tx1, bl1, p1, p2, p3⟩
    rcases putOld_spec m hm bucket tx.Get (sortKeys keys) tx1 bl1 hkO with ⟨tx2, bl2, q1, q2, q3⟩
    refine ⟨F bl2, tx2, ?_, ?_, ?_, ?_, ?_, ?_⟩
    · simp only [Tx.GetBatch]
      rw [p1, ok_bind]
      simp only []
      rw [q1, ok_bind, hF]
      rfl
    · rw [hF]; cases hq : qs.mapBloom <;> cases bl2 <;> rfl
    · rw [hF]; cases hq : qs.mapBloom <;> cases bl2 <;> simp [hq]
    · intro b' hne
      rw [hF]
      cases hq : qs.mapBloom with
      | none => cases bl2 <;> simp [hq]
      | some mb =>
        cases bl2 with
        | none => simp [hq]
        | some f =>
          simp only [Option.bind]
          exact mapGet_mapSet_ne _ _ _ _ hne
    · intro k hk
      rw [q3, p3]
      by_cases hsk : qs.skipsGet bloom k = true
      · have hin : [bucket, k] ∈ sortKeys keysPut := by
          rw [mem_sortKeys]; exact ((hsplit _).2).2 ⟨k, hk, rfl, hsk⟩
        have hnin : [bucket, k] ∉ sortKeys keys := by
          rw [mem_sortKeys]
          intro hc
          rcases ((hsplit _).1).1 hc with ⟨k', _, h2, h3⟩
          have : k = k' := by simpa using h2
          subst this
          rw [hsk] at h3
          exact absurd h3 (by decide)
        simp [hin, hnin, hb k hk hsk]
      · have hsk' : qs.skipsGet bloom k = false := by simpa using hsk
        have hin : [bucket, k] ∈ sortKeys keys := by
          rw [mem_sortKeys]; exact ((hsplit _).1).2 ⟨k, hk, rfl, hsk'⟩
        simp [hin]
    · intro key hkey
      have h1 : key ∉ sortKeys keys := by
        rw [mem_sortKeys]
        intro hc
        rcases ((hsplit _).1).1 hc with ⟨k', hk', h2, _⟩
        exact hkey k' hk' h2
      have h2 : key ∉ sortKeys keysPut := by
        rw [mem_sortKeys]
        intro hc
        rcases ((hsplit _).2).1 hc with ⟨k', hk', h2, _⟩
        exact hkey k' hk' h2
      rw [q3, p3]
      simp [h1, h2]

end KV

namespace KV

open Memstore

theorem flushLoop_spec (bs : List (List Nat)) :
    ∀ (qs : QuadStore) (tx : Tx), bs.Nodup → (∀ b ∈ bs, idsOk (qs.mapOf b)) →
      (∀ b ∈ bs, ∀ k ∈ (qs.mapOf b).map Prod.fst,
        qs.skipsGet (qs.bloomOf b) k = true → tx.Get [b, k] = none) →
      ∃ qs' tx', flushLoop bs qs tx = .ok (qs', tx') ∧ qs'.mapBucket = qs.mapBucket ∧
        (∀ b ∈ bs, ∀ k ∈ (qs.mapOf b).map Prod.fst,
          tx'.Get [b, k] = some ((tx.Get [b, k]).getD [] ++ encOf (qs.mapOf b) [b, k])) ∧
        (∀ key, (∀ b ∈ bs, ∀ k ∈ (qs.mapOf b).map Prod.fst, key ≠ [b, k]) →
          tx'.Get key = tx.Get key) := by
  induction bs with
  | nil =>
    intro qs tx _ _ _
    exact ⟨qs, tx, rfl, rfl, by simp, fun _ _ => rfl⟩
  | cons b bs ih =>
    intro qs tx hnd hids hb
    rw [List.nodup_cons] at hnd
    rcases flushBucket_spec qs tx b (hids b (List.mem_cons_self _ _))
      (hb b (List.mem_cons_self _ _)) with ⟨qs1, tx1, r1, r2, r3, r4, r5, r6⟩
    have hmap : ∀ b', qs1.mapOf b' = qs.mapOf b' := by
      intro b'; simp only [QuadStore.mapOf, r2]
    have hne : ∀ b' ∈ bs, b' ≠ b := fun b' hb' e => hnd.1 (e ▸ hb')
    have hfr : ∀ b' ∈ bs, ∀ k, tx1.Get [b', k] = tx.Get [b', k] := by
      intro b' hb' k
      apply r6
      intro k' _ e
      have : b' = b := by simpa using congrArg (fun l => l.head?) e
      exact hne b' hb' this
    have hsk : ∀ b' ∈ bs, ∀ k, qs1.skipsGet (qs1.bloomOf b') k = qs.skipsGet (qs.bloomOf b') k := by
      intro b' hb' k
      have e : qs1.bloomOf b' = qs.bloomOf b' := r4 b' (hne b' hb')
      simp only [QuadStore.skipsGet, e, r3]
    rcases ih qs1 tx1 hnd.2
      (fun b' hb' => by rw [hmap]; exact hids b' (List.mem_cons_of_mem _ hb'))
      (fun b' hb' k hk hs => by
        rw [hmap] at hk
        rw [hsk b' hb'] at hs
        rw [hfr b' hb']
        exact hb b' (List.mem_cons_of_mem _ hb') k hk hs)
      with ⟨qs', tx', s1, s2, s3, s4⟩
    refine ⟨qs', tx', ?_, ?_, ?_, ?_⟩
    · simp only [flushLoop, r1, ok_bind]
      exact s1
    · rw [s2, r2]
    · intro b' hb' k hk
      rcases List.mem_cons.1 hb' with rfl | hin
      · rw [s4, r5 k hk]
        · rfl
        · intro b'' hb'' k'' _ e
          have : b' = b'' := by simpa using congrArg (fun l => l.head?) e
          exact hnd.1 (this ▸ hb'')
      · have := s3 b' hin k (by rw [hmap]; exact hk)
        rw [this, hfr b' hin, hmap]
    · intro key hkey
      rw [s4 key (fun b' hb' k hk => by
        rw [hmap] at hk
        exact hkey b' (List.mem_cons_of_mem _ hb') k hk)]
      exact r6 key (fun k hk => hkey b (List.mem_cons_self _ _) k hk)

set_option maxRecDepth 100000 in
/-- C33: with filters for the index buckets but none yet for the bucket `s`, the id 2 buffered
for a key of that bucket and the list `[1]` stored at the key, `flushMapBucket` succeeds and
the value stored at the key then decodes to `[2]`, not to `[1, 2]`. -/
theorem flushMapBucket_overwrites_unseen_key : scenarioFlush = .ok ([1], [2], true) := by
  decide!

/-- C33: for every write buffer of `uint64` ids (a map of maps: no bucket occurs twice) and
every state of the key-value engine such that every buffered key which `flushMapBucket` takes
for new (there are filters for the index buckets and the filter of the bucket is absent or
does not hold the key) has no value in the engine: `flushMapBucket` succeeds, the buffer is
`nil` afterwards, the value at every buffered (bucket, key) is the value stored before the
flush followed by the encoding of the buffered ids in the order of buffering, so that it
decodes to the list it decoded to before followed by the buffered ids, and the value at every
other key is as before. -/
theorem flushMapBucket_spec (qs : QuadStore) (tx : Tx) (hok : qs.BufferOk)
    (hids : ∀ b, idsOk (qs.mapOf b))
    (hnew : ∀ b k, (qs.buffered b k).isSome = true → qs.skipsGet (qs.bloomOf b) k = true →
      tx.Get [b, k] = none) :
    ∃ qs' tx', qs.flushMapBucket tx = .ok (qs', tx', none) ∧ qs'.mapBucket = none ∧
      (∀ b k l, qs.buffered b k = some l →
        tx'.Get [b, k] = some ((tx.Get [b, k]).getD [] ++ l.flatMap enc) ∧
        ∀ old, decodeIndex ((tx.Get [b, k]).getD []) = .ok (old, none) →
          decodeIndex ((tx'.Get [b, k]).getD []) = .ok (old ++ l, none)) ∧
      (∀ key, (∀ b k, (qs.buffered b k).isSome = true → key ≠ [b, k]) →
        tx'.Get key = tx.Get key) := by
  have hbuf : ∀ b k l, qs.buffered b k = some l →
      b ∈ (qs.mapBucket.getD []).map Prod.fst ∧ k ∈ (qs.mapOf b).map Prod.fst ∧
        mapGet (qs.mapOf b) k = some l := by
    intro b k l h
    simp only [QuadStore.buffered] at h
    cases hg : mapGet (qs.mapBucket.getD []) b with
    | none => simp [hg] at h
    | some m =>
      simp only [hg, Option.bind] at h
      have hmo : qs.mapOf b = m := by simp [QuadStore.mapOf, hg]
      rw [hmo]
      exact ⟨List.mem_map_of_mem Prod.fst (mapGet_mem _ _ _ hg),
        List.mem_map_of_mem Prod.fst (mapGet_mem _ _ _ h), h⟩
  have hmem : ∀ b k, k ∈ (qs.mapOf b).map Prod.fst → (qs.buffered b k).isSome = true := by
    intro b k hk
    cases hg : mapGet (qs.mapBucket.getD []) b with
    | none => simp [QuadStore.mapOf, hg] at hk
    | some m =>
      have hmo : qs.mapOf b = m := by simp [QuadStore.mapOf, hg]
      rw [hmo] at hk
      simp only [QuadStore.buffered, hg, Option.bind]
      cases hk2 : mapGet m k with
      | none => exact absurd hk ((mapGet_eq_none _ _).1 hk2)
      | some l => rfl
  have hnd : (sortStrings ((qs.mapBucket.getD []).map Prod.fst)).Nodup :=
    (List.perm_insertionSort _ _).nodup_iff.2 hok.1
  rcases flushLoop_spec (sortStrings ((qs.mapBucket.getD []).map Prod.fst)) qs tx hnd
    (fun b _ => hids b) (fun b _ k hk hs => hnew b k (hmem b k hk) hs)
    with ⟨qs1, tx', r1, _, r3, r4⟩
  refine ⟨{ qs1 with mapBucket := none }, tx', ?_, rfl, ?_, ?_⟩
  · simp only [QuadStore.flushMapBucket, r1, ok_bind]
    rfl
  · intro b k l h
    rcases hbuf b k l h with ⟨h1, h2, h3⟩
    have hv := r3 b ((mem_sortStrings _ _).2 h1) k h2
    have he : encOf (qs.mapOf b) [b, k] = l.flatMap enc := by
      simp [encOf, h3]
    rw [he] at hv
    refine ⟨hv, ?_⟩
    intro old hold
    rw [hv]
    exact decodeIndex_append _ old l hold (hids b k l h3)
  · intro key hkey
    exact r4 key (fun b _ k hk => hkey b k (hmem b k hk))

end KV

namespace KV

open Memstore

theorem bufferedStore_mapBucket :
    bufferedStore.mapBucket = some [([115], [([1], [2, 3])])] ∧ bufferedStore.mapBloom = none :=
  ⟨rfl, rfl⟩

theorem flushMapBucket_spec_witness :
    bufferedStore.BufferOk ∧
    ∃ qs' tx', bufferedStore.flushMapBucket ⟨[([[115], [1]], [1])]⟩ = .ok (qs', tx', none) ∧
      qs'.mapBucket = none ∧
      (∀ b k l, bufferedStore.buffered b k = some l →
        tx'.Get [b, k] = some (((⟨[([[115], [1]], [1])]⟩ : Tx).Get [b, k]).getD [] ++
          l.flatMap enc) ∧
        ∀ old, decodeIndex (((⟨[([[115], [1]], [1])]⟩ : Tx).Get [b, k]).getD []) =
            .ok (old, none) →
          decodeIndex ((tx'.Get [b, k]).getD []) = .ok (old ++ l, none)) ∧
      (∀ key, (∀ b k, (bufferedStore.buffered b k).isSome = true → key ≠ [b, k]) →
        tx'.Get key = (⟨[([[115], [1]], [1])]⟩ : Tx).Get key) := by
  have hok : bufferedStore.BufferOk := by
    simp only [QuadStore.BufferOk, bufferedStore_mapBucket.1]
    decide
  refine ⟨hok, flushMapBucket_spec bufferedStore _ hok ?_ ?_⟩
  · intro b k l h x hx
    have hl : l = [2, 3] := by
      simp only [QuadStore.mapOf, bufferedStore_mapBucket.1, Option.getD, mapGet] at h
      by_cases hb : [115] = b
      · rw [if_pos hb] at h
        simp only [mapGet] at h
        by_cases hk : [1] = k
        · rw [if_pos hk] at h
          exact (Option.some.inj h).symm
        · rw [if_neg hk] at h
          exact absurd h (by simp)
      · rw [if_neg hb] at h
        exact absurd h (by simp [mapGet])
    subst hl
    simp only [List.mem_cons, List.mem_singleton, List.not_mem_nil, or_false] at hx
    rcases hx with rfl | rfl <;> norm_num
  · intro b k _ hs
    simp [QuadStore.skipsGet, bufferedStore_mapBucket.2] at hs

end KV

/-! ### `Set` and `Put` with a constant updater -/

namespace Memstore

theorem putLoop_const (k : Int) (v : V) (fuel : Nat) :
    ∀ (t : Tree) (p : Option X) (pi : Int),
      Except.map (fun r => (r.1, r.2.1)) (Tree.putLoop k (fun _ _ => (v, true)) fuel t p pi) =
        Tree.setLoop k v fuel t p pi := by
  induction fuel with
  | zero => intro t p pi; rfl
  | succ n ih =>
    intro t p pi
    have body : ∀ q : Node,
        Except.map (fun r => (r.1, r.2.1))
          (do
            let (i, ok) ← t.find q k
            match q with
            | .x c xs => do
              let s ← if c > 2 * kx then t.splitX p ⟨c, xs⟩ pi i
                else pure ⟨t, p, pi, ⟨c, xs⟩, i, false⟩
              let (t, u, oldV, written) ←
                Tree.putLoop k (fun _ _ => (v, true)) n s.t (some s.x)
                  (if ok then s.i + 1 else s.i)
              let u ← u.under s.par s.j s.root
              pure (t, u, oldV, written)
            | .d x =>
              if ok then do
                let e ← idx x.d i
                let (newV, written) := (fun (_ : V) (_ : Bool) => (v, true)) e.v true
                if written then do
                  let d ← upd x.d i ⟨e.k, newV⟩
                  let u ← Upd.under p pi false (.keep (.d { x with d := d }))
                  pure (t, u, e.v, written)
                else pure (t, .keep (match p with | none => q | some p => p.node), e.v, written)
              else do
                let (newV, written) := (fun (_ : V) (_ : Bool) => (v, true)) none false
                if written then
                  if x.c < 2 * kd then do
                    let (t, x) ← t.insert x i k newV
                    let u ← Upd.under p pi false (.keep (.d x))
                    pure (t, u, none, written)
                  else do
                    let (t, u) ← t.overflow p x pi i k newV
                    pure (t, u, none, written)
                else pure (t, .keep (match p with | none => q | some p => p.node), none, written)
            | .nil => throw .diverge : M (Tree × Upd × V × Bool)) =
          (do
            let (i, ok) ← t.find q k
            match q with
            | .x c xs => do
              let s ← if c > 2 * kx then t.splitX p ⟨c, xs⟩ pi i
                else pure ⟨t, p, pi, ⟨c, xs⟩, i, false⟩
              let (t, u) ← Tree.setLoop k v n s.t (some s.x) (if ok then s.i + 1 else s.i)
              let u ← u.under s.par s.j s.root
              pure (t, u)
            | .d x =>
              if ok then do
                let e ← idx x.d i
                let d ← upd x.d i ⟨e.k, v⟩
                let u ← Upd.under p pi false (.keep (.d { x with d := d }))
                pure (t, u)
              else if x.c < 2 * kd then do
                let (t, x) ← t.insert x i k v
                let u ← Upd.under p pi false (.keep (.d x))
                pure (t, u)
              else t.overflow p x pi i k v
            | .nil => throw .diverge) := by
      intro q
      rcases hf : t.find q k with e | ⟨i, ok⟩
      · rfl
      · simp only [ok_bind]
        cases q with
        | nil => rfl
        | d x =>
          simp only []
          cases ok with
          | true =>
            simp only [if_true]
            rcases idx x.d i with e | el
            · rfl
            · simp only [ok_bind]
              rcases upd x.d i ⟨el.k, v⟩ with e | d
              · rfl
              · simp only [ok_bind]
                rcases Upd.under p pi false (.keep (.d { x with d := d })) with e | u
                · rfl
                · rfl
          | false =>
            simp only [Bool.false_eq_true, if_false, if_true]
            by_cases hc : x.c < 2 * kd
            · simp only [hc, if_true]
              rcases t.insert x i k v with e | ⟨t', x'⟩
              · rfl
              · simp only [ok_bind]
                rcases Upd.under p pi false (.keep (.d x')) with e | u
                · rfl
                · rfl
            · simp only [hc, if_false]
              rcases t.overflow p x pi i k v with e | ⟨t', u⟩
              · rfl
              · rfl
        | x c xs =>
          simp only []
          have tail : ∀ s : M Step,
              Except.map (fun r => (r.1, r.2.1))
                (do
                  let y ← s
                  let r ← Tree.putLoop k (fun _ _ => (v, true)) n y.t (some y.x)
                    (if ok = true then y.i + 1 else y.i)
                  let u ← Upd.under y.par y.j y.root r.2.1
                  pure (r.1, u, r.2.2.1, r.2.2.2) : M (Tree × Upd × V × Bool)) =
                (do
                  let y ← s
                  let r ← Tree.setLoop k v n y.t (some y.x) (if ok = true then y.i + 1 else y.i)
                  let u ← Upd.under y.par y.j y.root r.2
                  pure (r.1, u)) := by
            intro s
            rcases s with e | s
            · rfl
            · simp only [ok_bind]
              rw [← ih]
              rcases Tree.putLoop k (fun _ _ => (v, true)) n s.t (some s.x)
                  (if ok = true then s.i + 1 else s.i) with e | ⟨t', u, o, w⟩
              · rfl
              · simp only [ok_bind, Except.map]
                rcases u.under s.par s.j s.root with e | u'
                · rfl
                · rfl
          by_cases hc : c > 2 * kx
          · simp only [hc, if_true]
            exact tail _
          · simp only [hc, if_false]
            exact tail _
    cases p with
    | none =>
      have := body t.r
      simpa only [Tree.putLoop, Tree.setLoop, pure_bind_M] using this
    | some p0 =>
      simp only [Tree.putLoop, Tree.setLoop]
      rcases chAt p0.x pi with e | q
      · rfl
      · simp only [ok_bind]
        exact body q

end Memstore

namespace Memstore

/-- C31: for every tree, key `k` and value `v`, `Put(k, upd)` with `upd` the constant updater
returning `(v, true)` completes exactly when `Set(k, v)` does, and the two calls leave the same
tree: the same pages, links and counters, hence the same key-to-value mapping, the same `Len`
and the same enumeration order. -/
theorem Set_eq_Put_const (t : Tree) (k : Int) (v : V) :
    Except.map (fun r => r.1) (t.Put k (fun _ _ => (v, true))) = t.Set k v := by
  unfold Tree.Put Tree.Set
  cases hr : t.r with
  | nil =>
    simp only [if_true]
    rcases (t.getD).1.insert (t.getD).2 0 k v with e | ⟨t', z⟩
    · rfl
    · rfl
  | d q =>
    simp only []
    rw [← putLoop_const]
    rcases Tree.putLoop k (fun _ _ => (v, true)) (2 * (Node.d q).height + 2) t none (-1)
      with e | ⟨t', u, o, w⟩
    · rfl
    · rfl
  | x c xs =>
    simp only []
    rw [← putLoop_const]
    rcases Tree.putLoop k (fun _ _ => (v, true)) (2 * (Node.x c xs).height + 2) t none (-1)
      with e | ⟨t', u, o, w⟩
    · rfl
    · rfl

end Memstore

namespace Memstore

theorem QuadStore.Keeps.refl (s : Slice) (qs : QuadStore) : QuadStore.Keeps s qs qs :=
  fun h => ⟨h, rfl⟩

theorem QuadStore.Keeps.trans {s : Slice} {a b c : QuadStore} (h1 : QuadStore.Keeps s a b)
    (h2 : QuadStore.Keeps s b c) : QuadStore.Keeps s a c := by
  intro h
  rcases h1 h with ⟨hb, e1⟩
  rcases h2 hb with ⟨hc, e2⟩
  exact ⟨hc, e2.trans e1⟩

theorem QuadStore.Keeps.of_eq {s : Slice} {a b : QuadStore} (h1 : b.arrays = a.arrays)
    (h2 : b.all = a.all) (h3 : b.reading = a.reading) : QuadStore.Keeps s a b := by
  intro h
  refine ⟨?_, ?_⟩
  · simpa [QuadStore.Safe, h1, h2, h3] using h
  · simp [QuadStore.elems, QuadStore.array, h1]

theorem QuadStore.append_keeps (s : Slice) (qs : QuadStore) (sl : Slice) (p : Nat)
    (hlt : s.arr < qs.arrays.length) (hne : sl.arr ≠ s.arr ∨ ¬ sl.len < sl.cap) :
    (qs.append sl p).1.array s = qs.array s ∧
      s.arr < (qs.append sl p).1.arrays.length ∧ (qs.append sl p).2.arr ≠ s.arr ∧
      (qs.append sl p).1.all = qs.all ∧ (qs.append sl p).1.reading = qs.reading := by
  unfold QuadStore.append
  split
  · rename_i hc
    have hne : sl.arr ≠ s.arr := by
      rcases hne with h | h
      · exact h
      · exact absurd hc h
    refine ⟨?_, by simpa using hlt, hne, rfl, rfl⟩
    simp [QuadStore.array, List.getD_eq_getElem?_getD, List.getElem?_set, hne]
  · refine ⟨?_, by simp; omega, ?_, rfl, rfl⟩
    · simp [QuadStore.array, List.getD_eq_getElem?_getD, List.getElem?_append_left hlt]
    · simp only
      omega

theorem QuadStore.elems_eq_of_array {qs qs' : QuadStore} {s : Slice}
    (h : qs'.array s = qs.array s) : qs'.elems s = qs.elems s := by
  simp [QuadStore.elems, h]

theorem QuadStore.Keeps.empty {s : Slice} (h : s.len = 0) (a b : QuadStore) :
    QuadStore.Keeps s a b :=
  fun _ => ⟨Or.inl h, by simp [QuadStore.elems, h]⟩

theorem QuadStore.appendPrimitive_keeps (s : Slice) {qs qs' : QuadStore} {a : Nat}
    (h : qs.appendPrimitive a = .ok qs') : QuadStore.Keeps s qs qs' := by
  by_cases h0 : s.len = 0
  · exact QuadStore.Keeps.empty h0 _ _
  intro hS
  rcases hS with hS | ⟨hlt, hrd⟩
  · exact absurd hS h0
  simp only [QuadStore.appendPrimitive, bind_ok] at h
  obtain ⟨p, _, h⟩ := h
  by_cases hr : qs.reading = true
  · simp only [hr, Bool.not_true, Bool.false_eq_true, if_false, pure_ok] at h
    have := QuadStore.append_keeps s { qs with prim := mapSet qs.prim p.ID a, reading := true }
      ⟨qs.all.arr, qs.all.len, qs.all.len⟩ a hlt (Or.inr (lt_irrefl _))
    rcases this with ⟨h1, h2, h3, _, _⟩
    subst h
    exact ⟨Or.inr ⟨h2, fun he => absurd he h3⟩, QuadStore.elems_eq_of_array h1⟩
  · have hr' : qs.reading = false := by simpa using hr
    have hne : qs.all.arr ≠ s.arr := fun he => by simp [hrd he] at hr
    simp only [hr', Bool.not_false, if_true, pure_ok] at h
    have := QuadStore.append_keeps s { qs with prim := mapSet qs.prim p.ID a, reading := false }
      qs.all a hlt (Or.inl hne)
    rcases this with ⟨h1, h2, h3, _, _⟩
    subst h
    exact ⟨Or.inr ⟨h2, fun he => absurd he h3⟩, QuadStore.elems_eq_of_array h1⟩

theorem QuadStore.removeAll_keeps (s : Slice) (qs : QuadStore) (di : Nat) :
    QuadStore.Keeps s qs (qs.removeAll di) := by
  by_cases h0 : s.len = 0
  · exact QuadStore.Keeps.empty h0 _ _
  intro hS
  rcases hS with hS | ⟨hlt, hrd⟩
  · exact absurd hS h0
  unfold QuadStore.removeAll
  cases hr : qs.reading with
  | false =>
    have hne : qs.all.arr ≠ s.arr := fun he => by simp [hrd he] at hr
    simp only [Bool.not_false, if_true]
    refine ⟨Or.inr ⟨by simpa using hlt, fun he => absurd he hne⟩, ?_⟩
    simp [QuadStore.elems, QuadStore.array, List.getD_eq_getElem?_getD, List.getElem?_set, hne]
  | true =>
    simp only [Bool.not_true, Bool.false_eq_true, if_false]
    refine ⟨Or.inr ⟨by simp; omega, fun he => ?_⟩, ?_⟩
    · simp only at he
      omega
    · simp [QuadStore.elems, QuadStore.array, List.getD_eq_getElem?_getD,
        List.getElem?_append_left hlt]

end Memstore

namespace Memstore

theorem QuadStore.addPrimitive_keeps (s : Slice) {qs qs' : QuadStore} {a : Nat} {id : Int}
    (h : qs.addPrimitive a = .ok (qs', id)) : QuadStore.Keeps s qs qs' := by
  simp only [QuadStore.addPrimitive, bind_ok, pure_ok, Prod.mk.injEq] at h
  obtain ⟨p, _, q, hq, rfl, _⟩ := h
  have k2 := QuadStore.appendPrimitive_keeps s hq
  exact QuadStore.Keeps.trans (QuadStore.Keeps.of_eq rfl rfl rfl) k2

theorem QuadStore.resolveVal_keeps (s : Slice) {qs qs' : QuadStore} {v : Option Value}
    {add : Bool} {id : Int} {ok : Bool} (h : qs.resolveVal v add = .ok (qs', id, ok)) :
    QuadStore.Keeps s qs qs' := by
  unfold QuadStore.resolveVal at h
  split at h
  · simp only [pure_ok, Prod.mk.injEq] at h
    rw [← h.1]; exact QuadStore.Keeps.refl _ _
  · split at h
    · split at h
      · simp only [bind_ok, pure_ok, Prod.mk.injEq] at h
        obtain ⟨p, _, rfl, _⟩ := h
        exact QuadStore.Keeps.of_eq rfl rfl rfl
      · simp only [pure_ok, Prod.mk.injEq] at h
        rw [← h.1]; exact QuadStore.Keeps.refl _ _
      · simp only [pure_ok, Prod.mk.injEq] at h
        rw [← h.1]; exact QuadStore.Keeps.refl _ _
      · simp only [QuadStore.new, bind_ok, pure_ok, Prod.mk.injEq] at h
        obtain ⟨q, hq, rfl, _⟩ := h
        have k2 := QuadStore.appendPrimitive_keeps s hq
        exact QuadStore.Keeps.trans (QuadStore.Keeps.of_eq rfl rfl rfl) k2
    · simp only [] at h
      split at h
      · split at h
        · simp [throw, throwThe, MonadExceptOf.throw] at h
        · simp only [bind_ok, pure_ok, Prod.mk.injEq] at h
          obtain ⟨p, _, rfl, _⟩ := h
          exact QuadStore.Keeps.of_eq rfl rfl rfl
      · simp only [pure_ok, Prod.mk.injEq] at h
        rw [← h.1]; exact QuadStore.Keeps.refl _ _
      · simp only [pure_ok, Prod.mk.injEq] at h
        rw [← h.1]; exact QuadStore.Keeps.refl _ _
      · simp only [QuadStore.new, bind_ok, pure_ok, Prod.mk.injEq] at h
        obtain ⟨⟨q, i⟩, hq, rfl, _⟩ := h
        have k2 := QuadStore.addPrimitive_keeps s hq
        exact QuadStore.Keeps.trans (QuadStore.Keeps.trans (QuadStore.Keeps.of_eq rfl rfl rfl)
          k2) (QuadStore.Keeps.of_eq rfl rfl rfl)

theorem QuadStore.resolveDirs_keeps (s : Slice) (q : Memstore.Quad) (add : Bool) (ds : List Direction) :
    ∀ {qs qs' : QuadStore} {p : internalQuad} {r : Option internalQuad},
      QuadStore.resolveDirs q add ds qs p = .ok (qs', r) → QuadStore.Keeps s qs qs' := by
  induction ds with
  | nil =>
    intro qs qs' p r h
    simp only [QuadStore.resolveDirs, pure_ok, Prod.mk.injEq] at h
    rw [← h.1]; exact QuadStore.Keeps.refl _ _
  | cons d ds ih =>
    intro qs qs' p r h
    unfold QuadStore.resolveDirs at h
    split at h
    · exact ih h
    · simp only [bind_ok] at h
      obtain ⟨⟨q1, vid, ok⟩, hv, h⟩ := h
      have k1 := QuadStore.resolveVal_keeps s hv
      simp only at h
      split at h
      · exact QuadStore.Keeps.trans k1 (ih h)
      · split at h
        · simp only [pure_ok, Prod.mk.injEq] at h
          rw [← h.1]; exact k1
        · exact QuadStore.Keeps.trans k1 (ih h)

theorem QuadStore.resolveQuad_keeps (s : Slice) {qs qs' : QuadStore} {q : Memstore.Quad} {add : Bool}
    {p : internalQuad} {ok : Bool} (h : qs.resolveQuad q add = .ok (qs', p, ok)) :
    QuadStore.Keeps s qs qs' := by
  simp only [QuadStore.resolveQuad, bind_ok] at h
  obtain ⟨⟨q1, r⟩, hr, h⟩ := h
  have k := QuadStore.resolveDirs_keeps s q add _ hr
  cases r <;> simp only [pure_ok, Prod.mk.injEq] at h <;> (rw [← h.1]; exact k)

theorem QuadStore.indexesForQuad_keeps (s : Slice) (q : internalQuad) (ds : List Direction) :
    ∀ qs : QuadStore, QuadStore.Keeps s qs (QuadStore.indexesForQuad q ds qs).1 ∧
      (QuadStore.indexesForQuad q ds qs).1.arrays = qs.arrays ∧
      (QuadStore.indexesForQuad q ds qs).1.all = qs.all ∧
      (QuadStore.indexesForQuad q ds qs).1.reading = qs.reading := by
  induction ds with
  | nil => intro qs; exact ⟨QuadStore.Keeps.refl _ _, rfl, rfl, rfl⟩
  | cons d ds ih =>
    intro qs
    have key : (QuadStore.indexesForQuad q (d :: ds) qs).1.arrays = qs.arrays ∧
        (QuadStore.indexesForQuad q (d :: ds) qs).1.all = qs.all ∧
        (QuadStore.indexesForQuad q (d :: ds) qs).1.reading = qs.reading := by
      simp only [QuadStore.indexesForQuad]
      split
      · exact (ih qs).2
      · have h1 := (ih (qs.indexTree d (q.Dir d)).1).2
        have h2 : (qs.indexTree d (q.Dir d)).1.arrays = qs.arrays ∧
            (qs.indexTree d (q.Dir d)).1.all = qs.all ∧
            (qs.indexTree d (q.Dir d)).1.reading = qs.reading := by
          unfold QuadStore.indexTree
          split <;> exact ⟨rfl, rfl, rfl⟩
        exact ⟨h1.1.trans h2.1, h1.2.1.trans h2.2.1, h1.2.2.trans h2.2.2⟩
    exact ⟨QuadStore.Keeps.of_eq key.1 key.2.1 key.2.2, key⟩

theorem QuadStore.setAll_keeps (s : Slice) (id : Int) (pr : Nat) (l : List (Direction × Int)) :
    ∀ {qs qs' : QuadStore}, QuadStore.setAll id pr l qs = .ok qs' → QuadStore.Keeps s qs qs' := by
  induction l with
  | nil =>
    intro qs qs' h
    simp only [QuadStore.setAll, pure_ok] at h
    rw [← h]; exact QuadStore.Keeps.refl _ _
  | cons e l ih =>
    intro qs qs' h
    rcases e with ⟨d, v⟩
    unfold QuadStore.setAll at h
    split at h
    · simp [throw, throwThe, MonadExceptOf.throw] at h
    · simp only [bind_ok] at h
      obtain ⟨t, _, h⟩ := h
      have k := ih h
      exact QuadStore.Keeps.trans (QuadStore.Keeps.of_eq rfl rfl rfl) k

theorem QuadStore.deleteAll_keeps (s : Slice) (id : Int) (l : List (Direction × Int)) :
    ∀ {qs qs' : QuadStore}, QuadStore.deleteAll id l qs = .ok qs' → QuadStore.Keeps s qs qs' := by
  induction l with
  | nil =>
    intro qs qs' h
    simp only [QuadStore.deleteAll, pure_ok] at h
    rw [← h]; exact QuadStore.Keeps.refl _ _
  | cons e l ih =>
    intro qs qs' h
    rcases e with ⟨d, v⟩
    unfold QuadStore.deleteAll at h
    split at h
    · simp [throw, throwThe, MonadExceptOf.throw] at h
    · simp only [bind_ok] at h
      obtain ⟨⟨t, b⟩, _, h⟩ := h
      have k := ih h
      exact QuadStore.Keeps.trans (QuadStore.Keeps.of_eq rfl rfl rfl) k

end Memstore

namespace Memstore

theorem QuadStore.AddQuad_keeps (s : Slice) {qs qs' : QuadStore} {q : Memstore.Quad} {id : Int}
    {ok : Bool} (h : qs.AddQuad q = .ok (qs', id, ok)) : QuadStore.Keeps s qs qs' := by
  simp only [QuadStore.AddQuad, bind_ok] at h
  obtain ⟨⟨q1, p1, o1⟩, h1, h⟩ := h
  have k1 := QuadStore.resolveQuad_keeps s h1
  simp only at h
  split at h
  · simp only [pure_ok, Prod.mk.injEq] at h
    rw [← h.1]; exact k1
  · simp only [bind_ok, QuadStore.new] at h
    obtain ⟨⟨q2, p2, o2⟩, h2, ⟨q3, i3⟩, h3, h⟩ := h
    have k2 := QuadStore.resolveQuad_keeps s h2
    have k3 := QuadStore.addPrimitive_keeps s h3
    simp only [bind_ok, pure_ok, Prod.mk.injEq] at h
    obtain ⟨q4, h4, rfl, _⟩ := h
    have k4 := QuadStore.setAll_keeps s _ _ _ h4
    have k5 := (QuadStore.indexesForQuad_keeps s p2 Direction.all
      { q3 with quads := mapSet q3.quads p2 i3 }).1
    exact QuadStore.Keeps.trans k1 (QuadStore.Keeps.trans k2
      (QuadStore.Keeps.trans (QuadStore.Keeps.of_eq rfl rfl rfl)
        (QuadStore.Keeps.trans k3 (QuadStore.Keeps.trans (QuadStore.Keeps.of_eq rfl rfl rfl)
          (QuadStore.Keeps.trans k5 k4)))))

theorem QuadStore.AddValue_keeps (s : Slice) {qs qs' : QuadStore} {v : Option Value} {id : Int}
    {ok : Bool} (h : qs.AddValue v = .ok (qs', id, ok)) : QuadStore.Keeps s qs qs' := by
  simp only [QuadStore.AddValue, bind_ok, pure_ok, Prod.mk.injEq] at h
  obtain ⟨⟨q1, i1, o1⟩, h1, rfl, _⟩ := h
  exact QuadStore.resolveVal_keeps s h1

theorem QuadStore.AddBNode_keeps (s : Slice) {qs qs' : QuadStore} {id : Int}
    (h : qs.AddBNode = .ok (qs', id)) : QuadStore.Keeps s qs qs' := by
  simp only [QuadStore.AddBNode, QuadStore.new] at h
  have k := QuadStore.addPrimitive_keeps s h
  exact QuadStore.Keeps.trans (QuadStore.Keeps.of_eq rfl rfl rfl) k

theorem QuadStore.deleteQuadNodesWith_keeps (s : Slice)
    (del : QuadStore → Int → M (QuadStore × Bool))
    (hdel : ∀ {qs qs' : QuadStore} {id : Int} {b : Bool}, del qs id = .ok (qs', b) →
      QuadStore.Keeps s qs qs')
    (q : internalQuad) (ds : List Direction) :
    ∀ {qs qs' : QuadStore}, QuadStore.deleteQuadNodesWith del q ds qs = .ok qs' →
      QuadStore.Keeps s qs qs' := by
  induction ds with
  | nil =>
    intro qs qs' h
    simp only [QuadStore.deleteQuadNodesWith, pure_ok] at h
    rw [← h]; exact QuadStore.Keeps.refl _ _
  | cons d ds ih =>
    intro qs qs' h
    simp only [QuadStore.deleteQuadNodesWith] at h
    split at h
    · exact ih h
    · split at h
      · exact ih h
      · simp only [bind_ok] at h
        obtain ⟨p, _, h⟩ := h
        split at h
        · simp [throw, throwThe, MonadExceptOf.throw] at h
        · split at h
          · simp only [bind_ok] at h
            obtain ⟨⟨q1, b1⟩, h1, h⟩ := h
            have k1 := hdel h1
            have k2 := ih h
            exact QuadStore.Keeps.trans (QuadStore.Keeps.of_eq rfl rfl rfl)
              (QuadStore.Keeps.trans k1 k2)
          · have k2 := ih h
            exact QuadStore.Keeps.trans (QuadStore.Keeps.of_eq rfl rfl rfl) k2

theorem QuadStore.deleteN_keeps (s : Slice) (fuel : Nat) :
    ∀ {qs qs' : QuadStore} {id : Int} {b : Bool}, QuadStore.deleteN fuel qs id = .ok (qs', b) →
      QuadStore.Keeps s qs qs' := by
  induction fuel with
  | zero =>
    intro qs qs' id b h
    simp [QuadStore.deleteN, throw, throwThe, MonadExceptOf.throw] at h
  | succ n ih =>
    intro qs qs' id b h
    simp only [QuadStore.deleteN] at h
    split at h
    · simp only [pure_ok, Prod.mk.injEq] at h
      rw [← h.1]; exact QuadStore.Keeps.refl _ _
    · simp only [bind_ok, pure_ok, Prod.mk.injEq] at h
      obtain ⟨p, _, q1, h1, q2, h2, rfl, _⟩ := h
      have k1 := QuadStore.deleteAll_keeps s _ _ h1
      have k2 := QuadStore.deleteQuadNodesWith_keeps s _ (fun h => ih h) _ _ h2
      refine QuadStore.Keeps.trans ?_ (QuadStore.Keeps.trans k1 (QuadStore.Keeps.trans ?_ k2))
      · refine QuadStore.Keeps.trans ?_ (QuadStore.indexesForQuad_keeps s _ _ _).1
        split <;> exact QuadStore.Keeps.of_eq rfl rfl rfl
      · split
        · have k3 := QuadStore.removeAll_keeps s
            { q1 with quads := mapDel q1.quads p.Quad, prim := mapDel q1.prim id } (by assumption)
          exact QuadStore.Keeps.trans (QuadStore.Keeps.of_eq rfl rfl rfl) k3
        · exact QuadStore.Keeps.of_eq rfl rfl rfl

theorem QuadStore.Delete_keeps (s : Slice) {qs qs' : QuadStore} {id : Int} {b : Bool}
    (h : qs.Delete id = .ok (qs', b)) : QuadStore.Keeps s qs qs' :=
  QuadStore.deleteN_keeps s _ h

theorem QuadStore.applyAll_keeps (s : Slice) (l : List Delta) :
    ∀ {qs qs' : QuadStore} {e : Option DeltaError}, QuadStore.applyAll l qs = .ok (qs', e) →
      QuadStore.Keeps s qs qs' := by
  induction l with
  | nil =>
    intro qs qs' e h
    simp only [QuadStore.applyAll, pure_ok, Prod.mk.injEq] at h
    rw [← h.1]; exact QuadStore.Keeps.refl _ _
  | cons d l ih =>
    intro qs qs' e h
    simp only [QuadStore.applyAll] at h
    split at h
    · simp only [bind_ok] at h
      obtain ⟨⟨q1, i1, o1⟩, h1, h⟩ := h
      exact QuadStore.Keeps.trans (QuadStore.AddQuad_keeps s h1) (ih h)
    · simp only [bind_ok] at h
      obtain ⟨⟨i1, p1, o1⟩, _, h⟩ := h
      simp only at h
      split at h
      · simp only [bind_ok] at h
        obtain ⟨⟨q1, b1⟩, h1, h⟩ := h
        exact QuadStore.Keeps.trans (QuadStore.Delete_keeps s h1) (ih h)
      · exact ih h
    · simp only [pure_ok, Prod.mk.injEq] at h
      rw [← h.1]; exact QuadStore.Keeps.refl _ _

theorem QuadStore.ApplyDeltas_keeps (s : Slice) {qs qs' : QuadStore} {l : List Delta}
    {o : IgnoreOpts} {e : Option DeltaError} (h : qs.ApplyDeltas l o = .ok (qs', e)) :
    QuadStore.Keeps s qs qs' := by
  have key : ∀ e1 : Option DeltaError,
      (match e1 with
        | some e => (pure (qs, some e) : M (QuadStore × Option DeltaError))
        | none => do
          let (qs, e) ← QuadStore.applyAll l qs
          match e with
          | some e => pure (qs, some e)
          | none => pure ({ qs with horizon := qs.horizon + 1 }, none)) = .ok (qs', e) →
      QuadStore.Keeps s qs qs' := by
    intro e1 h
    split at h
    · simp only [pure_ok, Prod.mk.injEq] at h
      rw [← h.1]; exact QuadStore.Keeps.refl _ _
    · simp only [bind_ok] at h
      obtain ⟨⟨q1, e2⟩, h1, h⟩ := h
      have k := QuadStore.applyAll_keeps s l h1
      simp only at h
      split at h
      · simp only [pure_ok, Prod.mk.injEq] at h
        rw [← h.1]; exact k
      · simp only [pure_ok, Prod.mk.injEq] at h
        rw [← h.1]
        exact QuadStore.Keeps.trans k (QuadStore.Keeps.of_eq rfl rfl rfl)
  unfold QuadStore.ApplyDeltas at h
  simp only [] at h
  split at h
  · rw [bind_ok] at h
    obtain ⟨e1, _, h⟩ := h
    exact key e1 h
  · rw [bind_ok] at h
    obtain ⟨e1, _, h⟩ := h
    exact key e1 h

theorem QuadStore.step_keeps (s : Slice) {qs qs' : QuadStore} (op : StoreOp)
    (h : qs.step op = .ok qs') : QuadStore.Keeps s qs qs' := by
  cases op with
  | AddQuad q =>
    simp only [QuadStore.step, bind_ok, pure_ok] at h
    obtain ⟨⟨q1, i1, o1⟩, h1, rfl⟩ := h
    exact QuadStore.AddQuad_keeps s h1
  | AddValue v =>
    simp only [QuadStore.step, bind_ok, pure_ok] at h
    obtain ⟨⟨q1, i1, o1⟩, h1, rfl⟩ := h
    exact QuadStore.AddValue_keeps s h1
  | AddBNode =>
    simp only [QuadStore.step, bind_ok, pure_ok] at h
    obtain ⟨⟨q1, i1⟩, h1, rfl⟩ := h
    exact QuadStore.AddBNode_keeps s h1
  | Delete id =>
    simp only [QuadStore.step, bind_ok, pure_ok] at h
    obtain ⟨⟨q1, i1⟩, h1, rfl⟩ := h
    exact QuadStore.Delete_keeps s h1
  | ApplyDeltas l o =>
    simp only [QuadStore.step, bind_ok, pure_ok] at h
    obtain ⟨⟨q1, i1⟩, h1, rfl⟩ := h
    exact QuadStore.ApplyDeltas_keeps s h1

theorem QuadStore.steps_keeps (s : Slice) (ops : List StoreOp) :
    ∀ {qs qs' : QuadStore}, QuadStore.steps ops qs = .ok qs' → QuadStore.Keeps s qs qs' := by
  induction ops with
  | nil =>
    intro qs qs' h
    simp only [QuadStore.steps, pure_ok] at h
    rw [← h]; exact QuadStore.Keeps.refl _ _
  | cons op ops ih =>
    intro qs qs' h
    simp only [QuadStore.steps, bind_ok] at h
    obtain ⟨q1, h1, h⟩ := h
    exact QuadStore.Keeps.trans (QuadStore.step_keeps s op h1) (ih h)

end Memstore

namespace Memstore

/-- C18: the snapshot `s` that `cloneAll` returns for a store whose slice `all` is well formed
(empty, or backed by an array of the store) keeps its elements, in number and position, through
every sequence of later `AddQuad`, `AddValue`, `AddBNode`, `Delete` and `ApplyDeltas` calls that
return. -/
theorem cloneAll_snapshot_stable (qs0 qs' : QuadStore) (ops : List StoreOp)
    (hwf : qs0.sliceOk qs0.all)
    (h : QuadStore.steps ops qs0.cloneAll.1 = .ok qs') :
    qs'.elems qs0.cloneAll.2 = qs0.elems qs0.all := by
  have hS : qs0.cloneAll.1.Safe qs0.cloneAll.2 := by
    rcases hwf with h0 | hlt
    · exact Or.inl h0
    · exact Or.inr ⟨hlt, fun _ => rfl⟩
  exact (QuadStore.steps_keeps qs0.cloneAll.2 ops h hS).2

theorem cloneAll_snapshot_stable_witness :
    storeAKB.elems storeAKB.all = [some 0, some 1, some 2, some 3] ∧
    (okOr newQuadStore (QuadStore.steps laterOps storeAKB.cloneAll.1)).allIDs
      = [2, 3, 5, 6, 7, 8] ∧
    (okOr newQuadStore (QuadStore.steps laterOps storeAKB.cloneAll.1)).elems storeAKB.cloneAll.2
      = storeAKB.elems storeAKB.all :=
  ⟨by decide!, by decide!,
   cloneAll_snapshot_stable storeAKB _ laterOps (Or.inr (by decide!))
     (ok_of_isOk newQuadStore _ (by decide!))⟩

end Memstore

/-! ### The recursion of `Delete` -/

namespace Memstore

theorem bind_congr_ok {α β : Type} {x : M α} {f g : α → M β}
    (h : ∀ a, x = .ok a → f a = g a) : (x >>= f) = (x >>= g) := by
  cases x with
  | error e => rfl
  | ok a => exact h a rfl

theorem QuadStore.indexesForQuad_prim (q : internalQuad) (ds : List Direction) :
    ∀ qs : QuadStore, (QuadStore.indexesForQuad q ds qs).1.prim = qs.prim ∧
      (QuadStore.indexesForQuad q ds qs).1.heap = qs.heap := by
  induction ds with
  | nil => intro qs; exact ⟨rfl, rfl⟩
  | cons d ds ih =>
    intro qs
    simp only [QuadStore.indexesForQuad]
    split
    · exact ih qs
    · have h1 : (qs.indexTree d (q.Dir d)).1.prim = qs.prim ∧
          (qs.indexTree d (q.Dir d)).1.heap = qs.heap := by
        unfold QuadStore.indexTree
        split <;> exact ⟨rfl, rfl⟩
      have h2 := ih (qs.indexTree d (q.Dir d)).1
      exact ⟨h2.1.trans h1.1, h2.2.trans h1.2⟩

theorem QuadStore.deleteAll_prim (id : Int) (l : List (Direction × Int)) :
    ∀ {qs qs' : QuadStore}, QuadStore.deleteAll id l qs = .ok qs' →
      qs'.prim = qs.prim ∧ qs'.heap = qs.heap := by
  induction l with
  | nil =>
    intro qs qs' h
    simp only [QuadStore.deleteAll, pure_ok] at h
    subst h; exact ⟨rfl, rfl⟩
  | cons e l ih =>
    intro qs qs' h
    obtain ⟨d, v⟩ := e
    simp only [QuadStore.deleteAll] at h
    split at h
    · simp [throw, throwThe, MonadExceptOf.throw] at h
    · simp only [bind_ok] at h
      obtain ⟨⟨t, b⟩, _, h⟩ := h
      have k := ih h
      exact ⟨k.1.trans rfl, k.2.trans rfl⟩

theorem QuadStore.setAll_prim (id : Int) (pr : Nat) (l : List (Direction × Int)) :
    ∀ {qs qs' : QuadStore}, QuadStore.setAll id pr l qs = .ok qs' →
      qs'.prim = qs.prim ∧ qs'.heap = qs.heap := by
  induction l with
  | nil =>
    intro qs qs' h
    simp only [QuadStore.setAll, pure_ok] at h
    subst h; exact ⟨rfl, rfl⟩
  | cons e l ih =>
    intro qs qs' h
    obtain ⟨d, v⟩ := e
    simp only [QuadStore.setAll] at h
    split at h
    · simp [throw, throwThe, MonadExceptOf.throw] at h
    · simp only [bind_ok] at h
      obtain ⟨t, _, h⟩ := h
      have k := ih h
      exact ⟨k.1.trans rfl, k.2.trans rfl⟩

theorem QuadStore.removeAll_prim (qs : QuadStore) (di : Nat) :
    (qs.removeAll di).prim = qs.prim ∧ (qs.removeAll di).heap = qs.heap := by
  unfold QuadStore.removeAll
  simp only []
  split <;> exact ⟨rfl, rfl⟩

theorem mapDel_length_lt {κ β : Type} [DecidableEq κ] (m : List (κ × β)) (k : κ) (v : β)
    (h : mapGet m k = some v) : (mapDel m k).length < m.length := by
  have hm := mapGet_mem m k v h
  unfold mapDel
  apply List.length_filter_lt_length_iff_exists.2
  exact ⟨(k, v), hm, by simp⟩

theorem QuadStore.deleteQuadNodesOr_depth (n : Nat)
    (del1 del2 : QuadStore → Int → M (QuadStore × Bool)) (q : internalQuad)
    (hdel : ∀ (qs : QuadStore) (id : Int), qs.prim.length ≤ n →
      del1 qs id = del2 qs id ∧
      ∀ qs' r, del1 qs id = .ok (qs', r) → qs'.prim.length ≤ qs.prim.length)
    (ds : List Direction) :
    ∀ qs : QuadStore, qs.prim.length ≤ n →
      QuadStore.deleteQuadNodesOr (throw .panic) del1 q ds qs =
        QuadStore.deleteQuadNodesOr (throw .panic) del2 q ds qs ∧
      ∀ qs', QuadStore.deleteQuadNodesOr (throw .panic) del1 q ds qs = .ok qs' →
        qs'.prim.length ≤ qs.prim.length := by
  induction ds with
  | nil =>
    intro qs _
    refine ⟨rfl, fun qs' h => ?_⟩
    simp only [QuadStore.deleteQuadNodesOr, pure_ok] at h
    subst h; exact le_refl _
  | cons d ds ih =>
    intro qs hn
    simp only [QuadStore.deleteQuadNodesOr]
    by_cases h0 : q.Dir d = 0
    · simp only [h0, if_true]; exact ih qs hn
    · simp only [h0, if_false]
      cases hg : mapGet qs.prim (q.Dir d) with
      | none => exact ih qs hn
      | some a =>
        simp only
        cases hd : qs.deref a with
        | error e => simp [bind, Except.bind]
        | ok p =>
          simp only [ok_bind]
          by_cases h1 : p.refs - 1 < 0
          · simp only [if_pos h1]
            exact ⟨trivial, fun qs' h => by simp [throw_ok] at h⟩
          · simp only [if_neg h1]
            have hs : (qs.store a { p with refs := p.refs - 1 }).prim.length ≤ n := hn
            by_cases h2 : p.refs - 1 = 0
            · simp only [if_pos h2]
              obtain ⟨e1, e2⟩ := hdel _ (q.Dir d) hs
              rw [← e1]
              refine ⟨bind_congr_ok ?_, ?_⟩
              · rintro ⟨qs2, r⟩ h
                exact (ih qs2 (le_trans (e2 qs2 r h) hs)).1
              · intro qs' h
                rw [bind_ok] at h
                obtain ⟨⟨qs2, r⟩, h, h'⟩ := h
                have l2 := e2 qs2 r h
                exact le_trans ((ih qs2 (le_trans l2 hs)).2 qs' h') l2
            · simp only [if_neg h2]
              exact ih _ hs

theorem QuadStore.deleteHead_prim {qs qs' : QuadStore} {id : Int} {a : Nat} {p : Primitive}
    (h : qs.deleteHead id a p = .ok qs') :
    qs'.prim = mapDel qs.prim id ∧ qs'.heap = qs.heap := by
  simp only [QuadStore.deleteHead, bind_ok, pure_ok] at h
  obtain ⟨q1, h1, rfl⟩ := h
  have k1 := QuadStore.deleteAll_prim _ _ h1
  have k0 := QuadStore.indexesForQuad_prim p.Quad Direction.all
    (match p.Value with
      | some v => { qs with vals := mapDel qs.vals v.String }
      | none => qs)
  have kv : (match p.Value with
      | some v => { qs with vals := mapDel qs.vals v.String }
      | none => qs).prim = qs.prim ∧ (match p.Value with
      | some v => { qs with vals := mapDel qs.vals v.String }
      | none => qs).heap = qs.heap := by
    split <;> exact ⟨rfl, rfl⟩
  have hp : q1.prim = qs.prim := k1.1.trans (k0.1.trans kv.1)
  have hh : q1.heap = qs.heap := k1.2.trans (k0.2.trans kv.2)
  split
  · rw [(QuadStore.removeAll_prim _ _).1, (QuadStore.removeAll_prim _ _).2]
    exact ⟨by simp only [hp], hh⟩
  · exact ⟨by simp only [hp], hh⟩

theorem QuadStore.deleteQuadNodesWith_eq (del : QuadStore → Int → M (QuadStore × Bool))
    (q : internalQuad) (ds : List Direction) :
    ∀ qs, QuadStore.deleteQuadNodesWith del q ds qs =
      QuadStore.deleteQuadNodesOr (throw .panic) del q ds qs := by
  induction ds with
  | nil => intro qs; rfl
  | cons d ds ih =>
    intro qs
    simp only [QuadStore.deleteQuadNodesWith, QuadStore.deleteQuadNodesOr, ih] <;> rfl

theorem QuadStore.deleteN_eq (fuel : Nat) :
    ∀ qs id, QuadStore.deleteN fuel qs id =
      QuadStore.deleteOr (throw .panic) (fun _ _ => throw .diverge) fuel qs id := by
  induction fuel with
  | zero => intro qs id; rfl
  | succ n ih =>
    intro qs id
    have e : QuadStore.deleteN n =
        QuadStore.deleteOr (throw .panic) (fun _ _ => throw .diverge) n := by
      funext qs id; exact ih qs id
    simp only [QuadStore.deleteN, QuadStore.deleteOr, QuadStore.deleteHead, e, bind_assoc,
      pure_bind, QuadStore.deleteQuadNodesWith_eq] <;> rfl

theorem QuadStore.deleteOr_depth (n : Nat) :
    ∀ (qs : QuadStore) (id : Int) (b1 b2 : QuadStore → Int → M (QuadStore × Bool))
      (f1 f2 : Nat), qs.prim.length ≤ n → n < f1 → n < f2 →
      QuadStore.deleteOr (throw .panic) b1 f1 qs id =
        QuadStore.deleteOr (throw .panic) b2 f2 qs id ∧
      ∀ qs' r, QuadStore.deleteOr (throw .panic) b1 f1 qs id = .ok (qs', r) →
        qs'.prim.length ≤ qs.prim.length := by
  induction n with
  | zero =>
    intro qs id b1 b2 f1 f2 hn h1 h2
    obtain ⟨g1, rfl⟩ : ∃ g, f1 = g + 1 := ⟨f1 - 1, by omega⟩
    obtain ⟨g2, rfl⟩ : ∃ g, f2 = g + 1 := ⟨f2 - 1, by omega⟩
    have hp : qs.prim = [] := List.length_eq_zero.1 (by omega)
    simp only [QuadStore.deleteOr, hp, mapGet]
    refine ⟨trivial, fun qs' r h => ?_⟩
    simp only [pure_ok, Prod.mk.injEq] at h
    rw [← h.1, hp]
  | succ n ih =>
    intro qs id b1 b2 f1 f2 hn h1 h2
    obtain ⟨g1, rfl⟩ : ∃ g, f1 = g + 1 := ⟨f1 - 1, by omega⟩
    obtain ⟨g2, rfl⟩ : ∃ g, f2 = g + 1 := ⟨f2 - 1, by omega⟩
    simp only [QuadStore.deleteOr]
    cases hg : mapGet qs.prim id with
    | none =>
      refine ⟨rfl, fun qs' r h => ?_⟩
      simp only [pure_ok, Prod.mk.injEq] at h
      rw [← h.1]
    | some a =>
      simp only
      cases hd : qs.deref a with
      | error e => simp [bind, Except.bind]
      | ok p =>
        simp only [ok_bind]
        have hlt := mapDel_length_lt qs.prim id a hg
        have key : ∀ q4, qs.deleteHead id a p = .ok q4 → q4.prim.length ≤ n := by
          intro q4 h4
          rw [(QuadStore.deleteHead_prim h4).1]
          omega
        have hdel : ∀ (qs : QuadStore) (id : Int), qs.prim.length ≤ n →
            QuadStore.deleteOr (throw .panic) b1 g1 qs id =
              QuadStore.deleteOr (throw .panic) b2 g2 qs id ∧
            ∀ qs' r, QuadStore.deleteOr (throw .panic) b1 g1 qs id = .ok (qs', r) →
              qs'.prim.length ≤ qs.prim.length :=
          fun qs id h => ih qs id b1 b2 g1 g2 h (by omega) (by omega)
        refine ⟨bind_congr_ok ?_, ?_⟩
        · intro q4 h4
          rw [(QuadStore.deleteQuadNodesOr_depth n _ _ p.Quad hdel Direction.all q4
            (key q4 h4)).1]
        · intro qs' r h
          simp only [bind_ok, pure_ok, Prod.mk.injEq] at h
          obtain ⟨q4, h4, q5, h5, rfl, _⟩ := h
          have l5 := (QuadStore.deleteQuadNodesOr_depth n _ _ p.Quad hdel Direction.all q4
            (key q4 h4)).2 q5 h5
          have := key q4 h4
          rw [(QuadStore.deleteHead_prim h4).1] at l5
          omega

/-- C40: for every store and id, `Delete(id)` run with any bound `fuel` on the depth of the
recursion through `deleteQuadNodes` that exceeds the number of entries of `prim`, and with any
outcome `base` for a call nested deeper than the bound, gives the result of `Delete`: the nested
calls never get deeper than the number of primitives, each one removing an entry of `prim`
before it recurses. -/
theorem Delete_recursion_bounded (qs : QuadStore) (id : Int)
    (base : QuadStore → Int → M (QuadStore × Bool)) (fuel : Nat)
    (h : qs.prim.length < fuel) :
    QuadStore.deleteOr (throw .panic) base fuel qs id = qs.Delete id := by
  unfold QuadStore.Delete
  rw [QuadStore.deleteN_eq]
  exact (QuadStore.deleteOr_depth qs.prim.length qs id _ _ _ _ (le_refl _) h
    (Nat.lt_succ_self _)).1

set_option maxRecDepth 1000000 in
set_option maxHeartbeats 4000000 in
theorem Delete_recursion_bounded_witness :
    storeSelfRef.prim = [(3, 3), (1, 1), (2, 2)] ∧
    (storeSelfRef.heap[3]?).map (·.Quad) = some ⟨3, 1, 2, 0⟩ ∧
    isOk (storeSelfRef.Delete 3) = true ∧
    QuadStore.deleteOr (throw .panic) (fun _ _ => pure (newQuadStore, true)) 4 storeSelfRef 3
      = storeSelfRef.Delete 3 :=
  ⟨by decide!, by decide!, by decide!,
   Delete_recursion_bounded storeSelfRef 3 _ 4 (by decide!)⟩

end Memstore

/-! ### Reference counts of the primitives -/

namespace Memstore

theorem mapSet_mem {κ β : Type} [DecidableEq κ] (m : List (κ × β)) (k : κ) (v : β) (e : κ × β)
    (h : e ∈ mapSet m k v) : e = (k, v) ∨ e ∈ m := by
  induction m with
  | nil =>
    simp only [mapSet, List.mem_singleton] at h
    exact Or.inl h
  | cons x rest ih =>
    simp only [mapSet] at h
    split at h
    · rcases List.mem_cons.1 h with h | h
      · exact Or.inl h
      · exact Or.inr (List.mem_cons_of_mem _ h)
    · rcases List.mem_cons.1 h with h | h
      · exact Or.inr (h ▸ List.mem_cons_self _ _)
      · rcases ih h with h | h
        · exact Or.inl h
        · exact Or.inr (List.mem_cons_of_mem _ h)

theorem mapSet_values_nodup {κ β : Type} [DecidableEq κ] (m : List (κ × β)) (k : κ) (v : β)
    (hn : (m.map Prod.snd).Nodup) (hv : v ∉ m.map Prod.snd) :
    ((mapSet m k v).map Prod.snd).Nodup := by
  induction m with
  | nil => simp [mapSet]
  | cons x rest ih =>
    simp only [List.map_cons, List.nodup_cons, List.mem_cons, not_or] at hn hv
    simp only [mapSet]
    split
    · simp only [List.map_cons, List.nodup_cons]
      exact ⟨hv.2, hn.2⟩
    · simp only [List.map_cons, List.nodup_cons]
      refine ⟨?_, ih hn.2 hv.2⟩
      intro hx
      obtain ⟨e, he, hxe⟩ := List.mem_map.1 hx
      rcases mapSet_mem _ _ _ _ he with h | h
      · subst h
        exact hv.1 hxe
      · exact hn.1 (hxe ▸ List.mem_map_of_mem Prod.snd h)

theorem QuadStore.RefsOk.of_same {a b : QuadStore} (h : a.RefsOk) (h1 : b.prim = a.prim)
    (h2 : b.heap = a.heap) : b.RefsOk := by
  unfold QuadStore.RefsOk at *
  rw [h1, h2]
  exact h

theorem QuadStore.RefsOk.addr_lt {qs : QuadStore} (h : qs.RefsOk) {e : Int × Nat}
    (he : e ∈ qs.prim) : e.2 < qs.heap.length := by
  obtain ⟨p, hp, _⟩ := h.2 e he
  by_contra hge
  rw [List.getElem?_eq_none (by omega)] at hp
  cases hp

theorem QuadStore.RefsOk.fresh {qs : QuadStore} (h : qs.RefsOk) :
    qs.heap.length ∉ qs.prim.map Prod.snd := by
  intro hm
  obtain ⟨e, he, hl⟩ := List.mem_map.1 hm
  have := h.addr_lt he
  omega

theorem QuadStore.RefsOk.alloc {qs : QuadStore} (h : qs.RefsOk) (p : Primitive) :
    (qs.new p).1.RefsOk := by
  refine ⟨h.1, fun e he => ?_⟩
  obtain ⟨p', hp, hr⟩ := h.2 e he
  refine ⟨p', ?_, hr⟩
  show (qs.heap ++ [p])[e.2]? = some p'
  rw [List.getElem?_append_left (h.addr_lt he)]
  exact hp

theorem QuadStore.RefsOk.store {qs : QuadStore} (h : qs.RefsOk) (a : Nat) (p : Primitive)
    (hp : 1 ≤ p.refs ∨ a ∉ qs.prim.map Prod.snd) : (qs.store a p).RefsOk := by
  refine ⟨h.1, fun e he => ?_⟩
  have he' : e ∈ qs.prim := he
  obtain ⟨p', hp', hr⟩ := h.2 e he'
  show ∃ p0, (qs.heap.set a p)[e.2]? = some p0 ∧ 1 ≤ p0.refs
  by_cases hea : e.2 = a
  · rcases hp with hp | hp
    · refine ⟨p, ?_, hp⟩
      have := h.addr_lt he'
      rw [hea] at this
      rw [hea, List.getElem?_set_self this]
    · exact absurd (hea ▸ List.mem_map_of_mem Prod.snd he') hp
  · refine ⟨p', ?_, hr⟩
    rw [List.getElem?_set_ne (fun h => hea h.symm)]
    exact hp'

theorem QuadStore.RefsOk.del {qs : QuadStore} (h : qs.RefsOk) (id : Int) :
    ({ qs with prim := mapDel qs.prim id } : QuadStore).RefsOk := by
  refine ⟨?_, fun e he => ?_⟩
  · exact h.1.sublist (List.Sublist.map _ (List.filter_sublist _))
  · exact h.2 e ((mapDel_mem _ _ _).1 he).1

theorem QuadStore.deref_eq {qs : QuadStore} {a : Nat} {p : Primitive}
    (h : qs.deref a = .ok p) : qs.heap[a]? = some p := by
  unfold QuadStore.deref at h
  split at h
  · rename_i q hq
    simp only [pure_ok] at h
    rw [hq, h]
  · simp [throw, throwThe, MonadExceptOf.throw] at h

theorem QuadStore.RefsOk.refs_pos {qs : QuadStore} (h : qs.RefsOk) {id : Int} {a : Nat}
    {p : Primitive} (hg : mapGet qs.prim id = some a) (hd : qs.deref a = .ok p) :
    1 ≤ p.refs := by
  obtain ⟨p', hp', hr⟩ := h.2 _ (mapGet_mem _ _ _ hg)
  rw [QuadStore.deref_eq hd] at hp'
  cases hp'
  exact hr

theorem QuadStore.RefsOk.store_del {qs : QuadStore} (h : qs.RefsOk) {id : Int} {a : Nat}
    (hg : mapGet qs.prim id = some a) (p : Primitive) :
    ({ qs.store a p with prim := mapDel (qs.store a p).prim id } : QuadStore).RefsOk := by
  refine ⟨?_, fun e he => ?_⟩
  · exact h.1.sublist (List.Sublist.map _ (List.filter_sublist _))
  · have hm := (mapDel_mem qs.prim id e).1 he
    obtain ⟨p', hp', hr⟩ := h.2 e hm.1
    refine ⟨p', ?_, hr⟩
    have hea : e.2 ≠ a := by
      intro hea
      have := List.inj_on_of_nodup_map h.1 hm.1 (mapGet_mem _ _ _ hg) hea
      exact hm.2 (by rw [this])
    show (qs.heap.set a p)[e.2]? = some p'
    rw [List.getElem?_set_ne (fun h => hea h.symm)]
    exact hp'

theorem QuadStore.deleteQuadNodesOr_refs (on1 on2 : M QuadStore)
    (del1 del2 : QuadStore → Int → M (QuadStore × Bool)) (q : internalQuad)
    (hdel : ∀ (qs : QuadStore) (id : Int),
      ({ qs with prim := mapDel qs.prim id } : QuadStore).RefsOk →
      del1 qs id = del2 qs id ∧ ∀ qs' r, del1 qs id = .ok (qs', r) → qs'.RefsOk)
    (ds : List Direction) :
    ∀ qs : QuadStore, qs.RefsOk →
      QuadStore.deleteQuadNodesOr on1 del1 q ds qs =
        QuadStore.deleteQuadNodesOr on2 del2 q ds qs ∧
      ∀ qs', QuadStore.deleteQuadNodesOr on1 del1 q ds qs = .ok qs' → qs'.RefsOk := by
  induction ds with
  | nil =>
    intro qs hI
    refine ⟨rfl, fun qs' h => ?_⟩
    simp only [QuadStore.deleteQuadNodesOr, pure_ok] at h
    subst h; exact hI
  | cons d ds ih =>
    intro qs hI
    simp only [QuadStore.deleteQuadNodesOr]
    by_cases h0 : q.Dir d = 0
    · simp only [h0, if_true]; exact ih qs hI
    · simp only [h0, if_false]
      cases hg : mapGet qs.prim (q.Dir d) with
      | none => exact ih qs hI
      | some a =>
        simp only
        cases hd : qs.deref a with
        | error e => simp [bind, Except.bind]
        | ok p =>
          simp only [ok_bind]
          have hr := hI.refs_pos hg hd
          have h1 : ¬ p.refs - 1 < 0 := by omega
          simp only [if_neg h1]
          by_cases h2 : p.refs - 1 = 0
          · simp only [if_pos h2]
            obtain ⟨e1, e2⟩ := hdel (qs.store a { p with refs := p.refs - 1 }) (q.Dir d)
              (hI.store_del hg _)
            rw [← e1]
            refine ⟨bind_congr_ok ?_, ?_⟩
            · rintro ⟨qs2, r⟩ h
              exact (ih qs2 (e2 qs2 r h)).1
            · intro qs' h
              rw [bind_ok] at h
              obtain ⟨⟨qs2, r⟩, h, h'⟩ := h
              exact (ih qs2 (e2 qs2 r h)).2 qs' h'
          · simp only [if_neg h2]
            exact ih _ (hI.store a _ (Or.inl (by show 1 ≤ p.refs - 1; omega)))

theorem QuadStore.deleteOr_refs (on1 on2 : M QuadStore) (fuel : Nat) :
    ∀ (qs : QuadStore) (id : Int), ({ qs with prim := mapDel qs.prim id } : QuadStore).RefsOk →
      QuadStore.deleteOr on1 (fun _ _ => throw .diverge) fuel qs id =
        QuadStore.deleteOr on2 (fun _ _ => throw .diverge) fuel qs id ∧
      ∀ qs' r, QuadStore.deleteOr on1 (fun _ _ => throw .diverge) fuel qs id = .ok (qs', r) →
        qs'.RefsOk := by
  induction fuel with
  | zero =>
    intro qs id _
    refine ⟨rfl, fun qs' r h => ?_⟩
    simp [QuadStore.deleteOr, throw, throwThe, MonadExceptOf.throw] at h
  | succ n ih =>
    intro qs id hP
    simp only [QuadStore.deleteOr]
    cases hg : mapGet qs.prim id with
    | none =>
      refine ⟨rfl, fun qs' r h => ?_⟩
      simp only [pure_ok, Prod.mk.injEq] at h
      rw [← h.1]
      exact hP.of_same (mapDel_absent _ _ hg).symm rfl
    | some a =>
      simp only
      cases hd : qs.deref a with
      | error e => simp [bind, Except.bind]
      | ok p =>
        simp only [ok_bind]
        have key : ∀ q4, qs.deleteHead id a p = .ok q4 → q4.RefsOk := by
          intro q4 h4
          exact hP.of_same (QuadStore.deleteHead_prim h4).1 (QuadStore.deleteHead_prim h4).2
        refine ⟨bind_congr_ok ?_, ?_⟩
        · intro q4 h4
          rw [(QuadStore.deleteQuadNodesOr_refs on1 on2 _ _ p.Quad ih Direction.all q4
            (key q4 h4)).1]
        · intro qs' r h
          simp only [bind_ok, pure_ok, Prod.mk.injEq] at h
          obtain ⟨q4, h4, q5, h5, rfl, _⟩ := h
          exact (QuadStore.deleteQuadNodesOr_refs on1 on2 _ _ p.Quad ih Direction.all q4
            (key q4 h4)).2 q5 h5

theorem QuadStore.Delete_refs {qs qs' : QuadStore} {id : Int} {b : Bool}
    (h : qs.Delete id = .ok (qs', b)) (hI : qs.RefsOk) : qs'.RefsOk := by
  unfold QuadStore.Delete at h
  rw [QuadStore.deleteN_eq] at h
  exact (QuadStore.deleteOr_refs (throw .panic) (throw .panic) _ qs id (hI.del id)).2 qs' b h

theorem QuadStore.append_prim (qs : QuadStore) (sl : Slice) (a : Nat) :
    (qs.append sl a).1.prim = qs.prim ∧ (qs.append sl a).1.heap = qs.heap := by
  unfold QuadStore.append
  split <;> exact ⟨rfl, rfl⟩

theorem QuadStore.appendPrimitive_prim {qs qs' : QuadStore} {a : Nat}
    (h : qs.appendPrimitive a = .ok qs') :
    ∃ p, qs.heap[a]? = some p ∧ qs'.prim = mapSet qs.prim p.ID a ∧ qs'.heap = qs.heap := by
  simp only [QuadStore.appendPrimitive, bind_ok] at h
  obtain ⟨p, hp, h⟩ := h
  refine ⟨p, QuadStore.deref_eq hp, ?_⟩
  split at h
  · simp only [pure_ok] at h
    subst h
    exact ⟨(QuadStore.append_prim _ _ _).1, (QuadStore.append_prim _ _ _).2⟩
  · simp only [pure_ok] at h
    subst h
    exact ⟨(QuadStore.append_prim _ _ _).1, (QuadStore.append_prim _ _ _).2⟩

theorem QuadStore.appendPrimitive_refs {qs qs' : QuadStore} {a : Nat}
    (h : qs.appendPrimitive a = .ok qs') (hI : qs.RefsOk)
    (hfresh : a ∉ qs.prim.map Prod.snd) (hp : ∀ p, qs.heap[a]? = some p → 1 ≤ p.refs) :
    qs'.RefsOk := by
  obtain ⟨p, hpa, e1, e2⟩ := QuadStore.appendPrimitive_prim h
  refine ⟨?_, fun e he => ?_⟩
  · rw [e1]
    exact mapSet_values_nodup _ _ _ hI.1 hfresh
  · rw [e1] at he
    rw [e2]
    rcases mapSet_mem _ _ _ _ he with he | he
    · subst he
      exact ⟨p, hpa, hp p hpa⟩
    · exact hI.2 e he

theorem QuadStore.addPrimitive_refs {qs qs' : QuadStore} {a : Nat} {id : Int}
    (h : qs.addPrimitive a = .ok (qs', id)) (hI : qs.RefsOk)
    (hfresh : a ∉ qs.prim.map Prod.snd) : qs'.RefsOk := by
  simp only [QuadStore.addPrimitive, bind_ok, pure_ok, Prod.mk.injEq] at h
  obtain ⟨p, hd, q, hq, rfl, _⟩ := h
  have hlt : a < qs.heap.length := by
    have := QuadStore.deref_eq hd
    by_contra hge
    rw [show ({ qs with last := qs.last + 1 } : QuadStore).heap = qs.heap from rfl,
      List.getElem?_eq_none (by omega)] at this
    cases this
  have hI1 : ({ qs with last := qs.last + 1 } : QuadStore).RefsOk := hI.of_same rfl rfl
  have hI2 := hI1.store a { p with ID := qs.last + 1, refs := 1 } (Or.inr hfresh)
  refine QuadStore.appendPrimitive_refs hq hI2 hfresh ?_
  intro p0 hp0
  have : (qs.heap.set a { p with ID := qs.last + 1, refs := 1 })[a]? = some p0 := hp0
  rw [List.getElem?_set_self hlt] at this
  cases this
  exact le_refl _

theorem QuadStore.new_fresh {qs : QuadStore} (hI : qs.RefsOk) (p : Primitive) :
    (qs.new p).2 ∉ (qs.new p).1.prim.map Prod.snd := hI.fresh

theorem QuadStore.resolveVal_refs {qs qs' : QuadStore} {v : Option Value}
    {add : Bool} {id : Int} {ok : Bool} (h : qs.resolveVal v add = .ok (qs', id, ok))
    (hI : qs.RefsOk) : qs'.RefsOk := by
  unfold QuadStore.resolveVal at h
  split at h
  · simp only [pure_ok, Prod.mk.injEq] at h
    rw [← h.1]; exact hI
  · split at h
    · split at h
      · rename_i a hg
        simp only [bind_ok, pure_ok, Prod.mk.injEq] at h
        obtain ⟨p, hd, rfl, _⟩ := h
        have := hI.refs_pos hg hd
        exact hI.store a _ (Or.inl (by show 1 ≤ p.refs + 1; omega))
      · simp only [pure_ok, Prod.mk.injEq] at h
        rw [← h.1]; exact hI
      · simp only [pure_ok, Prod.mk.injEq] at h
        rw [← h.1]; exact hI
      · simp only [bind_ok, pure_ok, Prod.mk.injEq] at h
        obtain ⟨q, hq, rfl, _⟩ := h
        refine QuadStore.appendPrimitive_refs hq (hI.alloc _) (QuadStore.new_fresh hI _) ?_
        intro p0 hp0
        simp only [QuadStore.new] at hp0
        rw [List.getElem?_append_right (le_refl _)] at hp0
        simp only [Nat.sub_self, List.getElem?_cons_zero, Option.some.injEq] at hp0
        rw [← hp0]
    · simp only [] at h
      split at h
      · split at h
        · simp [throw, throwThe, MonadExceptOf.throw] at h
        · rename_i a hg
          simp only [bind_ok, pure_ok, Prod.mk.injEq] at h
          obtain ⟨p, hd, rfl, _⟩ := h
          have := hI.refs_pos hg hd
          exact hI.store a _ (Or.inl (by show 1 ≤ p.refs + 1; omega))
      · simp only [pure_ok, Prod.mk.injEq] at h
        rw [← h.1]; exact hI
      · simp only [pure_ok, Prod.mk.injEq] at h
        rw [← h.1]; exact hI
      · simp only [bind_ok, pure_ok, Prod.mk.injEq] at h
        obtain ⟨⟨q, i⟩, hq, rfl, _⟩ := h
        have k := QuadStore.addPrimitive_refs hq (hI.alloc _) (QuadStore.new_fresh hI _)
        exact k.of_same rfl rfl

theorem QuadStore.resolveDirs_refs (q : Memstore.Quad) (add : Bool) (ds : List Direction) :
    ∀ {qs qs' : QuadStore} {p : internalQuad} {r : Option internalQuad},
      QuadStore.resolveDirs q add ds qs p = .ok (qs', r) → qs.RefsOk → qs'.RefsOk := by
  induction ds with
  | nil =>
    intro qs qs' p r h hI
    simp only [QuadStore.resolveDirs, pure_ok, Prod.mk.injEq] at h
    rw [← h.1]; exact hI
  | cons d ds ih =>
    intro qs qs' p r h hI
    unfold QuadStore.resolveDirs at h
    split at h
    · exact ih h hI
    · simp only [bind_ok] at h
      obtain ⟨⟨q1, vid, ok⟩, hv, h⟩ := h
      have k1 := QuadStore.resolveVal_refs hv hI
      simp only at h
      split at h
      · exact ih h k1
      · split at h
        · simp only [pure_ok, Prod.mk.injEq] at h
          rw [← h.1]; exact k1
        · exact ih h k1

theorem QuadStore.resolveQuad_refs {qs qs' : QuadStore} {q : Memstore.Quad} {add : Bool}
    {p : internalQuad} {ok : Bool} (h : qs.resolveQuad q add = .ok (qs', p, ok))
    (hI : qs.RefsOk) : qs'.RefsOk := by
  simp only [QuadStore.resolveQuad, bind_ok] at h
  obtain ⟨⟨q1, r⟩, hr, h⟩ := h
  have k := QuadStore.resolveDirs_refs q add _ hr hI
  cases r <;> simp only [pure_ok, Prod.mk.injEq] at h <;> (rw [← h.1]; exact k)

theorem QuadStore.AddQuad_refs {qs qs' : QuadStore} {q : Memstore.Quad} {id : Int}
    {ok : Bool} (h : qs.AddQuad q = .ok (qs', id, ok)) (hI : qs.RefsOk) : qs'.RefsOk := by
  simp only [QuadStore.AddQuad, bind_ok] at h
  obtain ⟨⟨q1, p1, o1⟩, h1, h⟩ := h
  have k1 := QuadStore.resolveQuad_refs h1 hI
  simp only at h
  split at h
  · simp only [pure_ok, Prod.mk.injEq] at h
    rw [← h.1]; exact k1
  · simp only [bind_ok] at h
    obtain ⟨⟨q2, p2, o2⟩, h2, ⟨q3, i3⟩, h3, h⟩ := h
    have k2 := QuadStore.resolveQuad_refs h2 k1
    have k3 := QuadStore.addPrimitive_refs h3 (k2.alloc _) (QuadStore.new_fresh k2 _)
    simp only [bind_ok, pure_ok, Prod.mk.injEq] at h
    obtain ⟨q4, h4, rfl, _⟩ := h
    have k4 := QuadStore.setAll_prim _ _ _ h4
    have k5 := QuadStore.indexesForQuad_prim p2 Direction.all
      { q3 with quads := mapSet q3.quads p2 i3 }
    exact k3.of_same (k4.1.trans k5.1) (k4.2.trans k5.2)

theorem QuadStore.AddValue_refs {qs qs' : QuadStore} {v : Option Value} {id : Int}
    {ok : Bool} (h : qs.AddValue v = .ok (qs', id, ok)) (hI : qs.RefsOk) : qs'.RefsOk := by
  simp only [QuadStore.AddValue, bind_ok, pure_ok, Prod.mk.injEq] at h
  obtain ⟨⟨q1, i1, o1⟩, h1, rfl, _⟩ := h
  exact QuadStore.resolveVal_refs h1 hI

theorem QuadStore.AddBNode_refs {qs qs' : QuadStore} {id : Int}
    (h : qs.AddBNode = .ok (qs', id)) (hI : qs.RefsOk) : qs'.RefsOk := by
  simp only [QuadStore.AddBNode] at h
  exact QuadStore.addPrimitive_refs h (hI.alloc _) (QuadStore.new_fresh hI _)

theorem QuadStore.applyAll_refs (l : List Delta) :
    ∀ {qs qs' : QuadStore} {e : Option DeltaError}, QuadStore.applyAll l qs = .ok (qs', e) →
      qs.RefsOk → qs'.RefsOk := by
  induction l with
  | nil =>
    intro qs qs' e h hI
    simp only [QuadStore.applyAll, pure_ok, Prod.mk.injEq] at h
    rw [← h.1]; exact hI
  | cons d l ih =>
    intro qs qs' e h hI
    simp only [QuadStore.applyAll] at h
    split at h
    · simp only [bind_ok] at h
      obtain ⟨⟨q1, i1, o1⟩, h1, h⟩ := h
      exact ih h (QuadStore.AddQuad_refs h1 hI)
    · simp only [bind_ok] at h
      obtain ⟨⟨i1, p1, o1⟩, _, h⟩ := h
      simp only at h
      split at h
      · simp only [bind_ok] at h
        obtain ⟨⟨q1, b1⟩, h1, h⟩ := h
        exact ih h (QuadStore.Delete_refs h1 hI)
      · exact ih h hI
    · simp only [pure_ok, Prod.mk.injEq] at h
      rw [← h.1]; exact hI

theorem QuadStore.ApplyDeltas_refs {qs qs' : QuadStore} {l : List Delta}
    {o : IgnoreOpts} {e : Option DeltaError} (h : qs.ApplyDeltas l o = .ok (qs', e))
    (hI : qs.RefsOk) : qs'.RefsOk := by
  have key : ∀ e1 : Option DeltaError,
      (match e1 with
        | some e => (pure (qs, some e) : M (QuadStore × Option DeltaError))
        | none => do
          let (qs, e) ← QuadStore.applyAll l qs
          match e with
          | some e => pure (qs, some e)
          | none => pure ({ qs with horizon := qs.horizon + 1 }, none)) = .ok (qs', e) →
      qs'.RefsOk := by
    intro e1 h
    split at h
    · simp only [pure_ok, Prod.mk.injEq] at h
      rw [← h.1]; exact hI
    · simp only [bind_ok] at h
      obtain ⟨⟨q1, e2⟩, h1, h⟩ := h
      have k := QuadStore.applyAll_refs l h1 hI
      simp only at h
      split at h
      · simp only [pure_ok, Prod.mk.injEq] at h
        rw [← h.1]; exact k
      · simp only [pure_ok, Prod.mk.injEq] at h
        rw [← h.1]
        exact k.of_same rfl rfl
  unfold QuadStore.ApplyDeltas at h
  simp only [] at h
  split at h
  · rw [bind_ok] at h
    obtain ⟨e1, _, h⟩ := h
    exact key e1 h
  · rw [bind_ok] at h
    obtain ⟨e1, _, h⟩ := h
    exact key e1 h

theorem QuadStore.step_refs {qs qs' : QuadStore} (op : StoreOp)
    (h : qs.step op = .ok qs') (hI : qs.RefsOk) : qs'.RefsOk := by
  cases op with
  | AddQuad q =>
    simp only [QuadStore.step, bind_ok, pure_ok] at h
    obtain ⟨⟨q1, i1, o1⟩, h1, rfl⟩ := h
    exact QuadStore.AddQuad_refs h1 hI
  | AddValue v =>
    simp only [QuadStore.step, bind_ok, pure_ok] at h
    obtain ⟨⟨q1, i1, o1⟩, h1, rfl⟩ := h
    exact QuadStore.AddValue_refs h1 hI
  | AddBNode =>
    simp only [QuadStore.step, bind_ok, pure_ok] at h
    obtain ⟨⟨q1, i1⟩, h1, rfl⟩ := h
    exact QuadStore.AddBNode_refs h1 hI
  | Delete id =>
    simp only [QuadStore.step, bind_ok, pure_ok] at h
    obtain ⟨⟨q1, i1⟩, h1, rfl⟩ := h
    exact QuadStore.Delete_refs h1 hI
  | ApplyDeltas l o =>
    simp only [QuadStore.step, bind_ok, pure_ok] at h
    obtain ⟨⟨q1, i1⟩, h1, rfl⟩ := h
    exact QuadStore.ApplyDeltas_refs h1 hI

theorem QuadStore.steps_refs (ops : List StoreOp) :
    ∀ {qs qs' : QuadStore}, QuadStore.steps ops qs = .ok qs' → qs.RefsOk → qs'.RefsOk := by
  induction ops with
  | nil =>
    intro qs qs' h hI
    simp only [QuadStore.steps, pure_ok] at h
    rw [← h]; exact hI
  | cons op ops ih =>
    intro qs qs' h hI
    simp only [QuadStore.steps, bind_ok] at h
    obtain ⟨q1, h1, h⟩ := h
    exact ih h (QuadStore.step_refs op h1 hI)

theorem newQuadStore_refs : newQuadStore.RefsOk :=
  ⟨List.nodup_nil, fun e he => by cases he⟩

/-- C39: in every state that a new store reaches by `AddQuad`, `AddValue`, `AddBNode`, `Delete`
and `ApplyDeltas` calls, every primitive of `prim` has a reference count of at least 1, and a
call of `Delete` gives the same result whatever stands in the place of the panic
"remove of deleted node" of `deleteQuadNodes`: that statement is not reached. -/
theorem refs_at_least_one (ops : List StoreOp) (qs : QuadStore)
    (h : QuadStore.steps ops newQuadStore = .ok qs) :
    (∀ id a, mapGet qs.prim id = some a → ∃ p, qs.deref a = .ok p ∧ 1 ≤ p.refs) ∧
    ∀ (id : Int) (onNeg : M QuadStore),
      QuadStore.deleteOr onNeg (fun _ _ => throw .diverge) (qs.prim.length + 1) qs id
        = qs.Delete id := by
  have hI := QuadStore.steps_refs ops h newQuadStore_refs
  refine ⟨fun id a hg => ?_, fun id onNeg => ?_⟩
  · obtain ⟨p, hp, hr⟩ := hI.2 _ (mapGet_mem _ _ _ hg)
    refine ⟨p, ?_, hr⟩
    unfold QuadStore.deref
    simp only at hp
    rw [hp]
    rfl
  · have k := (QuadStore.deleteOr_refs onNeg (throw .panic) (qs.prim.length + 1) qs id
      (hI.del id)).1
    rw [k]
    unfold QuadStore.Delete
    rw [QuadStore.deleteN_eq]

set_option maxRecDepth 1000000 in
set_option maxHeartbeats 4000000 in
theorem refs_at_least_one_witness :
    storeTwoQuads.prim = [(2, 1), (3, 2), (5, 4), (6, 5), (7, 6)] ∧
    storeTwoQuads.heap.map (·.refs) = [0, 1, 1, 1, 1, 1, 1] ∧
    ((∀ id a, mapGet storeTwoQuads.prim id = some a →
        ∃ p, storeTwoQuads.deref a = .ok p ∧ 1 ≤ p.refs) ∧
      ∀ (id : Int) (onNeg : M QuadStore),
        QuadStore.deleteOr onNeg (fun _ _ => throw .diverge) (storeTwoQuads.prim.length + 1)
          storeTwoQuads id = storeTwoQuads.Delete id) :=
  ⟨by decide!, by decide!,
   refs_at_least_one twoQuadOps storeTwoQuads (ok_of_isOk newQuadStore _ (by decide!))⟩

end Memstore

/-! ### The version counter of the tree -/

namespace Memstore

theorem Ensures.bind {α β : Type} {x : M α} {f : α → M β} {S : α → Prop} {Q : β → Prop}
    (hx : Ensures x S) (hf : ∀ a, S a → Ensures (f a) Q) : Ensures (x >>= f) Q := by
  intro b hb
  rw [bind_ok] at hb
  obtain ⟨a, ha, hb⟩ := hb
  exact hf a (hx a ha) b hb

theorem Ensures.pure {α : Type} {a : α} {Q : α → Prop} (h : Q a) :
    Ensures (Pure.pure a : M α) Q := by
  intro b hb
  rw [pure_ok] at hb
  subst hb; exact h

theorem Ensures.throw {α : Type} (e : Err) (Q : α → Prop) :
    Ensures (MonadExcept.throw e : M α) Q := by
  intro b hb
  exact absurd hb (by simp [MonadExcept.throw, throwThe, MonadExceptOf.throw])

theorem Ensures.bind_assoc {α β γ : Type} {x : M α} {g : α → M β} {f : β → M γ} {Q : γ → Prop}
    (h : Ensures (x >>= fun a => g a >>= f) Q) : Ensures ((x >>= g) >>= f) Q := by
  intro c hc
  apply h c
  rw [← hc]
  cases x <;> rfl

theorem Ensures.pure_bind {α β : Type} {a : α} {f : α → M β} {Q : β → Prop}
    (h : Ensures (f a) Q) : Ensures ((Pure.pure a : M α) >>= f) Q := h

mutual
theorem clr_ver (t : Tree) : (n : Node) → ∀ t', clr t n = .ok t' → t'.ver = t.ver ∧ t'.c = t.c
  | .nil => by
    intro t' h
    simp only [clr, pure_ok] at h
    subst h; exact ⟨rfl, rfl⟩
  | .d q => by
    intro t' h
    simp only [clr, pure_ok] at h
    subst h; exact ⟨rfl, rfl⟩
  | .x c xs => by
    intro t' h
    simp only [clr] at h
    split at h
    · exact clrSlots_ver t xs _ t' h
    · simp only [pure_ok] at h
      subst h; exact ⟨rfl, rfl⟩
theorem clrSlots_ver (t : Tree) : (xs : List (Node × Int)) → (m : Nat) → ∀ t',
    clrSlots t xs m = .ok t' → t'.ver = t.ver ∧ t'.c = t.c
  | _, 0 => by
    intro t' h
    simp only [clrSlots, pure_ok] at h
    subst h; exact ⟨rfl, rfl⟩
  | [], _ + 1 => by
    intro t' h
    simp [clrSlots, MonadExcept.throw, throwThe, MonadExceptOf.throw] at h
  | s :: rest, m + 1 => by
    intro t' h
    simp only [clrSlots, bind_ok] at h
    obtain ⟨t1, h1, h2⟩ := h
    have e1 := clr_ver t s.1 t1 h1
    have e2 := clrSlots_ver t1 rest m t' h2
    exact ⟨e2.1.trans e1.1, e2.2.trans e1.2⟩
end

end Memstore

namespace Memstore

set_option maxRecDepth 1000000 in
set_option maxHeartbeats 4000000 in
/-- C1: the tree built by Set 1..65, Delete 33, Set 66..97 is reached without a fault, and Set(33, v) on it does not complete: overflow hands position -1 to insert and the page array is sliced out of bounds. -/
theorem Set_panics_on_full_leaf :
    isOk scenarioFullLeaf = true ∧
    isPanic (scenarioFullLeaf >>= fun t => t.Set 33 (some 33)) = true := by decide!

set_option maxRecDepth 1000000 in
set_option maxHeartbeats 4000000 in
/-- C6: on the tree built by Set 1..65, Delete 33, Set 66..97 the call Put(33, upd) with a writing updater does not complete: it faults inside overflow instead of storing the value. -/
theorem Put_panics_on_full_leaf :
    isOk scenarioFullLeaf = true ∧
    isPanic (scenarioFullLeaf >>= fun t => t.Put 33 (fun _ _ => (some 33, true))) = true := by
  decide!

set_option maxRecDepth 100000 in
/-- C7: an enumerator whose Next returned io.EOF yields an item again on a later Next after the key under it was deleted and a greater key was set, so io.EOF is not sticky. -/
theorem Next_after_EOF_yields_item :
    scenarioSticky = .ok (⟨1, some 10, none⟩, ⟨0, none, some .EOF⟩, ⟨2, some 21, none⟩) := by
  decide!

set_option maxRecDepth 100000 in
/-- C8: after Next yielded key 10 and key 20 was set, the following Next returns io.EOF although the tree holds the greater key 20. -/
theorem Next_misses_appended_key :
    scenarioResume = .ok (⟨1, some 10, none⟩, ⟨0, none, some .EOF⟩, some 20, true) := by
  decide!

set_option maxRecDepth 100000 in
/-- C9: with the quad of four absent directions in the store, AddQuad of the absent quad (alice, knows, bob) returns false and the id of the other quad, and the quad is still absent afterwards. -/
theorem AddQuad_reports_absent_quad_as_present :
    scenarioAddQuad = .ok (false, 1, false) := by
  decide!

set_option maxRecDepth 100000 in
/-- C10: with the quad of four absent directions in the store, adding the absent quad (alice, knows, bob) twice leaves Stats.Quads at its old value instead of raising it by one. -/
theorem AddQuad_twice_adds_nothing :
    scenarioAddTwice = .ok (false, 1, 1, 1, 1) := by
  decide!

set_option maxRecDepth 100000 in
/-- C11: after adding the single quad (alice, knows, bob) to a new store, Stats does not report nodes = 2 and quads = 1. -/
theorem Stats_nodes_not_two : scenarioStats ≠ .ok ⟨2, 1⟩ := by
  decide!

set_option maxRecDepth 100000 in
/-- C11: after adding the single quad (alice, knows, bob) to a new store, Stats reports quads = 1 and nodes = 3. -/
theorem Stats_after_one_quad : scenarioStats = .ok ⟨3, 1⟩ := by
  decide!

set_option maxRecDepth 100000 in
/-- C12: adding a quad whose subject is the blank node memnode3 to a new store gives the quad primitive the id 3 that the blank node already holds, so two primitives of all share an id. -/
theorem AddQuad_reuses_memnode_id :
    scenarioMemnodeIDs = .ok (3, true, [3, 1, 2, 3]) := by
  decide!

set_option maxRecDepth 100000 in
/-- C13: after AddQuad of a quad whose subject is the blank node memnode5, the quad is in the store but ValueOf of its subject returns nil. -/
theorem ValueOf_misses_memnode_subject :
    scenarioValueOf = .ok (true, true, none) := by
  decide!

set_option maxRecDepth 100000 in
/-- C14: adding an absent quad with a memnode subject and deleting it again does not restore Stats.Quads: the count goes from 2 to 1. -/
theorem Add_then_Delete_loses_a_quad :
    scenarioAddDelete = .ok (false, ⟨2, 2⟩, ⟨3, 2⟩, ⟨2, 1⟩) := by
  decide!

set_option maxRecDepth 100000 in
/-- C15: after ApplyDeltas added a quad whose subject is a memnode blank node, ValueOf of that subject returns nil although the quad is in the store. -/
theorem ApplyDeltas_ValueOf_misses_memnode :
    scenarioDeltaValueOf = .ok (none, true, none) := by
  decide!

set_option maxRecDepth 100000 in
/-- C17: ApplyDeltas with both ignore options set, an Add delta and then a delta of unknown action returns ErrInvalidAction and leaves the added quad in the store. -/
theorem ApplyDeltas_error_keeps_added_quad :
    scenarioNoRollback =
      .ok (some ⟨⟨quadAKB, .other 0⟩, .ErrInvalidAction⟩, ⟨0, 0⟩, ⟨3, 1⟩) := by
  decide!

end Memstore

namespace Memstore

/-- C30: the comparator `cmp(a, b) = int(a - b)` is positive for `a` the least 64-bit integer
and `b = 1`, although `a < b`: the subtraction wraps around. -/
theorem cmp_wraps_around :
    (-9223372036854775808 : Int) < 1 ∧ cmp (-9223372036854775808) 1 = 9223372036854775807 := by
  decide

set_option maxRecDepth 1000000 in
set_option maxHeartbeats 4000000 in
/-- C36: on the tree built by Set 1..65, Delete 33, Set 66..97, whose root has one separator and
whose second data page is full (64 entries), `find` gives position 0 for the key 33; `overflow`
called with that position, and `insert` called with the position -1 that `overflow` computes,
end in a run-time panic on a slice of the page array. -/
theorem overflow_inserts_before_page_start :
    scenarioOverflow = .ok (1, 64, 0, false, true, true) := by
  decide!

end Memstore

namespace Memstore

set_option maxRecDepth 1000000 in
set_option maxHeartbeats 4000000 in
/-- C2: on the tree built by `Set(0)`, `Set(keyHi)`, `Set(keyLo)` with the comparator `cmp`,
`Get(keyHi)` finds the key; `Delete(0)` returns true and `Get(0)` then misses, but `Get(keyHi)`
misses as well, although `keyHi` was not deleted. -/
theorem Delete_loses_other_key :
    scenarioDeleteFar = .ok ([(some 1, true), (some 0, true)], true, [(none, false), (none, false)]) := by
  decide!

set_option maxRecDepth 1000000 in
set_option maxHeartbeats 4000000 in
/-- C3: after `Set(0)`, `Set(keyHi)`, `Set(keyLo)`, `Delete(0)`, `Set(keyHi)` with the comparator
`cmp`, the enumerator of `SeekFirst` yields `keyHi`, `keyLo`, `keyHi` and then `io.EOF`: the key
`keyHi` comes twice, and the keys do not ascend. -/
theorem Next_yields_key_twice :
    scenarioNextFar = .ok [⟨keyHi, some 3, none⟩, ⟨keyLo, some 2, none⟩, ⟨keyHi, some 1, none⟩,
      ⟨0, none, some .EOF⟩] ∧ keyLo < keyHi := by
  decide!

set_option maxRecDepth 1000000 in
set_option maxHeartbeats 4000000 in
/-- C4: after `Set(0)`, `Set(keyHi)`, `Set(keyLo)`, `Delete(0)`, `Set(keyHi)` with the comparator
`cmp`, the enumerator of `SeekLast` yields `keyHi`, `keyLo`, `keyHi` and then `io.EOF`: the key
`keyHi` comes twice, and the keys do not descend. -/
theorem Prev_yields_key_twice :
    scenarioPrevFar = .ok [⟨keyHi, some 1, none⟩, ⟨keyLo, some 2, none⟩, ⟨keyHi, some 3, none⟩,
      ⟨0, none, some .EOF⟩] ∧ keyLo < keyHi := by
  decide!

set_option maxRecDepth 1000000 in
set_option maxHeartbeats 4000000 in
/-- C5: after `Set(0)`, `Set(keyHi)`, `Set(keyLo)`, `Delete(0)` with the comparator `cmp` the
tree holds `keyLo` and `keyHi`, but `Seek(keyHi)` reports no hit and the first `Next` yields
`keyLo`, which is less than `keyHi`. -/
theorem Seek_misses_present_key :
    scenarioSeekFar = .ok ([keyLo, keyHi], false, ⟨keyLo, some 2, none⟩) ∧ keyLo < keyHi := by
  decide!

set_option maxRecDepth 1000000 in
set_option maxHeartbeats 4000000 in
/-- C37: after `Set(0)`, `Set(keyHi)`, `Set(keyLo)`, `Delete(0)`, `Set(keyHi)` with the
comparator `cmp`, all calls completing, the one data page holds the keys `keyHi`, `keyLo`,
`keyHi`: they are not strictly ascending, and `keyHi` is there twice. -/
theorem page_keys_not_ascending :
    scenarioPageFar = .ok ([keyHi, keyLo, keyHi], 3) ∧ keyLo < keyHi := by
  decide!

end Memstore

namespace Memstore

end Memstore
